import Mathlib

/-!
# Super-Simple-ECS: the entity ring of `entities.c`

A shallow embedding of `src/simple-entities/entities.c`.

* C pointers are `Ptr = Option Nat` (`none` is `NULL`); the heap is a list of
  cells, a cell being `some node` while allocated and `none` once freed;
  `malloc` appends a cell, so the address it returns is the length of the heap.
* A `float` is the rational number it denotes, and a `float` literal is the
  binary32 value it is read as (`c025`, `c01`). The one float operation of the
  file, the addition in `ExampleTick`, is the binary32 addition `fadd32`: the
  exact sum rounded to the nearest binary32 value, ties to even. The sum of a
  finite value and `±0.025f` never overflows (`fadd32_finite`), so infinities
  and NaN are not reachable from finite positions and are not modelled; nor is
  the sign of zero, which no comparison of the file can tell.
* Function pointers are numbers, interpreted by a table of hooks (`Hooks`).
  A hook receives the memory (heap and library output) and may fail.
* Functions of raylib/raymath that the file calls but does not define are the
  fields of `Raylib`, except `Vector3Add`, which is componentwise addition.
* Every loop takes a `fuel` bound on the number of iterations; running out of
  fuel, dereferencing `NULL`/a freed cell or calling a `NULL` function gives `none`.
-/

namespace ECS

/-! ## Data model -/

/-- The constant `#define TAG_CHAR_SIZE 128`. -/
abbrev TAG_CHAR_SIZE : Nat := 128

/-- A C pointer to a `Node`: `none` is `NULL`, `some a` the address `a`. -/
abbrev Ptr := Option Nat

/-- A pointer to a function: `none` is `NULL`, `some f` the function number `f`. -/
abbrev FnPtr := Option Nat

/-- The raylib `Model`, an opaque asset handle. -/
abbrev Model := Nat

/-- The raylib `Vector3`. -/
structure Vector3 where
  x : ℚ
  y : ℚ
  z : ℚ
  deriving DecidableEq

/-- The raylib `BoundingBox`. -/
structure BoundingBox where
  min : Vector3
  max : Vector3
  deriving DecidableEq

/-- The buffer `char tags[TAG_CHAR_SIZE]`. -/
structure Tags where
  bytes : List Char
  size : bytes.length = TAG_CHAR_SIZE
  deriving DecidableEq

/-- The byte `tags[i]`. -/
def Tags.get (t : Tags) (i : Nat) : Char := t.bytes.getD i (Char.ofNat 0)

/-- The assignment `tags[i] = c`. -/
def Tags.set (t : Tags) (i : Nat) (c : Char) : Tags :=
  ⟨t.bytes.set i c, by rw [List.length_set]; exact t.size⟩

/-- The buffer after `memset(tags, 0, TAG_CHAR_SIZE)`. -/
def Tags.zero : Tags := ⟨List.replicate TAG_CHAR_SIZE (Char.ofNat 0), List.length_replicate _ _⟩

/-- The C `struct Node`. -/
structure Node where
  model : Model
  position : Vector3
  boundingBox : BoundingBox
  tick : FnPtr
  onCollision : FnPtr
  next : Ptr
  tags : Tags
  deriving DecidableEq

/-- A call into the library (or libc) that leaves a visible effect. -/
inductive Output where
  | printf (x y z : ℚ)
  | DrawModel (model : Model) (position : Vector3)
  | DrawModelWires (model : Model) (position : Vector3)
  | DrawSphereWires (centerPos : Vector3)
  | UnloadModel (model : Model)
  | free (ptr : Ptr)
  deriving DecidableEq

/-- What a hook can read and write: the heap and the library output so far. -/
structure Mem where
  heap : List (Option Node)
  out : List Output
  deriving DecidableEq

/-- An invocation of a hook through a function pointer. -/
inductive Call where
  | beginPlay (fn : Nat) (node : Ptr)
  | tick (fn : Nat) (node : Ptr)
  | onCollision (fn : Nat) (node other : Ptr)
  deriving DecidableEq

/-- The memory together with the hook invocations the registry has made so far. -/
structure State where
  mem : Mem
  calls : List Call
  deriving DecidableEq

/-- The functions of raylib and raymath that the file calls without defining them. -/
structure Raylib where
  GetModelBoundingBox : Model → BoundingBox
  CheckCollisionBoxes : BoundingBox → BoundingBox → Bool
  Vector3Distance : Vector3 → Vector3 → ℚ
  Vector3Lerp : Vector3 → Vector3 → ℚ → Vector3

/-- The meaning of the function pointers, by the type of the hook. -/
structure Hooks where
  beginPlay : Nat → Ptr → Mem → Option Mem
  tick : Nat → Ptr → Mem → Option Mem
  onCollision : Nat → Ptr → Ptr → Mem → Option Mem

/-- Modelled from the spec: raymath's `Vector3Add`, whose source is not in the repository;
"translation is exact vector addition", so it adds componentwise. -/
def Vector3Add (v1 v2 : Vector3) : Vector3 :=
  ⟨v1.x + v2.x, v1.y + v2.y, v1.z + v2.z⟩

/-! ## Memory -/

/-- The node `*p`; `none` when `p` is `NULL`, was never allocated or was freed. -/
def Mem.deref (m : Mem) : Ptr → Option Node
  | none => none
  | some a => (m.heap[a]?).join

/-- The write `*p = f (*p)`; fails where `deref` fails. -/
def Mem.modify (m : Mem) (p : Ptr) (f : Node → Node) : Option Mem :=
  match p with
  | none => none
  | some a =>
    match m.deref (some a) with
    | some n => some { m with heap := m.heap.set a (some (f n)) }
    | none => none

/-- One more call into the library. -/
def Mem.emit (m : Mem) (o : Output) : Mem := { m with out := m.out ++ [o] }

/-- Calls a hook: the call is recorded and the hook runs on the memory. -/
def State.invoke (s : State) (c : Call) (hook : Mem → Option Mem) : Option State :=
  match hook s.mem with
  | some m => some { mem := m, calls := s.calls ++ [c] }
  | none => none

/-- The loop `do { body } while (temp != head);` the body returns the new state and the
new value of `temp`. -/
def doWhile {σ : Type} (body : Ptr → σ → Option (σ × Ptr)) (head : Ptr) :
    Nat → Ptr → σ → Option σ
  | 0, _, _ => none
  | fuel + 1, temp, s =>
    match body temp s with
    | none => none
    | some (s', temp') => if temp' ≠ head then doWhile body head fuel temp' s' else some s'

/-! ## The registry -/

/-- The function `CreateNode`: it allocates the node, fills its fields, and calls `beginPlay`
on it once. -/
def CreateNode (lib : Raylib) (hooks : Hooks) (model : Model) (position : Vector3)
    (beginPlay tick onCollision : FnPtr) (s : State) : Option (Ptr × State) :=
  let newNode : Ptr := some s.mem.heap.length
  let node : Node :=
    { model := model
      position := position
      boundingBox := lib.GetModelBoundingBox model
      tick := tick
      onCollision := onCollision
      next := none
      tags := Tags.zero }
  let s1 : State := { s with mem := { s.mem with heap := s.mem.heap ++ [some node] } }
  match beginPlay with
  | none => none
  | some f =>
    match s1.invoke (Call.beginPlay f newNode) (hooks.beginPlay f newNode) with
    | some s2 => some (newNode, s2)
    | none => none

/-- The loop `while (temp->next != *head) temp = temp->next;` of `InsertEnd`. -/
def InsertEnd.scan (m : Mem) (head : Ptr) : Nat → Ptr → Option Ptr
  | 0, _ => none
  | fuel + 1, temp =>
    match m.deref temp with
    | none => none
    | some n => if n.next ≠ head then InsertEnd.scan m head fuel n.next else some temp

/-- The function `InsertEnd`; the variable `*head` is an argument and its new value the
first result. -/
def InsertEnd (lib : Raylib) (hooks : Hooks) (fuel : Nat) (head : Ptr) (model : Model)
    (position : Vector3) (beginPlay tick onCollision : FnPtr) (s : State) :
    Option (Ptr × State) :=
  match CreateNode lib hooks model position beginPlay tick onCollision s with
  | none => none
  | some (newNode, s1) =>
    if head = none then
      match s1.mem.modify newNode (fun n => { n with next := newNode }) with
      | some m => some (newNode, { s1 with mem := m })
      | none => none
    else
      match InsertEnd.scan s1.mem head fuel head with
      | none => none
      | some temp =>
        match s1.mem.modify temp (fun n => { n with next := newNode }) with
        | none => none
        | some m1 =>
          match m1.modify newNode (fun n => { n with next := head }) with
          | some m2 => some (head, { s1 with mem := m2 })
          | none => none

/-- The function `RenderModels`: each entity is drawn and then ticked. -/
def RenderModels (hooks : Hooks) (fuel : Nat) (head : Ptr) (s : State) : Option State :=
  if head = none then some s
  else
    doWhile (fun temp s =>
      match s.mem.deref temp with
      | none => none
      | some n =>
        let s1 : State := { s with mem := s.mem.emit (Output.DrawModel n.model n.position) }
        match n.tick with
        | none => none
        | some f =>
          match s1.invoke (Call.tick f temp) (hooks.tick f temp) with
          | none => none
          | some s2 =>
            match s2.mem.deref temp with
            | none => none
            | some n2 => some (s2, n2.next)) head fuel head s

/-- The function `UpdateBoundingBoxes`, with its three assignments per entity. -/
def UpdateBoundingBoxes (lib : Raylib) (fuel : Nat) (head : Ptr) (m : Mem) : Option Mem :=
  if head = none then some m
  else
    doWhile (fun temp m =>
      match m.modify temp (fun n => { n with boundingBox := lib.GetModelBoundingBox n.model }) with
      | none => none
      | some m1 =>
        match m1.modify temp (fun n => { n with boundingBox :=
            { n.boundingBox with min := Vector3Add n.boundingBox.min n.position } }) with
        | none => none
        | some m2 =>
          match m2.modify temp (fun n => { n with boundingBox :=
              { n.boundingBox with max := Vector3Add n.boundingBox.max n.position } }) with
          | none => none
          | some m3 =>
            match m3.deref temp with
            | none => none
            | some n => some (m3, n.next)) head fuel head m

/-- The body of the inner loop of `CheckCollisions`, for the pair `(temp, other)`. -/
def CheckCollisions.pair (lib : Raylib) (hooks : Hooks) (temp other : Ptr) (s : State) :
    Option State :=
  if temp ≠ other then
    match s.mem.deref temp, s.mem.deref other with
    | some t, some o =>
      if lib.CheckCollisionBoxes t.boundingBox o.boundingBox then
        match t.onCollision with
        | some f => s.invoke (Call.onCollision f temp other) (hooks.onCollision f temp other)
        | none => some s
      else some s
    | _, _ => none
  else some s

/-- The function `CheckCollisions`: two nested walks of the ring. -/
def CheckCollisions (lib : Raylib) (hooks : Hooks) (fuel : Nat) (head : Ptr) (s : State) :
    Option State :=
  if head = none then some s
  else
    doWhile (fun temp s =>
      match doWhile (fun other s =>
          match CheckCollisions.pair lib hooks temp other s with
          | none => none
          | some s1 =>
            match s1.mem.deref other with
            | none => none
            | some o => some (s1, o.next)) head fuel head s with
      | none => none
      | some s' =>
        match s'.mem.deref temp with
        | none => none
        | some t => some (s', t.next)) head fuel head s

/-- The function `FreeList`: `next` is read before the node is released and freed. -/
def FreeList (fuel : Nat) (head : Ptr) (m : Mem) : Option Mem :=
  if head = none then some m
  else
    doWhile (fun temp m =>
      match temp, m.deref temp with
      | some a, some n =>
        let nextNode := n.next
        let m1 := m.emit (Output.UnloadModel n.model)
        let m2 : Mem := { heap := m1.heap.set a none, out := m1.out ++ [Output.free temp] }
        some (m2, nextNode)
      | _, _ => none) head fuel head m

/-! ## The example hooks -/

/-- The assignment `node->tags[0] = c`. -/
def setTag0 (c : Char) (n : Node) : Node := { n with tags := n.tags.set 0 c }

/-- The hook `ExampleBeginPlay`. -/
def ExampleBeginPlay (node : Ptr) (m : Mem) : Option Mem :=
  match m.deref node with
  | none => none
  | some n =>
    let m1 := m.emit (Output.printf n.position.x n.position.y n.position.z)
    if n.position.x < 0 then m1.modify node (setTag0 'F')
    else m1.modify node (setTag0 'B')

/-! ## binary32 arithmetic -/

/-- The value of the literal `0.025f`: the binary32 number nearest to `0.025`, which is
`13421773 / 2^29`. -/
def c025 : ℚ := 13421773 / 536870912

/-- The value of the literal `0.1f`: the binary32 number nearest to `0.1`, which is
`13421773 / 2^27`. -/
def c01 : ℚ := 13421773 / 134217728

/-- The exponent of the binade of `q` in binary32: the `e` with `2^e ≤ |q| < 2^(e+1)`, and
`-126`, the exponent of the subnormal numbers, below `2^(-126)`. -/
def expo32 (q : ℚ) : ℤ := max (Int.log 2 |q|) (-126)

/-- The distance between neighbouring binary32 values in the binade of `q`: the significand has
24 bits. -/
def ulp32 (q : ℚ) : ℚ := 2 ^ (expo32 q - 23)

/-- The integer nearest to `t`; of two nearest integers, the even one. -/
def roundEven (t : ℚ) : ℤ :=
  if t - ⌊t⌋ < 1 / 2 then ⌊t⌋
  else if 1 / 2 < t - ⌊t⌋ then ⌊t⌋ + 1
  else if ⌊t⌋ % 2 = 0 then ⌊t⌋ else ⌊t⌋ + 1

/-- Rounding to binary32, in the default mode round-to-nearest, ties-to-even. -/
def round32 (q : ℚ) : ℚ := roundEven (q / ulp32 q) * ulp32 q

/-- The `float` addition `x + y`: the exact sum, rounded to binary32. -/
def fadd32 (x y : ℚ) : ℚ := round32 (x + y)

/-- The hook `ExampleTick`; the compound assignment `+=` on the `float` `position.x` is the
binary32 addition. -/
def ExampleTick (node : Ptr) (m : Mem) : Option Mem :=
  match m.deref node with
  | none => none
  | some n =>
    match (if n.position.x < -3 then m.modify node (setTag0 'F')
      else if n.position.x > 3 then m.modify node (setTag0 'B')
      else some m) with
    | none => none
    | some m1 =>
      m1.modify node (fun n1 => { n1 with position := { n1.position with
        x := fadd32 n1.position.x (if n1.tags.get 0 = 'F' then c025 else -c025) } })

/-- The hook `ExampleCollision`. -/
def ExampleCollision (lib : Raylib) (node other : Ptr) (m : Mem) : Option Mem :=
  match m.deref node, m.deref other with
  | some n, some o =>
    if lib.Vector3Distance n.position o.position ≥ 1 / 2 then
      some ((m.emit (Output.DrawModelWires n.model n.position)).emit
        (Output.DrawSphereWires (lib.Vector3Lerp n.position o.position c01)))
    else if n.tags.get 0 = 'F' ∧ o.tags.get 0 = 'B' then m.modify node (setTag0 'B')
    else if n.tags.get 0 = 'B' ∧ o.tags.get 0 = 'B' then m.modify node (setTag0 'F')
    else some m
  | _, _ => none

/-- The function numbers of the three example hooks. -/
def fnExampleBeginPlay : Nat := 1
def fnExampleTick : Nat := 2
def fnExampleCollision : Nat := 3

/-- The hooks of the program: the three example functions at their numbers. -/
def exampleHooks (lib : Raylib) : Hooks where
  beginPlay := fun f node m => if f = fnExampleBeginPlay then ExampleBeginPlay node m else none
  tick := fun f node m => if f = fnExampleTick then ExampleTick node m else none
  onCollision := fun f node other m =>
    if f = fnExampleCollision then ExampleCollision lib node other m else none

/-! ## Building and walking rings -/

/-- The arguments of one `InsertEnd` call. -/
structure Spawn where
  model : Model
  position : Vector3
  beginPlay : FnPtr
  tick : FnPtr
  onCollision : FnPtr

/-- A sequence of `InsertEnd` calls, as at the start of `main`. Next to the final `*head` and
state it returns, for each call, the address its `malloc` gave to the new entity. -/
def insertAll (lib : Raylib) (hooks : Hooks) (fuel : Nat) :
    List Spawn → Ptr → State → Option (Ptr × State × List Ptr)
  | [], head, s => some (head, s, [])
  | a :: rest, head, s =>
    match InsertEnd lib hooks fuel head a.model a.position a.beginPlay a.tick a.onCollision s with
    | none => none
    | some (head1, s1) =>
      match insertAll lib hooks fuel rest head1 s1 with
      | none => none
      | some (head2, s2, created) => some (head2, s2, some s.mem.heap.length :: created)

/-- The traversal shared by `RenderModels`, `UpdateBoundingBoxes` and `FreeList`:
`if (head == NULL) return; temp = head; do { ...; temp = temp->next; } while (temp != head);`
with the body reduced to recording `temp`. The result lists the nodes visited, in order. -/
def traversal (m : Mem) (fuel : Nat) (head : Ptr) : Option (List Ptr) :=
  if head = none then some []
  else
    doWhile (fun temp visited =>
      match m.deref temp with
      | none => none
      | some n => some (visited ++ [temp], n.next)) head fuel head []

/-! ## Well-formed rings -/

/-- The list segment: following `next` from `p` passes through the nodes `xs`, in this order,
and the `next` of the last one is `q`. -/
def Seg (m : Mem) : Ptr → List Nat → Ptr → Prop
  | p, [], q => p = q
  | p, x :: xs, q =>
    p = some x ∧
      match m.deref (some x) with
      | some n => Seg m n.next xs q
      | none => False

instance Seg.decide (m : Mem) : (p : Ptr) → (xs : List Nat) → (q : Ptr) → Decidable (Seg m p xs q)
  | p, [], q => inferInstanceAs (Decidable (p = q))
  | p, x :: xs, q =>
    match h : m.deref (some x) with
    | some n =>
      have : Decidable (Seg m n.next xs q) := Seg.decide m n.next xs q
      decidable_of_iff (p = some x ∧ Seg m n.next xs q) (by simp [Seg, h])
    | none => isFalse (by simp [Seg, h])

/-- The ring invariant: `xs` are the entities of the ring, without repetition, in the order of
the `next` links starting at `head`, and the `next` of the last one is `head`; the empty ring
has `head = NULL`. -/
def Ring (m : Mem) (head : Ptr) (xs : List Nat) : Prop :=
  xs.Nodup ∧ head = xs.head? ∧ Seg m head xs head

instance Ring.decide (m : Mem) (head : Ptr) (xs : List Nat) : Decidable (Ring m head xs) :=
  inferInstanceAs (Decidable (_ ∧ _ ∧ _))

/-- The memory `m'` agrees with `m` on which cells are allocated and on the part `part` of
every node. -/
def Keeps {α : Type} (part : Node → α) (m m' : Mem) : Prop :=
  ∀ q : Ptr, (m'.deref q).map part = (m.deref q).map part

/-- The spawn hook number `f` returns when called on an allocated node and changes no link. -/
def Hooks.BeginPlayOk (hooks : Hooks) (f : Nat) : Prop :=
  ∀ (node : Ptr) (m : Mem), (m.deref node).isSome →
    ∃ m', hooks.beginPlay f node m = some m' ∧ Keeps Node.next m m'

/-- The part of a node a collision pass depends on: link, bounding box and reaction. -/
def Node.collisionPart (n : Node) : Ptr × BoundingBox × FnPtr :=
  (n.next, n.boundingBox, n.onCollision)

/-- The reaction number `f` returns when called on allocated nodes and changes no link, no
bounding box and no reaction pointer. -/
def Hooks.CollisionOk (hooks : Hooks) (f : Nat) : Prop :=
  ∀ (node other : Ptr) (m : Mem), (m.deref node).isSome → (m.deref other).isSome →
    ∃ m', hooks.onCollision f node other m = some m' ∧ Keeps Node.collisionPart m m'

/-- The invocation `CheckCollisions` makes for the ordered pair `(a, b)` in memory `m`, if any. -/
def collisionCall (lib : Raylib) (m : Mem) (a b : Nat) : Option Call :=
  if a ≠ b then
    match m.deref (some a), m.deref (some b) with
    | some t, some o =>
      if lib.CheckCollisionBoxes t.boundingBox o.boundingBox then
        match t.onCollision with
        | some f => some (Call.onCollision f (some a) (some b))
        | none => none
      else none
    | _, _ => none
  else none

/-- The invocations of one collision pass over the ring `xs`: every ordered pair, row by row. -/
def collisionCalls (lib : Raylib) (m : Mem) (xs : List Nat) : List Call :=
  xs.flatMap (fun a => xs.filterMap (fun b => collisionCall lib m a b))

/-- Whether a call is a collision reaction invoked with the arguments `(a, b)`. -/
def Call.isReaction (a b : Ptr) : Call → Bool
  | Call.onCollision _ node other => decide (node = a ∧ other = b)
  | _ => false

/-- Whether a call is a collision reaction invoked with the same node as both arguments. -/
def Call.isSelfCollision : Call → Bool
  | Call.onCollision _ node other => decide (node = other)
  | _ => false

/-- The bounding box `UpdateBoundingBoxes` gives a node: the local box of the model moved by
the position of the node. -/
def Node.refreshed (lib : Raylib) (n : Node) : Node :=
  { n with boundingBox :=
      { min := Vector3Add (lib.GetModelBoundingBox n.model).min n.position
        max := Vector3Add (lib.GetModelBoundingBox n.model).max n.position } }

/-- The value of `temp` after the node before `rest` has been left: the first node of `rest`,
or `head` when the walk is over. -/
def nextOf (head : Ptr) : List Nat → Ptr
  | [] => head
  | y :: _ => some y

/-- The node `CreateNode` has filled in when it calls `beginPlay`. -/
def freshNode (lib : Raylib) (model : Model) (position : Vector3) (tick onCollision : FnPtr) :
    Node :=
  { model := model
    position := position
    boundingBox := lib.GetModelBoundingBox model
    tick := tick
    onCollision := onCollision
    next := none
    tags := Tags.zero }

/-- The memory in which `CreateNode` calls `beginPlay`: one more cell, holding `freshNode`. -/
def freshMem (lib : Raylib) (model : Model) (position : Vector3) (tick onCollision : FnPtr)
    (m : Mem) : Mem :=
  { heap := m.heap ++ [some (freshNode lib model position tick onCollision)], out := m.out }

/-! ## The effect of the example hooks on the value of a node -/

/-- The second statement of `ExampleTick` on the value of a node:
`position.x += (tags[0] == 'F') ? 0.025f : -0.025f`, a binary32 addition. -/
def advance (n : Node) : Node :=
  { n with position := { n.position with
      x := fadd32 n.position.x (if n.tags.get 0 = 'F' then c025 else -c025) } }

/-- The entity after one `ExampleTick`: first the tag is set from the thresholds, then the
position advances by the binary32 step of the resulting tag (`ExampleTick_spec` proves that
this is what the hook does to the memory). -/
def tickedNode (n : Node) : Node :=
  advance (if n.position.x < -3 then setTag0 'F' n
    else if n.position.x > 3 then setTag0 'B' n
    else n)

/-- The entity `node` after `ExampleCollision(node, other)`, as the specification describes it:
untouched when the two are at least `0.5` apart, otherwise `F` next to `B` becomes `B`, `B` next
to `B` becomes `F`, and every other combination stays. -/
def collidedNode (lib : Raylib) (n o : Node) : Node :=
  if lib.Vector3Distance n.position o.position ≥ 1 / 2 then n
  else if n.tags.get 0 = 'F' ∧ o.tags.get 0 = 'B' then setTag0 'B' n
  else if n.tags.get 0 = 'B' ∧ o.tags.get 0 = 'B' then setTag0 'F' n
  else n

/-- The bytes `tags[0]` of the entities of a ring, in traversal order. -/
def tagsInOrder (m : Mem) (fuel : Nat) (head : Ptr) : Option (List (Option Char)) :=
  (traversal m fuel head).map
    (fun visited => visited.map (fun p => (m.deref p).map (fun n => n.tags.get 0)))

/-! ## Concrete inputs -/

/-- An instance of the library on which the definitions can be run: every model has the cube
`[-1, 1]³` as local bounds, boxes collide when they overlap on the three axes, and the
distance is the taxicab one (it is rational). -/
def demoLib : Raylib where
  GetModelBoundingBox := fun _ => ⟨⟨-1, -1, -1⟩, ⟨1, 1, 1⟩⟩
  CheckCollisionBoxes := fun b1 b2 =>
    decide (b1.max.x ≥ b2.min.x ∧ b1.min.x ≤ b2.max.x ∧ b1.max.y ≥ b2.min.y ∧
      b1.min.y ≤ b2.max.y ∧ b1.max.z ≥ b2.min.z ∧ b1.min.z ≤ b2.max.z)
  Vector3Distance := fun v1 v2 => |v1.x - v2.x| + |v1.y - v2.y| + |v1.z - v2.z|
  Vector3Lerp := fun v1 v2 t =>
    ⟨v1.x + t * (v2.x - v1.x), v1.y + t * (v2.y - v1.y), v1.z + t * (v2.z - v1.z)⟩

/-- The state in which `main` starts: nothing allocated, nothing drawn, nothing called. -/
def emptyState : State := ⟨⟨[], []⟩, []⟩

/-- One `InsertEnd` call of `main`, at `(x, 0, 0)` with the three example hooks. -/
def mainSpawn (model : Model) (x : ℚ) : Spawn :=
  { model := model
    position := ⟨x, 0, 0⟩
    beginPlay := some fnExampleBeginPlay
    tick := some fnExampleTick
    onCollision := some fnExampleCollision }

/-- The three `InsertEnd` calls of `main`, at `x = 0, 2, -2`. -/
def mainSpawns (model : Model) : List Spawn :=
  [mainSpawn model 0, mainSpawn model 2, mainSpawn model (-2)]

/-- A node with the example hooks, the unit cube around its position as bounding box and a
given tag, for concrete rings. -/
def demoNode (x : ℚ) (next : Ptr) (tag : Char) : Node :=
  { model := 7
    position := ⟨x, 0, 0⟩
    boundingBox := ⟨⟨x - 1, -1, -1⟩, ⟨x + 1, 1, 1⟩⟩
    tick := some fnExampleTick
    onCollision := some fnExampleCollision
    next := next
    tags := Tags.zero.set 0 tag }

/-- A ring of two entities `0 → 1 → 0`, at `(x0, 0, 0)` and `(x1, 0, 0)`. -/
def demoRing2 (x0 x1 : ℚ) : State :=
  ⟨⟨[some (demoNode x0 (some 1) 'B'), some (demoNode x1 (some 0) 'B')], []⟩, []⟩

/-- The ring of two entities at `x = 0` and `x = 1/4`. -/
def demoState2 : State := demoRing2 0 (1 / 4)

/-! ## Replaying hook invocations -/

/-- The entity a hook is invoked on: its first argument. -/
def Call.node : Call → Ptr
  | Call.beginPlay _ node => node
  | Call.tick _ node => node
  | Call.onCollision _ node _ => node

/-- The effect of one hook invocation on the memory. -/
def runCall (hooks : Hooks) : Call → Mem → Option Mem
  | Call.beginPlay f node, m => hooks.beginPlay f node m
  | Call.tick f node, m => hooks.tick f node m
  | Call.onCollision f node other, m => hooks.onCollision f node other m

/-- The effect of a sequence of hook invocations, made one after the other. -/
def runCalls (hooks : Hooks) : List Call → Mem → Option Mem
  | [], m => some m
  | c :: cs, m =>
    match runCall hooks c m with
    | none => none
    | some m1 => runCalls hooks cs m1

/-- Whether a call is one of the three example hooks, called under its own number. -/
def Call.isExample : Call → Prop
  | Call.beginPlay f _ => f = fnExampleBeginPlay
  | Call.tick f _ => f = fnExampleTick
  | Call.onCollision f _ _ => f = fnExampleCollision

/-- The entities a call reads or writes are allocated in `m`. -/
def Call.live (m : Mem) : Call → Prop
  | Call.beginPlay _ node => (m.deref node).isSome
  | Call.tick _ node => (m.deref node).isSome
  | Call.onCollision _ node other => (m.deref node).isSome ∧ (m.deref other).isSome

/-- Repeated `ExampleTick` calls on one entity, with nothing in between. -/
def tickN : Nat → Ptr → Mem → Option Mem
  | 0, _, m => some m
  | k + 1, node, m =>
    match ExampleTick node m with
    | none => none
    | some m1 => tickN k node m1

/-! ## The frame loop and `main` -/

/-- One iteration of the loop of `main`, as far as the registry goes: `UpdateBoundingBoxes`,
then `CheckCollisions`, then `RenderModels`. The calls that open and close the drawing scopes
and draw the text do not touch the registry and are not recorded. -/
def frame (lib : Raylib) (hooks : Hooks) (fuel : Nat) (head : Ptr) (s : State) : Option State :=
  match UpdateBoundingBoxes lib fuel head s.mem with
  | none => none
  | some m =>
    match CheckCollisions lib hooks fuel head { s with mem := m } with
    | none => none
    | some s1 => RenderModels hooks fuel head s1

/-- The loop `while (!WindowShouldClose())` of `main`, for a run in which the window is closed
after `frames` iterations. -/
def frameLoop (lib : Raylib) (hooks : Hooks) (fuel : Nat) (head : Ptr) :
    Nat → State → Option State
  | 0, s => some s
  | frames + 1, s =>
    match frame lib hooks fuel head s with
    | none => none
    | some s1 => frameLoop lib hooks fuel head frames s1

/-- The function `main`, from `head = NULL` to the return of `FreeList`: `model1` is the handle
`LoadModel` returned and `frames` the number of iterations before the window is closed. The
result is the final value of `head` and the final state. -/
def main (lib : Raylib) (model1 : Model) (fuel frames : Nat) : Option (Ptr × State) :=
  match insertAll lib (exampleHooks lib) fuel (mainSpawns model1) none emptyState with
  | none => none
  | some (head, s, _) =>
    match frameLoop lib (exampleHooks lib) fuel head frames s with
    | none => none
    | some s1 =>
      match FreeList fuel head (s1.mem.emit (Output.UnloadModel model1)) with
      | none => none
      | some m => some (head, { s1 with mem := m })

/-! ## Vocabulary of the later claims -/

/-- The library calls `FreeList` makes for the entities `xs`, read in the memory `m` before the
call: for each entity `UnloadModel` on its model, then `free` on the entity. -/
def freeOutputs (m : Mem) (xs : List Nat) : List Output :=
  xs.flatMap (fun x =>
    match m.deref (some x) with
    | some n => [Output.UnloadModel n.model, Output.free (some x)]
    | none => [])

/-- Whether an output is the release of the asset handle `model`. -/
def Output.isUnload (model : Model) : Output → Bool
  | Output.UnloadModel h => decide (h = model)
  | _ => false

/-- Whether an output is a call to `free`. -/
def Output.isFree : Output → Bool
  | Output.free _ => true
  | _ => false

/-- Whether an output releases something: an asset handle or a node. -/
def Output.isRelease : Output → Bool
  | Output.UnloadModel _ => true
  | Output.free _ => true
  | _ => false

/-- The part of a node that the frame loop is said to leave alone: link, model and hooks. -/
def Node.topology (n : Node) : Ptr × Model × FnPtr × FnPtr :=
  (n.next, n.model, n.tick, n.onCollision)

/-- Everything in a node except the byte `tags[0]`. -/
def Node.exceptTag0 (n : Node) : Model × Vector3 × BoundingBox × FnPtr × FnPtr × Ptr × List Char :=
  (n.model, n.position, n.boundingBox, n.tick, n.onCollision, n.next, n.tags.bytes.tail)

/-- The entity after `ExampleBeginPlay`: `tags[0]` is set from the sign of `position.x`. -/
def beganNode (n : Node) : Node :=
  setTag0 (if n.position.x < 0 then 'F' else 'B') n

/-- The bounding box of the node is the local box of its model moved by its current position. -/
def Node.boxCurrent (lib : Raylib) (n : Node) : Prop :=
  n.boundingBox.min = Vector3Add (lib.GetModelBoundingBox n.model).min n.position ∧
    n.boundingBox.max = Vector3Add (lib.GetModelBoundingBox n.model).max n.position

instance Node.boxCurrent.decide (lib : Raylib) (n : Node) : Decidable (n.boxCurrent lib) :=
  inferInstanceAs (Decidable (_ ∧ _))

/-- The tag state space: `tags[0]` is `'F'` or `'B'` and every other tag byte is zero. -/
def Node.TagOk (n : Node) : Prop :=
  (n.tags.get 0 = 'F' ∨ n.tags.get 0 = 'B') ∧ ∀ i, i ≠ 0 → n.tags.get i = Char.ofNat 0

/-- The binary32 sum `3.0f + 0.025f`, which is `6343885 / 2^21`, a little above `3.025`: the
furthest the example tick takes `position.x` beyond a threshold. -/
def bandMax : ℚ := 6343885 / 2097152

/-- The interval `[-bandMax, bandMax]` the example tick keeps `position.x` in. -/
def inBand (x : ℚ) : Prop := -bandMax ≤ x ∧ x ≤ bandMax

/-- The largest finite binary32 value, `(2^24 - 1) * 2^104`. -/
def maxFloat32 : ℚ := 340282346638528859811704183484516925440

/-- The ring uses the example hooks: every entity of `xs` has `ExampleTick` as `tick` and
`ExampleCollision` as `onCollision`. -/
def UsesExampleHooks (m : Mem) (xs : List Nat) : Prop :=
  ∀ x ∈ xs, ∀ n, m.deref (some x) = some n →
    n.tick = some fnExampleTick ∧ n.onCollision = some fnExampleCollision

/-- What one call of an example hook can do to the entity it is called on: `n'` is `n` after
`ExampleBeginPlay`, after `ExampleTick`, or after `ExampleCollision` against some entity `o`. -/
def ExampleStep (lib : Raylib) (n n' : Node) : Prop :=
  n' = beganNode n ∨ n' = tickedNode n ∨ ∃ o, n' = collidedNode lib n o

/-- The `DrawModel` calls of one `RenderModels` pass over the entities `xs`, read in the memory
`m` before the pass. -/
def drawOutputs (m : Mem) (xs : List Nat) : List Output :=
  xs.filterMap (fun x => (m.deref (some x)).map (fun n => Output.DrawModel n.model n.position))

/-- The `tick` calls of one `RenderModels` pass over a ring that uses `ExampleTick`. -/
def tickCalls (xs : List Nat) : List Call :=
  xs.map (fun x => Call.tick fnExampleTick (some x))

/-- What the example hook called by `c` does to the entity it is called on: `n` becomes `n'`. -/
def CallStep (lib : Raylib) : Call → Node → Node → Prop
  | Call.beginPlay _ _, n, n' => n' = beganNode n
  | Call.tick _ _, n, n' => n' = tickedNode n
  | Call.onCollision _ _ _, n, n' => ∃ o, n' = collidedNode lib n o

/-- Whether a call is an invocation of a collision reaction. -/
def Call.isCollision : Call → Bool
  | Call.onCollision _ _ _ => true
  | _ => false

/-- Whether a call is an invocation of a `tick` hook. -/
def Call.isTick : Call → Bool
  | Call.tick _ _ => true
  | _ => false

/-- Whether an output is a call to `UnloadModel`, on any handle. -/
def Output.isUnloadModel : Output → Bool
  | Output.UnloadModel _ => true
  | _ => false

/-- The entity `main` inserts at `(x, 0, 0)`, once `ExampleBeginPlay` has run on it. -/
def mainNode (lib : Raylib) (model1 : Model) (x : ℚ) (next : Ptr) : Node :=
  { model := model1
    position := ⟨x, 0, 0⟩
    boundingBox := lib.GetModelBoundingBox model1
    tick := some fnExampleTick
    onCollision := some fnExampleCollision
    next := next
    tags := Tags.zero.set 0 (if x < 0 then 'F' else 'B') }

/-- The state of `main` when it enters its loop: the ring `0 → 1 → 2 → 0` of the entities at
`x = 0, 2, -2`, the three lines `ExampleBeginPlay` printed and its three calls. -/
def mainState (lib : Raylib) (model1 : Model) : State :=
  { mem :=
      { heap := [some (mainNode lib model1 0 (some 1)), some (mainNode lib model1 2 (some 2)),
          some (mainNode lib model1 (-2) (some 0))]
        out := [Output.printf 0 0 0, Output.printf 2 0 0, Output.printf (-2) 0 0] }
    calls := [Call.beginPlay fnExampleBeginPlay (some 0), Call.beginPlay fnExampleBeginPlay (some 1),
      Call.beginPlay fnExampleBeginPlay (some 2)] }

/-- The state of an entity that only ticks, once it has started inside `[-3, 3]`: `position.x`
is in the band, the tag is `'F'` or `'B'`, and when `x` is beyond a threshold the tag is still
the one that took it there. -/
def Node.onCourse (n : Node) : Prop :=
  inBand n.position.x ∧ (n.tags.get 0 = 'F' ∨ n.tags.get 0 = 'B') ∧
    (n.position.x < -3 → n.tags.get 0 = 'B') ∧ (3 < n.position.x → n.tags.get 0 = 'F')


/-! ## Memory lemmas -/

theorem Mem.deref_some_lt {m : Mem} {a : Nat} {n : Node} (h : m.deref (some a) = some n) :
    a < m.heap.length := by
  by_contra hlt
  have : m.heap[a]? = none := List.getElem?_eq_none (by omega)
  simp [Mem.deref, this] at h

theorem Mem.modify_spec {m : Mem} {p : Ptr} {n : Node} (f : Node → Node)
    (h : m.deref p = some n) :
    ∃ m', m.modify p f = some m' ∧ m'.out = m.out ∧ m'.heap.length = m.heap.length ∧
      ∀ q : Ptr, m'.deref q = if q = p then some (f n) else m.deref q := by
  cases p with
  | none => simp [Mem.deref] at h
  | some a =>
    have hlt := Mem.deref_some_lt h
    refine ⟨{ m with heap := m.heap.set a (some (f n)) }, by simp [Mem.modify, h], rfl,
      by simp, ?_⟩
    intro q
    cases q with
    | none => simp [Mem.deref]
    | some b =>
      by_cases hba : b = a
      · subst hba
        simp [Mem.deref, List.getElem?_set, hlt]
      · have hab : ¬ a = b := fun e => hba e.symm
        simp [Mem.deref, List.getElem?_set, hba, hab]

theorem Mem.modify_some {m m' : Mem} {p : Ptr} {f : Node → Node} (h : m.modify p f = some m') :
    ∃ n, m.deref p = some n := by
  cases p with
  | none => simp [Mem.modify] at h
  | some a =>
    cases hd : m.deref (some a) with
    | none => simp [Mem.modify, hd] at h
    | some n => exact ⟨n, rfl⟩

theorem Mem.deref_emit (m : Mem) (o : Output) (q : Ptr) : (m.emit o).deref q = m.deref q := by
  cases q <;> rfl

theorem Mem.deref_append_old {m : Mem} {c : Option Node} {o : List Output} {a : Nat}
    (h : a < m.heap.length) :
    Mem.deref { heap := m.heap ++ [c], out := o } (some a) = m.deref (some a) := by
  simp [Mem.deref, List.getElem?_append_left h]

theorem Mem.deref_append_new (m : Mem) (c : Option Node) (o : List Output) :
    Mem.deref { heap := m.heap ++ [c], out := o } (some m.heap.length) = c := by
  simp [Mem.deref]

/-! ## Keeps -/

theorem Keeps.refl {α : Type} (part : Node → α) (m : Mem) : Keeps part m m := fun _ => rfl

theorem Keeps.trans {α : Type} {part : Node → α} {m1 m2 m3 : Mem}
    (h12 : Keeps part m1 m2) (h23 : Keeps part m2 m3) : Keeps part m1 m3 :=
  fun q => (h23 q).trans (h12 q)

theorem Keeps.isSome {α : Type} {part : Node → α} {m m' : Mem} (h : Keeps part m m') (q : Ptr) :
    (m'.deref q).isSome = (m.deref q).isSome := by
  have := congrArg Option.isSome (h q)
  simpa using this

theorem Keeps.get {α : Type} {part : Node → α} {m m' : Mem} (h : Keeps part m m') {q : Ptr}
    {n : Node} (hn : m.deref q = some n) : ∃ n', m'.deref q = some n' ∧ part n' = part n := by
  have := h q
  rw [hn] at this
  cases hd : m'.deref q with
  | none => simp [hd] at this
  | some n' => exact ⟨n', rfl, by simpa [hd] using this⟩

theorem Keeps.comp {α β : Type} {part : Node → α} (g : α → β) {m m' : Mem}
    (h : Keeps part m m') : Keeps (fun n => g (part n)) m m' := by
  intro q
  have := congrArg (Option.map g) (h q)
  simpa [Option.map_map, Function.comp_def] using this

/-! ## Segments -/

theorem Seg.cons_iff {m : Mem} {p q : Ptr} {x : Nat} {xs : List Nat} :
    Seg m p (x :: xs) q ↔ p = some x ∧ ∃ n, m.deref (some x) = some n ∧ Seg m n.next xs q := by
  cases h : m.deref (some x) <;> simp [Seg, h]

theorem Seg.congr {m m' : Mem} {xs : List Nat}
    (h : ∀ x ∈ xs, (m'.deref (some x)).map Node.next = (m.deref (some x)).map Node.next) :
    ∀ {p q : Ptr}, Seg m p xs q → Seg m' p xs q := by
  induction xs with
  | nil => intro p q hs; exact hs
  | cons x xs ih =>
    intro p q hs
    rw [Seg.cons_iff] at hs ⊢
    obtain ⟨hp, n, hn, hrest⟩ := hs
    have hx := h x (List.mem_cons_self _ _)
    rw [hn] at hx
    cases hd : m'.deref (some x) with
    | none => simp [hd] at hx
    | some n' =>
      have hnext : n'.next = n.next := by simpa [hd] using hx
      refine ⟨hp, n', rfl, ?_⟩
      rw [hnext]
      exact ih (fun y hy => h y (List.mem_cons_of_mem _ hy)) hrest

theorem Seg.keeps {m m' : Mem} (h : Keeps Node.next m m') {xs : List Nat} {p q : Ptr}
    (hs : Seg m p xs q) : Seg m' p xs q :=
  Seg.congr (fun x _ => h (some x)) hs

theorem Seg.append_iff {m : Mem} {xs ys : List Nat} :
    ∀ {p r : Ptr}, Seg m p (xs ++ ys) r ↔ ∃ q, Seg m p xs q ∧ Seg m q ys r := by
  induction xs with
  | nil => intro p r; simp [Seg]
  | cons x xs ih =>
    intro p r
    simp only [List.cons_append, Seg.cons_iff, ih]
    constructor
    · rintro ⟨hp, n, hn, q, h1, h2⟩
      exact ⟨q, ⟨hp, n, hn, h1⟩, h2⟩
    · rintro ⟨q, ⟨hp, n, hn, h1⟩, h2⟩
      exact ⟨hp, n, hn, q, h1, h2⟩

theorem Seg.live {m : Mem} {xs : List Nat} :
    ∀ {p q : Ptr}, Seg m p xs q → ∀ x ∈ xs, ∃ n, m.deref (some x) = some n := by
  induction xs with
  | nil => intro p q _ x hx; simp at hx
  | cons y ys ih =>
    intro p q hs x hx
    rw [Seg.cons_iff] at hs
    obtain ⟨_, n, hn, hrest⟩ := hs
    rcases List.mem_cons.1 hx with rfl | hx
    · exact ⟨n, hn⟩
    · exact ih hrest x hx

theorem Ring.mem_live {m : Mem} {head : Ptr} {xs : List Nat} (h : Ring m head xs) :
    ∀ x ∈ xs, ∃ n, m.deref (some x) = some n := Seg.live h.2.2

theorem Ring.of_keeps {m m' : Mem} {head : Ptr} {xs : List Nat} (hk : Keeps Node.next m m')
    (h : Ring m head xs) : Ring m' head xs := ⟨h.1, h.2.1, Seg.keeps hk h.2.2⟩

/-! ## binary32 rounding

Rounding is monotone and odd; these two facts and the value of a few sums are all that the
bounds on `position.x` need. -/

theorem roundEven_near (t : ℚ) : (roundEven t : ℚ) - 1 / 2 ≤ t ∧ t ≤ roundEven t + 1 / 2 := by
  have h1 : ((⌊t⌋ : ℤ) : ℚ) ≤ t := Int.floor_le t
  have h2 : t < ⌊t⌋ + 1 := Int.lt_floor_add_one t
  unfold roundEven
  split_ifs <;> push_cast <;> constructor <;> linarith

theorem roundEven_intCast (n : ℤ) : roundEven (n : ℚ) = n := by
  unfold roundEven
  simp

theorem roundEven_mono {s t : ℚ} (h : s ≤ t) : roundEven s ≤ roundEven t := by
  by_contra hlt
  have hlt1 : roundEven t + 1 ≤ roundEven s := by omega
  have hq : ((roundEven t : ℤ) : ℚ) + 1 ≤ roundEven s := by exact_mod_cast hlt1
  have hs := (roundEven_near s).1
  have ht := (roundEven_near t).2
  have hst : s = t := by linarith
  subst hst
  omega

theorem roundEven_neg (t : ℚ) : roundEven (-t) = -roundEven t := by
  have h1 : ((⌊t⌋ : ℤ) : ℚ) ≤ t := Int.floor_le t
  have h2 : t < ⌊t⌋ + 1 := Int.lt_floor_add_one t
  rcases eq_or_lt_of_le h1 with heq | hlt
  · rw [← heq, ← Int.cast_neg, roundEven_intCast, roundEven_intCast]
  · have hfl : ⌊-t⌋ = -⌊t⌋ - 1 := by
      rw [Int.floor_eq_iff]
      push_cast
      constructor <;> linarith
    unfold roundEven
    rw [hfl]
    push_cast
    split_ifs <;> first | omega | (exfalso; linarith)

theorem ulp32_pos (q : ℚ) : 0 < ulp32 q := by
  unfold ulp32
  positivity

theorem ulp32_mul_top (q : ℚ) : ((2 ^ 24 : ℤ) : ℚ) * ulp32 q = 2 ^ (expo32 q + 1) := by
  unfold ulp32
  rw [show (((2 ^ 24 : ℤ) : ℚ)) = 2 ^ (24 : ℤ) by norm_num, ← zpow_add₀ (by norm_num)]
  congr 1
  ring

theorem ulp32_mul_bottom (q : ℚ) : ((2 ^ 23 : ℤ) : ℚ) * ulp32 q = 2 ^ expo32 q := by
  unfold ulp32
  rw [show (((2 ^ 23 : ℤ) : ℚ)) = 2 ^ (23 : ℤ) by norm_num, ← zpow_add₀ (by norm_num)]
  congr 1
  ring

theorem round32_neg (q : ℚ) : round32 (-q) = -round32 q := by
  have hu : ulp32 (-q) = ulp32 q := by unfold ulp32 expo32; rw [abs_neg]
  unfold round32
  rw [hu, neg_div, roundEven_neg]
  push_cast
  ring

theorem round32_nonneg {q : ℚ} (h : 0 ≤ q) : 0 ≤ round32 q := by
  unfold round32
  have hu := ulp32_pos q
  have h0 : roundEven (0 : ℚ) ≤ roundEven (q / ulp32 q) := roundEven_mono (by positivity)
  have h00 : roundEven (0 : ℚ) = 0 := by exact_mod_cast roundEven_intCast 0
  rw [h00] at h0
  have : (0 : ℚ) ≤ roundEven (q / ulp32 q) := by exact_mod_cast h0
  positivity

theorem expo32_mono {p q : ℚ} (hp : 0 < p) (h : p ≤ q) : expo32 p ≤ expo32 q := by
  unfold expo32
  rw [abs_of_pos hp, abs_of_pos (lt_of_lt_of_le hp h)]
  exact max_le_max (Int.log_mono_right hp h) le_rfl

theorem lt_two_zpow_expo32 {q : ℚ} (hq : 0 < q) : q < 2 ^ (expo32 q + 1) := by
  have h1 : q < ((2 : ℕ) : ℚ) ^ (Int.log 2 q + 1) := Int.lt_zpow_succ_log_self (by norm_num) q
  have h2 : ((2 : ℕ) : ℚ) ^ (Int.log 2 q + 1) ≤ ((2 : ℕ) : ℚ) ^ (expo32 q + 1) := by
    apply zpow_le_zpow_right₀ (by norm_num)
    unfold expo32
    rw [abs_of_pos hq]
    have := le_max_left (Int.log 2 q) (-126)
    omega
  have := lt_of_lt_of_le h1 h2
  simpa using this

theorem round32_le_binade {q : ℚ} (hq : 0 < q) : round32 q ≤ 2 ^ (expo32 q + 1) := by
  have hlt := lt_two_zpow_expo32 hq
  have hu := ulp32_pos q
  have hdiv : q / ulp32 q ≤ ((2 ^ 24 : ℤ) : ℚ) := by
    rw [div_le_iff₀ hu]
    rw [ulp32_mul_top]
    exact le_of_lt hlt
  have hr := roundEven_mono hdiv
  rw [roundEven_intCast] at hr
  have hr2 : ((roundEven (q / ulp32 q) : ℤ) : ℚ) ≤ ((2 ^ 24 : ℤ) : ℚ) := by exact_mod_cast hr
  unfold round32
  calc (roundEven (q / ulp32 q) : ℚ) * ulp32 q ≤ ((2 ^ 24 : ℤ) : ℚ) * ulp32 q :=
        mul_le_mul_of_nonneg_right hr2 (le_of_lt hu)
    _ = 2 ^ (expo32 q + 1) := ulp32_mul_top q

theorem binade_le_round32 {q : ℚ} (hq : 0 < q) (hn : -126 < expo32 q) :
    2 ^ expo32 q ≤ round32 q := by
  have he : expo32 q = Int.log 2 q := by
    unfold expo32 at hn ⊢
    rw [abs_of_pos hq] at hn ⊢
    rcases le_total (Int.log 2 q) (-126) with h | h
    · rw [max_eq_right h] at hn; omega
    · exact max_eq_left h
  have hle : ((2 : ℕ) : ℚ) ^ Int.log 2 q ≤ q := Int.zpow_log_le_self (by norm_num) hq
  have hle2 : (2 : ℚ) ^ expo32 q ≤ q := by rw [he]; simpa using hle
  have hu := ulp32_pos q
  have hmul : ((2 ^ 23 : ℤ) : ℚ) * ulp32 q = 2 ^ expo32 q := ulp32_mul_bottom q
  have hdiv : ((2 ^ 23 : ℤ) : ℚ) ≤ q / ulp32 q := by
    rw [le_div_iff₀ hu, hmul]
    exact hle2
  have hr := roundEven_mono hdiv
  rw [roundEven_intCast] at hr
  have hr2 : ((2 ^ 23 : ℤ) : ℚ) ≤ ((roundEven (q / ulp32 q) : ℤ) : ℚ) := by exact_mod_cast hr
  unfold round32
  calc (2 : ℚ) ^ expo32 q = ((2 ^ 23 : ℤ) : ℚ) * ulp32 q := hmul.symm
    _ ≤ (roundEven (q / ulp32 q) : ℚ) * ulp32 q := mul_le_mul_of_nonneg_right hr2 (le_of_lt hu)

theorem round32_mono_pos {p q : ℚ} (hp : 0 < p) (h : p ≤ q) : round32 p ≤ round32 q := by
  have hq : 0 < q := lt_of_lt_of_le hp h
  rcases eq_or_lt_of_le (expo32_mono hp h) with he | he
  · have hu : ulp32 p = ulp32 q := by unfold ulp32; rw [he]
    unfold round32
    rw [hu]
    have hpos := ulp32_pos q
    have hdiv : p / ulp32 q ≤ q / ulp32 q := div_le_div_of_nonneg_right h (le_of_lt hpos)
    have hr := roundEven_mono hdiv
    have hr2 : ((roundEven (p / ulp32 q) : ℤ) : ℚ) ≤ ((roundEven (q / ulp32 q) : ℤ) : ℚ) := by
      exact_mod_cast hr
    exact mul_le_mul_of_nonneg_right hr2 (le_of_lt hpos)
  · have hn : -126 < expo32 q := by
      have : -126 ≤ expo32 p := by unfold expo32; exact le_max_right _ _
      omega
    calc round32 p ≤ 2 ^ (expo32 p + 1) := round32_le_binade hp
      _ ≤ 2 ^ expo32 q := zpow_le_zpow_right₀ (by norm_num) (by omega)
      _ ≤ round32 q := binade_le_round32 hq hn

theorem round32_zero : round32 0 = 0 := by
  unfold round32
  simp [roundEven]

theorem round32_mono {p q : ℚ} (h : p ≤ q) : round32 p ≤ round32 q := by
  rcases lt_trichotomy 0 p with hp | hp | hp
  · exact round32_mono_pos hp h
  · subst hp
    rw [round32_zero]
    exact round32_nonneg h
  · rcases lt_trichotomy 0 q with hq | hq | hq
    · have h1 : round32 p ≤ 0 := by
        have := round32_nonneg (le_of_lt (neg_pos.mpr hp))
        rw [round32_neg] at this
        linarith
      exact le_trans h1 (round32_nonneg (le_of_lt hq))
    · subst hq
      rw [round32_zero]
      have := round32_nonneg (le_of_lt (neg_pos.mpr hp))
      rw [round32_neg] at this
      linarith
    · have := round32_mono_pos (neg_pos.mpr hq) (neg_le_neg h)
      rw [round32_neg, round32_neg] at this
      linarith

theorem fadd32_mono {x y : ℚ} (h : x ≤ y) (c : ℚ) : fadd32 x c ≤ fadd32 y c :=
  round32_mono (by linarith)

/-- The rounding of a number whose binade is known. -/
theorem round32_of_binade {q : ℚ} {e : ℤ} (hq : 0 < q) (he : -126 ≤ e) (h1 : 2 ^ e ≤ q)
    (h2 : q < 2 ^ (e + 1)) : round32 q = roundEven (q / 2 ^ (e - 23)) * 2 ^ (e - 23) := by
  have hlog : Int.log 2 q = e := by
    have ha : e ≤ Int.log 2 q := by
      rw [← Int.zpow_le_iff_le_log (by norm_num) hq]
      simpa using h1
    have hb : Int.log 2 q < e + 1 := by
      rw [← Int.lt_zpow_iff_log_lt (by norm_num) hq]
      simpa using h2
    omega
  have hexp : expo32 q = e := by
    unfold expo32
    rw [abs_of_pos hq, hlog]
    exact max_eq_left he
  unfold round32 ulp32
  rw [hexp]

/-- The literal `0.025f` is `0.025` rounded to binary32. -/
theorem c025_nearest : round32 (1 / 40) = c025 := by decide!

/-- The literal `0.1f` is `0.1` rounded to binary32. -/
theorem c01_nearest : round32 (1 / 10) = c01 := by decide!

theorem fadd32_three_up : fadd32 3 c025 = bandMax := by decide!

theorem fadd32_three_down : fadd32 3 (-c025) = 6239027 / 2097152 := by decide!

theorem fadd32_neg_three_up : fadd32 (-3) c025 = -(6239027 / 2097152) := by decide!

theorem fadd32_neg_three_down : fadd32 (-3) (-c025) = -bandMax := by decide!

theorem fadd32_bandMax_down : fadd32 bandMax (-c025) = 3 := by decide!

theorem fadd32_neg_bandMax_up : fadd32 (-bandMax) c025 = -3 := by decide!

theorem bandMax_bounds : (121 : ℚ) / 40 < bandMax ∧ bandMax < 3026 / 1000 := by
  unfold bandMax
  constructor <;> norm_num

/-- Bounds on the sum `x + 0.025f` from bounds on `x`. -/
theorem fadd32_up_bounds (x : ℚ) :
    (-bandMax ≤ x → -3 ≤ fadd32 x c025) ∧ (-3 ≤ x → -(6239027 / 2097152) ≤ fadd32 x c025) ∧
      (x ≤ -3 → fadd32 x c025 ≤ -(6239027 / 2097152)) ∧ (x ≤ 3 → fadd32 x c025 ≤ bandMax) := by
  refine ⟨fun h => ?_, fun h => ?_, fun h => ?_, fun h => ?_⟩
  · rw [← fadd32_neg_bandMax_up]; exact fadd32_mono h c025
  · rw [← fadd32_neg_three_up]; exact fadd32_mono h c025
  · rw [← fadd32_neg_three_up]; exact fadd32_mono h c025
  · rw [← fadd32_three_up]; exact fadd32_mono h c025

/-- Bounds on the sum `x + -0.025f` from bounds on `x`. -/
theorem fadd32_down_bounds (x : ℚ) :
    (x ≤ bandMax → fadd32 x (-c025) ≤ 3) ∧ (x ≤ 3 → fadd32 x (-c025) ≤ 6239027 / 2097152) ∧
      (3 ≤ x → 6239027 / 2097152 ≤ fadd32 x (-c025)) ∧ (-3 ≤ x → -bandMax ≤ fadd32 x (-c025)) ∧
      (bandMax ≤ x → 3 ≤ fadd32 x (-c025)) ∧ (x ≤ -bandMax → fadd32 x c025 ≤ -3) := by
  refine ⟨fun h => ?_, fun h => ?_, fun h => ?_, fun h => ?_, fun h => ?_, fun h => ?_⟩
  · rw [← fadd32_bandMax_down]; exact fadd32_mono h (-c025)
  · rw [← fadd32_three_down]; exact fadd32_mono h (-c025)
  · rw [← fadd32_three_down]; exact fadd32_mono h (-c025)
  · rw [← fadd32_neg_three_down]; exact fadd32_mono h (-c025)
  · rw [← fadd32_bandMax_down]; exact fadd32_mono h (-c025)
  · rw [← fadd32_neg_bandMax_up]; exact fadd32_mono h c025

/-- The sum `0.25f + -0.025f` is `7549747 / 2^25`, a little below `0.225`. -/
theorem fadd32_quarter : fadd32 (1 / 4) (-c025) = 7549747 / 33554432 := by decide!

theorem fadd32_zero_down : fadd32 0 (-c025) = -c025 := by decide!

theorem fadd32_maxFloat32 : fadd32 maxFloat32 c025 = maxFloat32 := by
  unfold fadd32
  rw [round32_of_binade (e := 127) (by unfold c025 maxFloat32; norm_num) (by norm_num)
    (by unfold c025 maxFloat32; norm_num) (by unfold c025 maxFloat32; norm_num)]
  decide!

/-- The addition of `ExampleTick` does not overflow: the sum of a finite binary32 value and a
step of at most `0.025f` is within the finite range, so rounding it gives a finite value. -/
theorem fadd32_finite {x c : ℚ} (hx : |x| ≤ maxFloat32) (hc : |c| ≤ c025) :
    |fadd32 x c| ≤ maxFloat32 := by
  rw [abs_le] at hx hc ⊢
  have hup : fadd32 x c ≤ maxFloat32 := by
    rw [← fadd32_maxFloat32]
    exact round32_mono (by linarith)
  have hdown : -maxFloat32 ≤ fadd32 x c := by
    have h : round32 (-(maxFloat32 + c025)) ≤ round32 (x + c) := round32_mono (by linarith)
    rw [round32_neg] at h
    have h2 : round32 (maxFloat32 + c025) = maxFloat32 := fadd32_maxFloat32
    rw [h2] at h
    exact h
  exact ⟨hdown, hup⟩

/-! ## The loop rule -/

theorem Seg.next_eq {m : Mem} {x : Nat} {rest : List Nat} {p head : Ptr}
    (h : Seg m p (x :: rest) head) :
    ∃ n, m.deref (some x) = some n ∧ n.next = nextOf head rest ∧ Seg m (nextOf head rest) rest head := by
  rw [Seg.cons_iff] at h
  obtain ⟨_, n, hn, hrest⟩ := h
  refine ⟨n, hn, ?_⟩
  cases rest with
  | nil => exact ⟨hrest, rfl⟩
  | cons y ys =>
    have := hrest
    rw [Seg.cons_iff] at this
    simp only [nextOf]
    rw [← this.1]
    exact ⟨rfl, hrest⟩

/-- Total correctness of `doWhile` along a list of nodes: if the body, run at the first
remaining node, keeps the invariant and moves `temp` to the next one, the loop ends after the
last node with the invariant for the whole list. -/
theorem doWhile_list {σ : Type} (body : Ptr → σ → Option (σ × Ptr)) (head : Ptr)
    (P : List Nat → List Nat → σ → Prop)
    (hstep : ∀ done x rest s, P done (x :: rest) s →
      ∃ s', body (some x) s = some (s', nextOf head rest) ∧ P (done ++ [x]) rest s') :
    ∀ (rest done : List Nat) (x : Nat) (s : σ) (fuel : Nat),
      (∀ y ∈ rest, some y ≠ head) → rest.length < fuel → P done (x :: rest) s →
      ∃ s', doWhile body head fuel (some x) s = some s' ∧ P (done ++ x :: rest) [] s' := by
  intro rest
  induction rest with
  | nil =>
    intro done x s fuel _ hfuel hP
    obtain ⟨s', hb, hP'⟩ := hstep done x [] s hP
    cases fuel with
    | zero => simp at hfuel
    | succ k => exact ⟨s', by simp [doWhile, hb, nextOf], hP'⟩
  | cons y ys ih =>
    intro done x s fuel hne hfuel hP
    obtain ⟨s', hb, hP'⟩ := hstep done x (y :: ys) s hP
    cases fuel with
    | zero => simp at hfuel
    | succ k =>
      have hy : some y ≠ head := hne y (List.mem_cons_self _ _)
      obtain ⟨s'', hd, hP''⟩ := ih (done ++ [x]) y s' k
        (fun z hz => hne z (List.mem_cons_of_mem _ hz)) (by simpa using hfuel) hP'
      refine ⟨s'', ?_, by simpa using hP''⟩
      simp [doWhile, hb, nextOf, hy, hd]

/-- Partial correctness of `doWhile`: what every run of the body preserves, the loop preserves. -/
theorem doWhile_preserves {σ : Type} (body : Ptr → σ → Option (σ × Ptr)) (head : Ptr)
    (J : σ → Prop) (hbody : ∀ temp s s' t, J s → body temp s = some (s', t) → J s') :
    ∀ (fuel : Nat) (temp : Ptr) (s s' : σ), J s → doWhile body head fuel temp s = some s' → J s' := by
  intro fuel
  induction fuel with
  | zero => intro temp s s' _ h; simp [doWhile] at h
  | succ k ih =>
    intro temp s s' hJ h
    cases hb : body temp s with
    | none => simp [doWhile, hb] at h
    | some r =>
      obtain ⟨s1, t⟩ := r
      have hJ1 := hbody temp s s1 t hJ hb
      by_cases ht : t = head
      · simp [doWhile, hb, ht] at h
        exact h ▸ hJ1
      · simp [doWhile, hb, ht] at h
        exact ih t s1 s' hJ1 h

/-- In a non-empty ring no node after the first is `head`. -/
theorem Ring.tail_ne_head {m : Mem} {head : Ptr} {x : Nat} {rest : List Nat}
    (h : Ring m head (x :: rest)) : head = some x ∧ ∀ y ∈ rest, some y ≠ head := by
  have hh : head = some x := by simpa using h.2.1
  refine ⟨hh, ?_⟩
  intro y hy e
  have hnd := h.1
  rw [hh] at e
  have : y = x := by simpa using e
  subst this
  exact (List.nodup_cons.1 hnd).1 hy

/-! ## Traversal -/

theorem traversal_ring {m : Mem} {head : Ptr} {xs : List Nat} (h : Ring m head xs)
    {fuel : Nat} (hfuel : xs.length ≤ fuel) :
    traversal m fuel head = some (xs.map some) := by
  cases xs with
  | nil =>
    have : head = none := by simpa using h.2.1
    simp [traversal, this]
  | cons x rest =>
    obtain ⟨hh, hne⟩ := h.tail_ne_head
    have hhn : ¬ head = none := by simp [hh]
    simp only [traversal, hhn, if_false]
    have key := doWhile_list
      (fun temp visited =>
        match m.deref temp with
        | none => none
        | some n => some (visited ++ [temp], n.next)) head
      (fun done todo (visited : List Ptr) =>
        visited = done.map some ∧ Seg m (nextOf head todo) todo head)
      (by
        intro done y todo visited hP
        obtain ⟨hv, hseg⟩ := hP
        obtain ⟨n, hn, hnext, hseg'⟩ := Seg.next_eq hseg
        refine ⟨visited ++ [some y], ?_, ?_, hseg'⟩
        · simp [hn, hnext]
        · simp [hv])
      rest [] x [] fuel hne (by simpa using hfuel) ⟨rfl, by simpa [nextOf, ← hh] using h.2.2⟩
    obtain ⟨v, hv, hPv⟩ := key
    have e : v = List.map some (x :: rest) := by simpa using hPv.1
    subst e
    rw [hh] at hv ⊢
    exact hv

/-! ## The tail scan of `InsertEnd` -/

theorem scan_seg {m : Mem} {head : Ptr} :
    ∀ (rest : List Nat) (x : Nat) (p : Ptr) (fuel : Nat),
      Seg m p (x :: rest) head → (∀ y ∈ rest, some y ≠ head) → rest.length < fuel →
      InsertEnd.scan m head fuel (some x) = some (some ((x :: rest).getLast (by simp))) := by
  intro rest
  induction rest with
  | nil =>
    intro x p fuel hs _ hfuel
    obtain ⟨n, hn, hnext, _⟩ := Seg.next_eq hs
    cases fuel with
    | zero => simp at hfuel
    | succ k => simp [InsertEnd.scan, hn, hnext, nextOf]
  | cons y ys ih =>
    intro x p fuel hs hne hfuel
    obtain ⟨n, hn, hnext, hrest⟩ := Seg.next_eq hs
    cases fuel with
    | zero => simp at hfuel
    | succ k =>
      have hy : some y ≠ head := hne y (List.mem_cons_self _ _)
      have := ih y (some y) k hrest (fun z hz => hne z (List.mem_cons_of_mem _ hz))
        (by simpa using hfuel)
      simp [InsertEnd.scan, hn, hnext, nextOf, hy, this]

/-! ## `CreateNode` and `InsertEnd` -/

theorem CreateNode_eq (lib : Raylib) (hooks : Hooks) (model : Model) (position : Vector3)
    (f : Nat) (tick onCollision : FnPtr) (s : State) :
    CreateNode lib hooks model position (some f) tick onCollision s =
      (hooks.beginPlay f (some s.mem.heap.length)
          (freshMem lib model position tick onCollision s.mem)).map
        (fun m => (some s.mem.heap.length,
          { mem := m, calls := s.calls ++ [Call.beginPlay f (some s.mem.heap.length)] })) := by
  simp only [CreateNode, State.invoke, freshMem, freshNode]
  cases hooks.beginPlay f (some s.mem.heap.length) _ <;> rfl

theorem Seg.singleton_iff {m : Mem} {p q : Ptr} {x : Nat} :
    Seg m p [x] q ↔ p = some x ∧ ∃ n, m.deref (some x) = some n ∧ n.next = q := by
  rw [Seg.cons_iff]
  simp [Seg]

theorem freshMem_old {lib : Raylib} {model : Model} {position : Vector3} {tick onCollision : FnPtr}
    {m : Mem} {a : Nat} (h : a < m.heap.length) :
    (freshMem lib model position tick onCollision m).deref (some a) = m.deref (some a) :=
  Mem.deref_append_old h

theorem freshMem_new (lib : Raylib) (model : Model) (position : Vector3) (tick onCollision : FnPtr)
    (m : Mem) :
    (freshMem lib model position tick onCollision m).deref (some m.heap.length) =
      some (freshNode lib model position tick onCollision) :=
  Mem.deref_append_new _ _ _

/-- The effect of `InsertEnd` on a ring: it returns, the ring is the old one followed by the new entity, and
the only call made is the one to `beginPlay`. -/
theorem InsertEnd_ring (lib : Raylib) (hooks : Hooks) (fuel : Nat) {head : Ptr} {xs : List Nat}
    {s : State} (model : Model) (position : Vector3) {f : Nat} (tick onCollision : FnPtr)
    (hring : Ring s.mem head xs) (hok : hooks.BeginPlayOk f) (hfuel : xs.length ≤ fuel) :
    ∃ head' s', InsertEnd lib hooks fuel head model position (some f) tick onCollision s =
        some (head', s') ∧
      Ring s'.mem head' (xs ++ [s.mem.heap.length]) ∧
      s'.calls = s.calls ++ [Call.beginPlay f (some s.mem.heap.length)] := by
  obtain ⟨hnd, hhead, hseg⟩ := hring
  have hlt : ∀ x ∈ xs, x < s.mem.heap.length := fun x hx =>
    let ⟨_, hn⟩ := Seg.live hseg x hx
    Mem.deref_some_lt hn
  have hfresh : s.mem.heap.length ∉ xs := fun hmem => Nat.lt_irrefl _ (hlt _ hmem)
  have hnew0 := freshMem_new lib model position tick onCollision s.mem
  obtain ⟨m', hbp, hkeep⟩ := hok (some s.mem.heap.length)
    (freshMem lib model position tick onCollision s.mem) (by simp [hnew0])
  have hseg' : Seg m' head xs head := by
    refine Seg.keeps hkeep (Seg.congr (fun x hx => ?_) hseg)
    rw [freshMem_old (hlt x hx)]
  obtain ⟨n', hn', _⟩ := hkeep.get hnew0
  have hcreate := CreateNode_eq lib hooks model position f tick onCollision s
  rw [hbp] at hcreate
  simp only [Option.map_some'] at hcreate
  cases xs with
  | nil =>
    have hnone : head = none := by simpa using hhead
    obtain ⟨m2, hmod, _, _, hd2⟩ := Mem.modify_spec
      (fun n => { n with next := some s.mem.heap.length }) hn'
    refine ⟨some s.mem.heap.length, { mem := m2, calls := _ }, ?_, ⟨?_, ?_, ?_⟩, rfl⟩
    · simp [InsertEnd, hcreate, hnone, hmod]
    · simp
    · simp
    · rw [List.nil_append, Seg.singleton_iff]
      exact ⟨rfl, { n' with next := some s.mem.heap.length }, by simp [hd2], rfl⟩
  | cons x rest =>
    have hh : head = some x := by simpa using hhead
    have hne : ∀ y ∈ rest, some y ≠ head := by
      intro y hy e
      rw [hh] at e
      have : y = x := by simpa using e
      subst this
      exact (List.nodup_cons.1 hnd).1 hy
    have hscan := scan_seg rest x head fuel hseg' hne (by simpa using hfuel)
    rw [← hh] at hscan
    -- split the ring into its initial part and its last node
    have hsplit := List.dropLast_append_getLast (l := x :: rest) (by simp)
    generalize hl : (x :: rest).getLast (by simp) = last at hscan hsplit
    generalize hi : (x :: rest).dropLast = front at hsplit
    have hlast_mem : last ∈ x :: rest := by rw [← hsplit]; simp
    have hnd' : (front ++ [last]).Nodup := by rw [hsplit]; exact hnd
    have hlast_front : last ∉ front := by
      intro hmem
      have := List.nodup_append.1 hnd'
      exact this.2.2 hmem (List.mem_singleton_self _)
    have hfront_sub : ∀ y ∈ front, y ∈ x :: rest := by
      intro y hy; rw [← hsplit]; exact List.mem_append_left _ hy
    rw [← hsplit] at hseg'
    obtain ⟨q, hsegf, hsegl⟩ := Seg.append_iff.1 hseg'
    obtain ⟨hq, nl, hnl, _⟩ := Seg.singleton_iff.1 hsegl
    obtain ⟨m1, hmod1, _, _, hd1⟩ := Mem.modify_spec
      (fun n => { n with next := some s.mem.heap.length }) hnl
    have hne_al : s.mem.heap.length ≠ last := fun e => hfresh (e ▸ hlast_mem)
    have hn1 : m1.deref (some s.mem.heap.length) = some n' := by
      rw [hd1]; simp [hne_al, hn']
    obtain ⟨m2, hmod2, _, _, hd2⟩ := Mem.modify_spec (fun n => { n with next := head }) hn1
    refine ⟨head, { mem := m2, calls := _ }, ?_, ⟨?_, ?_, ?_⟩, rfl⟩
    · have hhn : ¬ head = none := by simp [hh]
      simp [InsertEnd, hcreate, hhn, hscan, hmod1, hmod2]
    · exact List.nodup_append.2 ⟨hnd, by simp, by
        intro a ha hb
        have : a = s.mem.heap.length := by simpa using hb
        exact hfresh (this ▸ ha)⟩
    · simp [hh]
    · show Seg m2 head (x :: rest ++ [s.mem.heap.length]) head
      rw [← hsplit, Seg.append_iff]
      refine ⟨some s.mem.heap.length, ?_, ?_⟩
      · rw [Seg.append_iff]
        refine ⟨q, Seg.congr (fun y hy => ?_) hsegf, ?_⟩
        · have hy1 : y ≠ last := fun e => hlast_front (e ▸ hy)
          have hy2 : y ≠ s.mem.heap.length := fun e => hfresh (e ▸ hfront_sub y hy)
          rw [hd2, hd1]; simp [hy1, hy2]
        · rw [Seg.singleton_iff]
          refine ⟨hq, { nl with next := some s.mem.heap.length }, ?_, rfl⟩
          rw [hd2, hd1]; simp [hne_al.symm]
      · rw [Seg.singleton_iff]
        exact ⟨rfl, { n' with next := head }, by rw [hd2]; simp, rfl⟩

/-! ## Hooks that keep a part of every node -/

theorem Keeps.emit {α : Type} (part : Node → α) (m : Mem) (o : Output) :
    Keeps part m (m.emit o) := fun q => by rw [Mem.deref_emit]

theorem Keeps.modify {α : Type} {part : Node → α} {m m' : Mem} {p : Ptr} {f : Node → Node}
    (h : m.modify p f = some m') (hf : ∀ n, part (f n) = part n) : Keeps part m m' := by
  obtain ⟨n, hn⟩ := Mem.modify_some h
  obtain ⟨m2, hmod, _, _, hd⟩ := Mem.modify_spec f hn
  rw [h] at hmod
  cases hmod
  intro q
  rw [hd]
  by_cases hq : q = p
  · subst hq; simp [hn, hf]
  · simp [hq]

theorem ExampleBeginPlay_spec {m : Mem} {node : Ptr} {n : Node} (h : m.deref node = some n) :
    ∃ m', ExampleBeginPlay node m = some m' ∧
      m'.out = m.out ++ [Output.printf n.position.x n.position.y n.position.z] ∧
      m'.heap.length = m.heap.length ∧
      ∀ q : Ptr, m'.deref q =
        if q = node then some (setTag0 (if n.position.x < 0 then 'F' else 'B') n)
        else m.deref q := by
  have h1 : (m.emit (Output.printf n.position.x n.position.y n.position.z)).deref node = some n := by
    rw [Mem.deref_emit]; exact h
  by_cases hx : n.position.x < 0
  · obtain ⟨m', hmod, hout, hlen, hd⟩ := Mem.modify_spec (setTag0 'F') h1
    refine ⟨m', by simp [ExampleBeginPlay, h, hx, hmod], by simpa [Mem.emit] using hout,
      by simpa [Mem.emit] using hlen, ?_⟩
    intro q
    rw [hd, Mem.deref_emit]
    simp [hx]
  · obtain ⟨m', hmod, hout, hlen, hd⟩ := Mem.modify_spec (setTag0 'B') h1
    refine ⟨m', by simp [ExampleBeginPlay, h, hx, hmod], by simpa [Mem.emit] using hout,
      by simpa [Mem.emit] using hlen, ?_⟩
    intro q
    rw [hd, Mem.deref_emit]
    simp [hx]

theorem exampleHooks_beginPlayOk (lib : Raylib) :
    (exampleHooks lib).BeginPlayOk fnExampleBeginPlay := by
  intro node m hlive
  obtain ⟨n, hn⟩ := Option.isSome_iff_exists.1 hlive
  obtain ⟨m', hm', _, _, hd⟩ := ExampleBeginPlay_spec hn
  refine ⟨m', by simp [exampleHooks, hm'], ?_⟩
  intro q
  rw [hd]
  by_cases hq : q = node
  · subst hq; simp [hn, setTag0]
  · simp [hq]

/-! ## Rings built by `InsertEnd` -/

theorem Ring.empty (m : Mem) : Ring m none [] := ⟨List.nodup_nil, rfl, rfl⟩

theorem Ring.last_next {m : Mem} {head : Ptr} {xs : List Nat} {a : Nat}
    (h : Ring m head (xs ++ [a])) : ∃ n, m.deref (some a) = some n ∧ n.next = head := by
  obtain ⟨q, _, hl⟩ := Seg.append_iff.1 h.2.2
  exact (Seg.singleton_iff.1 hl).2

theorem insertAll_ring (lib : Raylib) (hooks : Hooks) (fuel : Nat) :
    ∀ (spawns : List Spawn) (head : Ptr) (xs : List Nat) (s : State),
      Ring s.mem head xs →
      (∀ a ∈ spawns, ∃ f, a.beginPlay = some f ∧ hooks.BeginPlayOk f) →
      xs.length + spawns.length ≤ fuel →
      ∃ head' s' news, insertAll lib hooks fuel spawns head s = some (head', s', news.map some) ∧
        news.length = spawns.length ∧ Ring s'.mem head' (xs ++ news) := by
  intro spawns
  induction spawns with
  | nil =>
    intro head xs s hring _ _
    exact ⟨head, s, [], by simp [insertAll], rfl, by simpa using hring⟩
  | cons a rest ih =>
    intro head xs s hring hok hfuel
    obtain ⟨f, hf, hfok⟩ := hok a (List.mem_cons_self _ _)
    obtain ⟨head1, s1, hins, hring1, _⟩ :=
      InsertEnd_ring lib hooks fuel a.model a.position a.tick a.onCollision hring hfok
        (by simp at hfuel; omega)
    obtain ⟨head2, s2, news, hall, hlen, hring2⟩ := ih head1 (xs ++ [s.mem.heap.length]) s1 hring1
      (fun b hb => hok b (List.mem_cons_of_mem _ hb)) (by simp at hfuel ⊢; omega)
    refine ⟨head2, s2, s.mem.heap.length :: news, ?_, by simp [hlen], by simpa using hring2⟩
    rw [← hf] at hins
    simp [insertAll, hins, hall]

/-! ## The tag buffer -/

theorem Tags.get_set_zero (t : Tags) (c : Char) : (t.set 0 c).get 0 = c := by
  have h : 0 < t.bytes.length := by rw [t.size]; decide
  simp [Tags.get, Tags.set, List.getD, List.getElem?_set, h]

theorem Tags.get_set_ne (t : Tags) (c : Char) {i : Nat} (hi : i ≠ 0) :
    (t.set 0 c).get i = t.get i := by
  simp [Tags.get, Tags.set, List.getD, List.getElem?_set, Ne.symm hi]

theorem Tags.get_zero (i : Nat) : Tags.zero.get i = Char.ofNat 0 := by
  simp only [Tags.get, Tags.zero, List.getD]
  by_cases h : i < TAG_CHAR_SIZE
  · simp [List.getElem?_replicate, h]
  · simp [List.getElem?_replicate, h]

/-! ## The example tick and reaction -/

theorem ExampleTick_spec {m : Mem} {node : Ptr} {n : Node} (h : m.deref node = some n) :
    ∃ m', ExampleTick node m = some m' ∧ m'.out = m.out ∧ m'.heap.length = m.heap.length ∧
      ∀ q : Ptr, m'.deref q = if q = node then some (tickedNode n) else m.deref q := by
  have step2 : ∀ (m1 : Mem) (n1 : Node), m1.deref node = some n1 →
      m1.out = m.out → m1.heap.length = m.heap.length →
      (∀ q : Ptr, q ≠ node → m1.deref q = m.deref q) →
      ∃ m', m1.modify node (fun n1 => { n1 with position := { n1.position with
          x := fadd32 n1.position.x (if n1.tags.get 0 = 'F' then c025 else -c025) } }) = some m' ∧
        m'.out = m.out ∧ m'.heap.length = m.heap.length ∧
        ∀ q : Ptr, m'.deref q = if q = node then some (advance n1) else m.deref q := by
    intro m1 n1 hn1 hout hlen hother
    obtain ⟨m', hmod, ho, hl, hd⟩ := Mem.modify_spec (fun n1 => { n1 with position :=
      { n1.position with
        x := fadd32 n1.position.x (if n1.tags.get 0 = 'F' then c025 else -c025) } }) hn1
    refine ⟨m', hmod, by rw [ho, hout], by rw [hl, hlen], ?_⟩
    intro q
    rw [hd]
    by_cases hq : q = node
    · simp [hq, advance]
    · simp [hq, hother q hq]
  by_cases hlo : n.position.x < -3
  · obtain ⟨m1, hmod1, ho1, hl1, hd1⟩ := Mem.modify_spec (setTag0 'F') h
    obtain ⟨m', hmod, ho, hl, hd⟩ := step2 m1 (setTag0 'F' n) (by simp [hd1]) ho1 hl1
      (fun q hq => by simp [hd1, hq])
    refine ⟨m', ?_, ho, hl, ?_⟩
    · unfold ExampleTick
      rw [h]
      simp only [if_pos hlo, hmod1]
      exact hmod
    · unfold tickedNode
      rw [if_pos hlo]
      exact hd
  · by_cases hhi : n.position.x > 3
    · obtain ⟨m1, hmod1, ho1, hl1, hd1⟩ := Mem.modify_spec (setTag0 'B') h
      obtain ⟨m', hmod, ho, hl, hd⟩ := step2 m1 (setTag0 'B' n) (by simp [hd1]) ho1 hl1
        (fun q hq => by simp [hd1, hq])
      refine ⟨m', ?_, ho, hl, ?_⟩
      · unfold ExampleTick
        rw [h]
        simp only [if_neg hlo, if_pos hhi, hmod1]
        exact hmod
      · unfold tickedNode
        rw [if_neg hlo, if_pos hhi]
        exact hd
    · obtain ⟨m', hmod, ho, hl, hd⟩ := step2 m n h rfl rfl (fun _ _ => rfl)
      refine ⟨m', ?_, ho, hl, ?_⟩
      · unfold ExampleTick
        rw [h]
        simp only [if_neg hlo, if_neg hhi]
        exact hmod
      · unfold tickedNode
        rw [if_neg hlo, if_neg hhi]
        exact hd

theorem ExampleCollision_spec (lib : Raylib) {m : Mem} {node other : Ptr} {n o : Node}
    (hn : m.deref node = some n) (ho : m.deref other = some o) :
    ∃ m', ExampleCollision lib node other m = some m' ∧
      m'.heap.length = m.heap.length ∧
      (lib.Vector3Distance n.position o.position ≥ 1 / 2 →
        m'.heap = m.heap ∧
        m'.out = m.out ++ [Output.DrawModelWires n.model n.position,
          Output.DrawSphereWires (lib.Vector3Lerp n.position o.position c01)]) ∧
      (¬ lib.Vector3Distance n.position o.position ≥ 1 / 2 → m'.out = m.out) ∧
      ∀ q : Ptr, m'.deref q = if q = node then some (collidedNode lib n o) else m.deref q := by
  have hdef : ExampleCollision lib node other m =
      if lib.Vector3Distance n.position o.position ≥ 1 / 2 then
        some ((m.emit (Output.DrawModelWires n.model n.position)).emit
          (Output.DrawSphereWires (lib.Vector3Lerp n.position o.position c01)))
      else if n.tags.get 0 = 'F' ∧ o.tags.get 0 = 'B' then m.modify node (setTag0 'B')
      else if n.tags.get 0 = 'B' ∧ o.tags.get 0 = 'B' then m.modify node (setTag0 'F')
      else some m := by
    unfold ExampleCollision
    rw [hn, ho]
  rw [hdef]
  unfold collidedNode
  by_cases hfar : lib.Vector3Distance n.position o.position ≥ 1 / 2
  · rw [if_pos hfar, if_pos hfar]
    refine ⟨(m.emit (Output.DrawModelWires n.model n.position)).emit
        (Output.DrawSphereWires (lib.Vector3Lerp n.position o.position c01)), rfl, rfl,
      fun _ => ⟨rfl, by simp [Mem.emit]⟩, fun h => absurd hfar h, ?_⟩
    intro q
    rw [Mem.deref_emit, Mem.deref_emit]
    by_cases hq : q = node
    · rw [if_pos hq, hq, hn]
    · rw [if_neg hq]
  · rw [if_neg hfar, if_neg hfar]
    by_cases hfb : n.tags.get 0 = 'F' ∧ o.tags.get 0 = 'B'
    · rw [if_pos hfb, if_pos hfb]
      obtain ⟨m', hmod, hout, hlen, hd⟩ := Mem.modify_spec (setTag0 'B') hn
      exact ⟨m', hmod, hlen, fun h => absurd h hfar, fun _ => hout, hd⟩
    · rw [if_neg hfb, if_neg hfb]
      by_cases hbb : n.tags.get 0 = 'B' ∧ o.tags.get 0 = 'B'
      · rw [if_pos hbb, if_pos hbb]
        obtain ⟨m', hmod, hout, hlen, hd⟩ := Mem.modify_spec (setTag0 'F') hn
        exact ⟨m', hmod, hlen, fun h => absurd h hfar, fun _ => hout, hd⟩
      · rw [if_neg hbb, if_neg hbb]
        refine ⟨m, rfl, rfl, fun h => absurd h hfar, fun _ => rfl, ?_⟩
        intro q
        by_cases hq : q = node
        · rw [if_pos hq, hq, hn]
        · rw [if_neg hq]

theorem collidedNode_part (lib : Raylib) (n o : Node) :
    (collidedNode lib n o).collisionPart = n.collisionPart := by
  unfold collidedNode
  split
  · rfl
  · split
    · rfl
    · split <;> rfl

theorem exampleHooks_collisionOk (lib : Raylib) :
    (exampleHooks lib).CollisionOk fnExampleCollision := by
  intro node other m hnode hother
  obtain ⟨n, hn⟩ := Option.isSome_iff_exists.1 hnode
  obtain ⟨o, ho⟩ := Option.isSome_iff_exists.1 hother
  obtain ⟨m', hm', _, _, _, hd⟩ := ExampleCollision_spec lib hn ho
  refine ⟨m', by simp [exampleHooks, hm'], ?_⟩
  intro q
  rw [hd]
  by_cases hq : q = node
  · subst hq; simp [hn, collidedNode_part]
  · simp [hq]

/-! ## `UpdateBoundingBoxes` -/

/-- One run of the body of `UpdateBoundingBoxes` at an allocated node. -/
theorem refresh_step (lib : Raylib) {m : Mem} {p : Ptr} {n : Node} (h : m.deref p = some n) :
    ∃ m1 m2 m3,
      m.modify p (fun n => { n with boundingBox := lib.GetModelBoundingBox n.model }) = some m1 ∧
      m1.modify p (fun n => { n with boundingBox :=
        { n.boundingBox with min := Vector3Add n.boundingBox.min n.position } }) = some m2 ∧
      m2.modify p (fun n => { n with boundingBox :=
        { n.boundingBox with max := Vector3Add n.boundingBox.max n.position } }) = some m3 ∧
      m3.out = m.out ∧ m3.heap.length = m.heap.length ∧
      ∀ q : Ptr, m3.deref q = if q = p then some (Node.refreshed lib n) else m.deref q := by
  obtain ⟨m1, h1, o1, l1, d1⟩ := Mem.modify_spec
    (fun n => { n with boundingBox := lib.GetModelBoundingBox n.model }) h
  have e1 := d1 p
  rw [if_pos rfl] at e1
  obtain ⟨m2, h2, o2, l2, d2⟩ := Mem.modify_spec
    (fun n => { n with boundingBox :=
      { n.boundingBox with min := Vector3Add n.boundingBox.min n.position } }) e1
  have e2 := d2 p
  rw [if_pos rfl] at e2
  obtain ⟨m3, h3, o3, l3, d3⟩ := Mem.modify_spec
    (fun n => { n with boundingBox :=
      { n.boundingBox with max := Vector3Add n.boundingBox.max n.position } }) e2
  refine ⟨m1, m2, m3, h1, h2, h3, by rw [o3, o2, o1], by rw [l3, l2, l1], ?_⟩
  intro q
  rw [d3]
  by_cases hq : q = p
  · simp [hq, Node.refreshed]
  · simp [hq, d2, d1]

/-- What `UpdateBoundingBoxes` does to a ring: it returns, every entity of the ring gets the
refreshed bounding box, and nothing else changes. -/
theorem UpdateBoundingBoxes_ring (lib : Raylib) (fuel : Nat) {head : Ptr} {xs : List Nat}
    {m : Mem} (hring : Ring m head xs) (hfuel : xs.length ≤ fuel) :
    ∃ m', UpdateBoundingBoxes lib fuel head m = some m' ∧ m'.out = m.out ∧
      m'.heap.length = m.heap.length ∧
      ∀ q : Ptr, m'.deref q =
        if q ∈ xs.map some then (m.deref q).map (Node.refreshed lib) else m.deref q := by
  cases xs with
  | nil =>
    have : head = none := by simpa using hring.2.1
    exact ⟨m, by simp [UpdateBoundingBoxes, this], rfl, rfl, by simp⟩
  | cons x rest =>
    obtain ⟨hh, hne⟩ := hring.tail_ne_head
    have hhn : ¬ head = none := by simp [hh]
    simp only [UpdateBoundingBoxes, hhn, if_false]
    have key := doWhile_list
      (fun temp m =>
        match m.modify temp (fun n => { n with boundingBox := lib.GetModelBoundingBox n.model }) with
        | none => none
        | some m1 =>
          match m1.modify temp (fun n => { n with boundingBox :=
              { n.boundingBox with min := Vector3Add n.boundingBox.min n.position } }) with
          | none => none
          | some m2 =>
            match m2.modify temp (fun n => { n with boundingBox :=
                { n.boundingBox with max := Vector3Add n.boundingBox.max n.position } }) with
            | none => none
            | some m3 =>
              match m3.deref temp with
              | none => none
              | some n => some (m3, n.next)) head
      (fun done todo (m1 : Mem) =>
        done ++ todo = x :: rest ∧ Seg m1 (nextOf head todo) todo head ∧ m1.out = m.out ∧
          m1.heap.length = m.heap.length ∧
          ∀ q : Ptr, m1.deref q =
            if q ∈ done.map some then (m.deref q).map (Node.refreshed lib) else m.deref q)
      (by
        intro done y todo m1 hP
        obtain ⟨hsplit, hseg, hout, hlen, hd⟩ := hP
        have hnd : (done ++ y :: todo).Nodup := hsplit ▸ hring.1
        have hy : y ∉ done := fun hmem =>
          (List.nodup_append.1 hnd).2.2 hmem (List.mem_cons_self _ _)
        obtain ⟨n1, hn1, hnext, hseg'⟩ := Seg.next_eq hseg
        have hn : m.deref (some y) = some n1 := by
          have := hd (some y)
          rw [if_neg (by simpa using hy)] at this
          rw [← this]; exact hn1
        obtain ⟨ma, mb, m3, ha, hb, hc, hout3, hlen3, hd3⟩ := refresh_step lib hn1
        have hkeep : Keeps Node.next m1 m3 := by
          intro q
          rw [hd3]
          by_cases hq : q = some y
          · subst hq; simp [hn1, Node.refreshed]
          · simp [hq]
        refine ⟨m3, ?_, by simpa using hsplit, Seg.keeps hkeep hseg', by rw [hout3, hout],
          by rw [hlen3, hlen], ?_⟩
        · have hd3y := hd3 (some y)
          rw [if_pos rfl] at hd3y
          simp [ha, hb, hc, hd3y, Node.refreshed, hnext]
        · intro q
          rw [hd3, hd]
          by_cases hq : q = some y
          · subst hq
            simp [hn, hy]
          · have : q ∈ List.map some (done ++ [y]) ↔ q ∈ List.map some done := by
              simp [hq]
            simp only [hq, if_false, this])
      rest [] x m fuel hne (by simpa using hfuel)
      ⟨rfl, by simpa [nextOf, ← hh] using hring.2.2, rfl, rfl, by simp⟩
    obtain ⟨m', hrun, _, _, hout, hlen, hd⟩ := key
    rw [hh] at hrun ⊢
    exact ⟨m', hrun, hout, hlen, by simpa using hd⟩

/-- C4: after `UpdateBoundingBoxes` on a well-formed ring, whatever the bounding boxes were,
the box of every entity is the local box of its model with both corners moved by the position
of the entity; position, tags, model, hooks and link of the entity are the same, and so are the
cells outside the ring and the library output. -/
theorem UpdateBoundingBoxes_translates (lib : Raylib) (fuel : Nat) (head : Ptr) (xs : List Nat)
    (m : Mem) (hring : Ring m head xs) (hfuel : xs.length ≤ fuel) :
    ∃ m', UpdateBoundingBoxes lib fuel head m = some m' ∧
      (∀ x ∈ xs, ∃ n n', m.deref (some x) = some n ∧ m'.deref (some x) = some n' ∧
        n'.boundingBox.min = Vector3Add (lib.GetModelBoundingBox n.model).min n.position ∧
        n'.boundingBox.max = Vector3Add (lib.GetModelBoundingBox n.model).max n.position ∧
        n'.position = n.position ∧ n'.tags = n.tags ∧ n'.model = n.model ∧
        n'.next = n.next ∧ n'.tick = n.tick ∧ n'.onCollision = n.onCollision) ∧
      (∀ q : Ptr, q ∉ xs.map some → m'.deref q = m.deref q) ∧
      m'.out = m.out ∧ Ring m' head xs := by
  obtain ⟨m', hrun, hout, _, hd⟩ := UpdateBoundingBoxes_ring lib fuel hring hfuel
  refine ⟨m', hrun, ?_, ?_, hout, ?_⟩
  · intro x hx
    obtain ⟨n, hn⟩ := hring.mem_live x hx
    refine ⟨n, Node.refreshed lib n, hn, ?_, rfl, rfl, rfl, rfl, rfl, rfl, rfl, rfl⟩
    rw [hd, if_pos (List.mem_map_of_mem _ hx), hn]; rfl
  · intro q hq
    rw [hd, if_neg hq]
  · refine Ring.of_keeps ?_ hring
    intro q
    rw [hd]
    by_cases hq : q ∈ xs.map some
    · rw [if_pos hq]; cases m.deref q <;> rfl
    · rw [if_neg hq]

theorem UpdateBoundingBoxes_translates_witness :
    Ring demoState2.mem (some 0) [0, 1] ∧
    ∃ m', UpdateBoundingBoxes demoLib 2 (some 0) demoState2.mem = some m' ∧
      (∀ x ∈ [0, 1], ∃ n n', demoState2.mem.deref (some x) = some n ∧
        m'.deref (some x) = some n' ∧
        n'.boundingBox.min = Vector3Add (demoLib.GetModelBoundingBox n.model).min n.position ∧
        n'.boundingBox.max = Vector3Add (demoLib.GetModelBoundingBox n.model).max n.position ∧
        n'.position = n.position ∧ n'.tags = n.tags ∧ n'.model = n.model ∧
        n'.next = n.next ∧ n'.tick = n.tick ∧ n'.onCollision = n.onCollision) ∧
      (∀ q : Ptr, q ∉ [0, 1].map some → m'.deref q = demoState2.mem.deref q) ∧
      m'.out = demoState2.mem.out ∧ Ring m' (some 0) [0, 1] :=
  ⟨by decide,
    UpdateBoundingBoxes_translates demoLib 2 (some 0) [0, 1] demoState2.mem (by decide)
      (by decide)⟩

/-! ## Replaying the calls of the example hooks -/

theorem runCalls_append (hooks : Hooks) (l1 l2 : List Call) (m : Mem) :
    runCalls hooks (l1 ++ l2) m = (runCalls hooks l1 m).bind (runCalls hooks l2) := by
  induction l1 generalizing m with
  | nil => rfl
  | cons c cs ih =>
    simp only [List.cons_append, runCalls]
    cases runCall hooks c m with
    | none => rfl
    | some m1 => exact ih m1

theorem ExampleBeginPlay_live {m m' : Mem} {node : Ptr} (h : ExampleBeginPlay node m = some m') :
    ∃ n, m.deref node = some n := by
  cases hd : m.deref node with
  | none => simp [ExampleBeginPlay, hd] at h
  | some n => exact ⟨n, rfl⟩

theorem ExampleTick_live {m m' : Mem} {node : Ptr} (h : ExampleTick node m = some m') :
    ∃ n, m.deref node = some n := by
  cases hd : m.deref node with
  | none => simp [ExampleTick, hd] at h
  | some n => exact ⟨n, rfl⟩

theorem ExampleCollision_live {lib : Raylib} {m m' : Mem} {node other : Ptr}
    (h : ExampleCollision lib node other m = some m') :
    ∃ n o, m.deref node = some n ∧ m.deref other = some o := by
  cases hd : m.deref node with
  | none => simp [ExampleCollision, hd] at h
  | some n =>
    cases ho : m.deref other with
    | none => simp [ExampleCollision, hd, ho] at h
    | some o => exact ⟨n, o, rfl, rfl⟩

theorem CallStep.toExampleStep {lib : Raylib} {c : Call} {n n' : Node}
    (h : CallStep lib c n n') : ExampleStep lib n n' := by
  cases c with
  | beginPlay f node => exact Or.inl h
  | tick f node => exact Or.inr (Or.inl h)
  | onCollision f node other => exact Or.inr (Or.inr h)

/-- One call of an example hook that returns: the entity it is called on makes the step of
that hook, no other cell changes, and what it adds to the output releases nothing. -/
theorem runCall_example {lib : Raylib} {c : Call} {m m' : Mem}
    (h : runCall (exampleHooks lib) c m = some m') :
    ∃ n n', m.deref c.node = some n ∧ CallStep lib c n n' ∧
      (∀ q : Ptr, m'.deref q = if q = c.node then some n' else m.deref q) ∧
      m'.heap.length = m.heap.length ∧
      ∃ extra, m'.out = m.out ++ extra ∧ ∀ o ∈ extra, o.isRelease = false := by
  cases c with
  | beginPlay f node =>
    simp only [runCall, exampleHooks] at h
    split at h
    · obtain ⟨n, hn⟩ := ExampleBeginPlay_live h
      obtain ⟨m2, hm2, hout, hlen, hd⟩ := ExampleBeginPlay_spec hn
      rw [h] at hm2
      cases hm2
      exact ⟨n, beganNode n, hn, rfl, hd, hlen, _, hout, by simp [Output.isRelease]⟩
    · cases h
  | tick f node =>
    simp only [runCall, exampleHooks] at h
    split at h
    · obtain ⟨n, hn⟩ := ExampleTick_live h
      obtain ⟨m2, hm2, hout, hlen, hd⟩ := ExampleTick_spec hn
      rw [h] at hm2
      cases hm2
      exact ⟨n, tickedNode n, hn, rfl, hd, hlen, [], by simp [hout], by simp⟩
    · cases h
  | onCollision f node other =>
    simp only [runCall, exampleHooks] at h
    split at h
    · obtain ⟨n, o, hn, ho⟩ := ExampleCollision_live h
      obtain ⟨m2, hm2, hlen, hfar, hnear, hd⟩ := ExampleCollision_spec lib hn ho
      rw [h] at hm2
      cases hm2
      refine ⟨n, collidedNode lib n o, hn, ⟨o, rfl⟩, hd, hlen, ?_⟩
      by_cases hdist : lib.Vector3Distance n.position o.position ≥ 1 / 2
      · exact ⟨_, (hfar hdist).2, by simp [Output.isRelease]⟩
      · exact ⟨[], by simp [hnear hdist], by simp⟩
    · cases h

/-- A call of an example hook on allocated entities, under the number of the hook, returns. -/
theorem runCall_example_total (lib : Raylib) {c : Call} {m : Mem} (hex : c.isExample)
    (hlive : c.live m) : ∃ m', runCall (exampleHooks lib) c m = some m' := by
  cases c with
  | beginPlay f node =>
    obtain ⟨n, hn⟩ := Option.isSome_iff_exists.1 hlive
    obtain ⟨m', hm', _⟩ := ExampleBeginPlay_spec hn
    have hf : f = _ := hex
    exact ⟨m', by simp only [runCall, exampleHooks]; rw [if_pos hf]; exact hm'⟩
  | tick f node =>
    obtain ⟨n, hn⟩ := Option.isSome_iff_exists.1 hlive
    obtain ⟨m', hm', _⟩ := ExampleTick_spec hn
    have hf : f = _ := hex
    exact ⟨m', by simp only [runCall, exampleHooks]; rw [if_pos hf]; exact hm'⟩
  | onCollision f node other =>
    obtain ⟨n, hn⟩ := Option.isSome_iff_exists.1 hlive.1
    obtain ⟨o, ho⟩ := Option.isSome_iff_exists.1 hlive.2
    obtain ⟨m', hm', _⟩ := ExampleCollision_spec lib hn ho
    have hf : f = _ := hex
    exact ⟨m', by simp only [runCall, exampleHooks]; rw [if_pos hf]; exact hm'⟩

theorem Call.live_of_isSome {m m' : Mem} (h : ∀ q : Ptr, (m'.deref q).isSome = (m.deref q).isSome)
    {c : Call} (hc : c.live m) : c.live m' := by
  cases c with
  | beginPlay f node => simpa [Call.live, h] using hc
  | tick f node => simpa [Call.live, h] using hc
  | onCollision f node other =>
    exact ⟨by rw [h]; exact hc.1, by rw [h]; exact hc.2⟩

theorem runCall_example_isSome {lib : Raylib} {c : Call} {m m' : Mem}
    (h : runCall (exampleHooks lib) c m = some m') (q : Ptr) :
    (m'.deref q).isSome = (m.deref q).isSome := by
  obtain ⟨n, n', hn, _, hd, _⟩ := runCall_example h
  rw [hd]
  by_cases hq : q = c.node
  · rw [if_pos hq, hq, hn]; rfl
  · rw [if_neg hq]

/-- Any sequence of example hook calls on allocated entities returns. -/
theorem runCalls_example_total (lib : Raylib) :
    ∀ (cs : List Call) (m : Mem), (∀ c ∈ cs, c.isExample ∧ c.live m) →
      ∃ m', runCalls (exampleHooks lib) cs m = some m' := by
  intro cs
  induction cs with
  | nil => intro m _; exact ⟨m, rfl⟩
  | cons c cs ih =>
    intro m h
    obtain ⟨hex, hlive⟩ := h c (List.mem_cons_self _ _)
    obtain ⟨m1, hm1⟩ := runCall_example_total lib hex hlive
    obtain ⟨m', hm'⟩ := ih m1 (fun d hd =>
      ⟨(h d (List.mem_cons_of_mem _ hd)).1,
        Call.live_of_isSome (runCall_example_isSome hm1) (h d (List.mem_cons_of_mem _ hd)).2⟩)
    exact ⟨m', by simp [runCalls, hm1, hm']⟩

/-- A property of nodes kept by the step of every call of the sequence holds, for every
entity, after the sequence. -/
theorem runCalls_example_invariant_of {lib : Raylib} (I : Node → Prop) :
    ∀ (cs : List Call) (m m' : Mem),
      (∀ c ∈ cs, ∀ n n', CallStep lib c n n' → I n → I n') →
      runCalls (exampleHooks lib) cs m = some m' →
      ∀ (q : Ptr) (n : Node), m.deref q = some n → I n →
        ∃ n', m'.deref q = some n' ∧ I n' := by
  intro cs
  induction cs with
  | nil =>
    intro m m' _ h q n hn hIn
    cases h
    exact ⟨n, hn, hIn⟩
  | cons c cs ih =>
    intro m m' hI h q n hn hIn
    simp only [runCalls] at h
    cases h1 : runCall (exampleHooks lib) c m with
    | none => rw [h1] at h; cases h
    | some m1 =>
      rw [h1] at h
      obtain ⟨n0, n1, hn0, hstep, hd, _⟩ := runCall_example h1
      have hI' : ∀ d ∈ cs, ∀ n n', CallStep lib d n n' → I n → I n' :=
        fun d hd' => hI d (List.mem_cons_of_mem _ hd')
      by_cases hq : q = c.node
      · have e : n0 = n := by
          rw [← hq, hn] at hn0
          exact (Option.some.inj hn0).symm
        subst e
        exact ih m1 m' hI' h q n1 (by rw [hd, if_pos hq])
          (hI c (List.mem_cons_self _ _) n0 n1 hstep hIn)
      · exact ih m1 m' hI' h q n (by rw [hd, if_neg hq]; exact hn) hIn

/-- A property of nodes that every `ExampleStep` keeps holds, for every entity, after any
sequence of example hook calls. -/
theorem runCalls_example_invariant {lib : Raylib} (I : Node → Prop)
    (hI : ∀ n n', ExampleStep lib n n' → I n → I n') :
    ∀ (cs : List Call) (m m' : Mem), runCalls (exampleHooks lib) cs m = some m' →
      ∀ (q : Ptr) (n : Node), m.deref q = some n → I n →
        ∃ n', m'.deref q = some n' ∧ I n' :=
  fun cs m m' h => runCalls_example_invariant_of I cs m m'
    (fun _ _ n n' hstep => hI n n' hstep.toExampleStep) h

theorem runCalls_example_isSome {lib : Raylib} :
    ∀ (cs : List Call) (m m' : Mem), runCalls (exampleHooks lib) cs m = some m' →
      ∀ q : Ptr, (m'.deref q).isSome = (m.deref q).isSome := by
  intro cs
  induction cs with
  | nil => intro m m' h q; cases h; rfl
  | cons c cs ih =>
    intro m m' h q
    simp only [runCalls] at h
    cases h1 : runCall (exampleHooks lib) c m with
    | none => rw [h1] at h; cases h
    | some m1 =>
      rw [h1] at h
      rw [ih m1 m' h q, runCall_example_isSome h1 q]

/-- A part of the nodes that every step of the sequence keeps is kept by the sequence. -/
theorem runCalls_example_keeps {lib : Raylib} {α : Type} (part : Node → α) (cs : List Call)
    (m m' : Mem) (hpart : ∀ c ∈ cs, ∀ n n', CallStep lib c n n' → part n' = part n)
    (h : runCalls (exampleHooks lib) cs m = some m') : Keeps part m m' := by
  intro q
  cases hq : m.deref q with
  | none =>
    have := runCalls_example_isSome cs m m' h q
    rw [hq] at this
    cases hq' : m'.deref q with
    | none => rfl
    | some n' => rw [hq'] at this; cases this
  | some n =>
    obtain ⟨n', hn', hI⟩ := runCalls_example_invariant_of (fun k => part k = part n) cs m m'
      (fun c hc k k' hstep hk => (hpart c hc k k' hstep).trans hk) h q n hq rfl
    rw [hn']
    exact congrArg some hI

/-- An entity on which none of the calls is made is untouched by a sequence of example hook
calls. -/
theorem runCalls_example_frame {lib : Raylib} :
    ∀ (cs : List Call) (m m' : Mem), runCalls (exampleHooks lib) cs m = some m' →
      ∀ q : Ptr, (∀ c ∈ cs, c.node ≠ q) → m'.deref q = m.deref q := by
  intro cs
  induction cs with
  | nil => intro m m' h q _; cases h; rfl
  | cons c cs ih =>
    intro m m' h q hq
    simp only [runCalls] at h
    cases h1 : runCall (exampleHooks lib) c m with
    | none => rw [h1] at h; cases h
    | some m1 =>
      rw [h1] at h
      obtain ⟨_, _, _, _, hd, _⟩ := runCall_example h1
      rw [ih m1 m' h q (fun d hd' => hq d (List.mem_cons_of_mem _ hd')), hd,
        if_neg (Ne.symm (hq c (List.mem_cons_self _ _)))]

/-- A sequence of example hook calls releases nothing and allocates nothing. -/
theorem runCalls_example_out {lib : Raylib} :
    ∀ (cs : List Call) (m m' : Mem), runCalls (exampleHooks lib) cs m = some m' →
      m'.heap.length = m.heap.length ∧
      ∃ extra, m'.out = m.out ++ extra ∧ ∀ o ∈ extra, o.isRelease = false := by
  intro cs
  induction cs with
  | nil => intro m m' h; cases h; exact ⟨rfl, [], by simp, by simp⟩
  | cons c cs ih =>
    intro m m' h
    simp only [runCalls] at h
    cases h1 : runCall (exampleHooks lib) c m with
    | none => rw [h1] at h; cases h
    | some m1 =>
      rw [h1] at h
      obtain ⟨_, _, _, _, _, hlen1, e1, hout1, hrel1⟩ := runCall_example h1
      obtain ⟨hlen2, e2, hout2, hrel2⟩ := ih m1 m' h
      refine ⟨by rw [hlen2, hlen1], e1 ++ e2, by rw [hout2, hout1, List.append_assoc], ?_⟩
      intro o ho
      rcases List.mem_append.1 ho with ho | ho
      · exact hrel1 o ho
      · exact hrel2 o ho

/-! ## `CheckCollisions` -/

theorem Keeps.symm {α : Type} {part : Node → α} {m m' : Mem} (h : Keeps part m m') :
    Keeps part m' m := fun q => (h q).symm

theorem collisionCall_keeps (lib : Raylib) {m m' : Mem} (h : Keeps Node.collisionPart m m')
    (a b : Nat) : collisionCall lib m' a b = collisionCall lib m a b := by
  have key : ∀ c : Nat, (m'.deref (some c)).map (fun n => (n.boundingBox, n.onCollision)) =
      (m.deref (some c)).map (fun n => (n.boundingBox, n.onCollision)) := fun c =>
    (h.comp (fun t => (t.2.1, t.2.2))) (some c)
  have ha := key a
  have hb := key b
  unfold collisionCall
  cases hma : m.deref (some a) <;> cases hma' : m'.deref (some a) <;>
    cases hmb : m.deref (some b) <;> cases hmb' : m'.deref (some b) <;>
    simp [hma, hma', hmb, hmb'] at ha hb ⊢
  rw [ha.1, ha.2, hb.1]

/-- One pair of the collision pass, in a memory where both nodes are allocated. -/
theorem pair_spec (lib : Raylib) (hooks : Hooks) {s : State} {a b : Nat} {t o : Node}
    (ha : s.mem.deref (some a) = some t) (hb : s.mem.deref (some b) = some o)
    (hok : ∀ f, t.onCollision = some f → hooks.CollisionOk f) :
    ∃ s', CheckCollisions.pair lib hooks (some a) (some b) s = some s' ∧
      Keeps Node.collisionPart s.mem s'.mem ∧
      s'.calls = s.calls ++ (collisionCall lib s.mem a b).toList := by
  by_cases hab : a = b
  · exact ⟨s, by simp [CheckCollisions.pair, hab], Keeps.refl _ _, by simp [collisionCall, hab]⟩
  · by_cases hbox : lib.CheckCollisionBoxes t.boundingBox o.boundingBox = true
    · cases hf : t.onCollision with
      | none =>
        exact ⟨s, by simp [CheckCollisions.pair, hab, ha, hb, hbox, hf], Keeps.refl _ _,
          by simp [collisionCall, hab, ha, hb, hbox, hf]⟩
      | some f =>
        obtain ⟨m', hm', hkeep⟩ := hok f hf (some a) (some b) s.mem (by simp [ha]) (by simp [hb])
        exact ⟨{ mem := m', calls := s.calls ++ [Call.onCollision f (some a) (some b)] },
          by simp [CheckCollisions.pair, hab, ha, hb, hbox, hf, State.invoke, hm'], hkeep,
          by simp [collisionCall, hab, ha, hb, hbox, hf]⟩
    · exact ⟨s, by simp [CheckCollisions.pair, hab, ha, hb, hbox], Keeps.refl _ _,
        by simp [collisionCall, hab, ha, hb, hbox]⟩

theorem Keeps.next_of_collisionPart {m m' : Mem} (h : Keeps Node.collisionPart m m') :
    Keeps Node.next m m' := h.comp (fun t => t.1)

/-- The inner loop of `CheckCollisions` for the node `a` of the ring: it returns, having made
the calls of the row of `a`. -/
theorem CheckCollisions_row (lib : Raylib) (hooks : Hooks) (fuel : Nat) {head : Ptr}
    {xs : List Nat} {m0 : Mem} {s : State} {a : Nat} (hring : Ring m0 head xs)
    (hxs : xs ≠ [])
    (hok : ∀ x ∈ xs, ∀ n f, m0.deref (some x) = some n → n.onCollision = some f →
      hooks.CollisionOk f)
    (hkeep : Keeps Node.collisionPart m0 s.mem) (ha : a ∈ xs) (hfuel : xs.length ≤ fuel) :
    ∃ s', doWhile (fun other s =>
          match CheckCollisions.pair lib hooks (some a) other s with
          | none => none
          | some s1 =>
            match s1.mem.deref other with
            | none => none
            | some o => some (s1, o.next)) head fuel head s = some s' ∧
      Keeps Node.collisionPart m0 s'.mem ∧
      s'.calls = s.calls ++ xs.filterMap (fun b => collisionCall lib m0 a b) := by
  cases xs with
  | nil => exact absurd rfl hxs
  | cons x rest =>
    obtain ⟨hh, hne⟩ := hring.tail_ne_head
    have key := doWhile_list
      (fun other s =>
        match CheckCollisions.pair lib hooks (some a) other s with
        | none => none
        | some s1 =>
          match s1.mem.deref other with
          | none => none
          | some o => some (s1, o.next)) head
      (fun done todo (s1 : State) =>
        Seg s1.mem (nextOf head todo) todo head ∧ (∀ y ∈ todo, y ∈ x :: rest) ∧
          Keeps Node.collisionPart m0 s1.mem ∧
          s1.calls = s.calls ++ done.filterMap (fun b => collisionCall lib m0 a b))
      (by
        intro done y todo s1 hP
        obtain ⟨hseg, hsub, hk1, hcalls⟩ := hP
        obtain ⟨o, ho, _, _⟩ := Seg.next_eq hseg
        obtain ⟨t0, ht0⟩ := hring.mem_live a ha
        obtain ⟨t, ht, htpart⟩ := hk1.get ht0
        have hok1 : ∀ f, t.onCollision = some f → hooks.CollisionOk f := by
          intro f hf
          refine hok a ha t0 f ht0 ?_
          have : t.onCollision = t0.onCollision := congrArg (fun p => p.2.2) htpart
          rw [← this]; exact hf
        obtain ⟨s2, hpair, hk2, hcalls2⟩ := pair_spec lib hooks ht ho hok1
        have hseg2 : Seg s2.mem (some y) (y :: todo) head :=
          Seg.keeps hk2.next_of_collisionPart (by simpa [nextOf] using hseg)
        obtain ⟨o2, ho2, hnext2, hseg2'⟩ := Seg.next_eq hseg2
        refine ⟨s2, by simp [hpair, ho2, hnext2], hseg2',
          fun z hz => hsub z (List.mem_cons_of_mem _ hz), hk1.trans hk2, ?_⟩
        rw [hcalls2, hcalls, collisionCall_keeps lib hk1]
        cases hc : collisionCall lib m0 a y <;> simp [List.filterMap_append, hc])
      rest [] x s fuel hne (by simpa using hfuel)
      ⟨Seg.keeps hkeep.next_of_collisionPart (by simpa [nextOf, ← hh] using hring.2.2),
        fun _ hy => hy, hkeep, by simp⟩
    obtain ⟨s', hrun, _, _, hk, hcalls⟩ := key
    rw [hh] at hrun ⊢
    exact ⟨s', hrun, hk, by simpa using hcalls⟩

/-- What one `CheckCollisions` pass does on a ring whose reactions are well behaved: it
returns, the calls made are those of `collisionCalls`, in this order, and links, bounding
boxes and reaction pointers are the same afterwards. -/
theorem CheckCollisions_ring (lib : Raylib) (hooks : Hooks) (fuel : Nat) {head : Ptr}
    {xs : List Nat} {s : State} (hring : Ring s.mem head xs)
    (hok : ∀ x ∈ xs, ∀ n f, s.mem.deref (some x) = some n → n.onCollision = some f →
      hooks.CollisionOk f)
    (hfuel : xs.length ≤ fuel) :
    ∃ s', CheckCollisions lib hooks fuel head s = some s' ∧
      Keeps Node.collisionPart s.mem s'.mem ∧
      s'.calls = s.calls ++ collisionCalls lib s.mem xs := by
  cases xs with
  | nil =>
    have : head = none := by simpa using hring.2.1
    exact ⟨s, by simp [CheckCollisions, this], Keeps.refl _ _, by simp [collisionCalls]⟩
  | cons x rest =>
    obtain ⟨hh, hne⟩ := hring.tail_ne_head
    have hhn : ¬ head = none := by simp [hh]
    simp only [CheckCollisions, hhn, if_false]
    have key := doWhile_list
      (fun temp s =>
        match doWhile (fun other s =>
            match CheckCollisions.pair lib hooks temp other s with
            | none => none
            | some s1 =>
              match s1.mem.deref other with
              | none => none
              | some o => some (s1, o.next)) head fuel head s with
        | none => none
        | some s' =>
          match s'.mem.deref temp with
          | none => none
          | some t => some (s', t.next)) head
      (fun done todo (s1 : State) =>
        Seg s1.mem (nextOf head todo) todo head ∧ (∀ y ∈ todo, y ∈ x :: rest) ∧
          Keeps Node.collisionPart s.mem s1.mem ∧
          s1.calls = s.calls ++
            done.flatMap (fun a => (x :: rest).filterMap (fun b => collisionCall lib s.mem a b)))
      (by
        intro done y todo s1 hP
        obtain ⟨hseg, hsub, hk1, hcalls⟩ := hP
        have hy : y ∈ x :: rest := hsub y (List.mem_cons_self _ _)
        obtain ⟨s2, hrow, hk2, hcalls2⟩ := CheckCollisions_row lib hooks fuel hring (by simp)
          hok hk1 hy hfuel
        have hk12 : Keeps Node.collisionPart s1.mem s2.mem := hk1.symm.trans hk2
        have hseg2 : Seg s2.mem (some y) (y :: todo) head :=
          Seg.keeps hk12.next_of_collisionPart (by simpa [nextOf] using hseg)
        obtain ⟨t2, ht2, hnext2, hseg2'⟩ := Seg.next_eq hseg2
        refine ⟨s2, by simp [hrow, ht2, hnext2], hseg2',
          fun z hz => hsub z (List.mem_cons_of_mem _ hz), hk2, ?_⟩
        rw [hcalls2, hcalls]
        simp [List.flatMap_append])
      rest [] x s fuel hne (by simpa using hfuel)
      ⟨by simpa [nextOf, ← hh] using hring.2.2, fun _ hy => hy, Keeps.refl _ _, by simp⟩
    obtain ⟨s', hrun, _, _, hk, hcalls⟩ := key
    rw [hh] at hrun ⊢
    exact ⟨s', hrun, hk, by simpa [collisionCalls] using hcalls⟩

/-! ## Counting the calls of a collision pass -/

theorem filter_flatMap_of_forall_ne {α β : Type} (p : β → Bool) (g : α → List β) (a0 : α)
    (hg : ∀ a, a ≠ a0 → (g a).filter p = []) :
    ∀ l : List α, a0 ∉ l → (l.flatMap g).filter p = [] := by
  intro l
  induction l with
  | nil => intro _; rfl
  | cons a l ih =>
    intro hmem
    have ha : a ≠ a0 := fun e => hmem (e ▸ List.mem_cons_self _ _)
    have hl : a0 ∉ l := fun h => hmem (List.mem_cons_of_mem _ h)
    simp [List.flatMap_cons, List.filter_append, hg a ha, ih hl]

theorem filter_flatMap_unique {α β : Type} (p : β → Bool) (g : α → List β) (a0 : α)
    (hg : ∀ a, a ≠ a0 → (g a).filter p = []) :
    ∀ l : List α, l.Nodup → a0 ∈ l → (l.flatMap g).filter p = (g a0).filter p := by
  intro l
  induction l with
  | nil => intro _ h; simp at h
  | cons a l ih =>
    intro hnd hmem
    obtain ⟨hal, hndl⟩ := List.nodup_cons.1 hnd
    by_cases ha : a = a0
    · subst ha
      simp [List.flatMap_cons, List.filter_append, filter_flatMap_of_forall_ne p g a hg l hal]
    · have hmem' : a0 ∈ l := by
        rcases List.mem_cons.1 hmem with e | h
        · exact absurd e.symm ha
        · exact h
      simp [List.flatMap_cons, List.filter_append, hg a ha, ih hndl hmem']

theorem filterMap_eq_flatMap_toList {α β : Type} (g : α → Option β) (l : List α) :
    l.filterMap g = l.flatMap (fun a => (g a).toList) := by
  induction l with
  | nil => rfl
  | cons a l ih => cases h : g a <;> simp [List.filterMap_cons, h, ih]

theorem collisionCall_isReaction {lib : Raylib} {m : Mem} {a b : Nat} {c : Call} {A B : Nat}
    (h : collisionCall lib m a b = some c) (hc : c.isReaction (some A) (some B) = true) :
    a = A ∧ b = B := by
  unfold collisionCall at h
  split at h
  · split at h
    · split at h
      · split at h
        · cases h
          simpa [Call.isReaction] using hc
        · cases h
      · cases h
    · cases h
  · cases h

/-- In the calls of a pass over a ring, the reactions invoked with `(A, B)`, for two nodes of
the ring, are the single call of the pair `(A, B)`, if it makes one. -/
theorem collisionCalls_filter (lib : Raylib) (m : Mem) {xs : List Nat} (hnd : xs.Nodup)
    {A B : Nat} (hA : A ∈ xs) (hB : B ∈ xs) :
    (collisionCalls lib m xs).filter (Call.isReaction (some A) (some B)) =
      (collisionCall lib m A B).toList.filter (Call.isReaction (some A) (some B)) := by
  unfold collisionCalls
  rw [filter_flatMap_unique _ _ A _ xs hnd hA, filterMap_eq_flatMap_toList,
    filter_flatMap_unique _ _ B _ xs hnd hB]
  · intro b hb
    cases hc : collisionCall lib m A b with
    | none => rfl
    | some c =>
      cases hr : c.isReaction (some A) (some B) with
      | false => simp [hr]
      | true => exact absurd (collisionCall_isReaction hc hr).2 hb
  · intro a ha
    rw [List.filter_eq_nil_iff]
    intro c hc hr
    obtain ⟨b, _, hcb⟩ := List.mem_filterMap.1 hc
    exact ha (collisionCall_isReaction hcb hr).1

theorem collisionCall_of_collide {lib : Raylib} {m : Mem} {A B : Nat} {nA nB : Node} {f : Nat}
    (hAB : A ≠ B) (hnA : m.deref (some A) = some nA) (hnB : m.deref (some B) = some nB)
    (hbox : lib.CheckCollisionBoxes nA.boundingBox nB.boundingBox = true)
    (hf : nA.onCollision = some f) :
    collisionCall lib m A B = some (Call.onCollision f (some A) (some B)) := by
  simp [collisionCall, hAB, hnA, hnB, hbox, hf]

theorem collisionCalls_no_self (lib : Raylib) (m : Mem) (xs : List Nat) :
    ∀ c ∈ collisionCalls lib m xs, c.isSelfCollision = false := by
  intro c hc
  unfold collisionCalls at hc
  obtain ⟨a, _, hca⟩ := List.mem_flatMap.1 hc
  obtain ⟨b, _, hcb⟩ := List.mem_filterMap.1 hca
  unfold collisionCall at hcb
  split at hcb
  · rename_i hab
    split at hcb
    · split at hcb
      · split at hcb
        · cases hcb
          simpa [Call.isSelfCollision] using hab
        · cases hcb
      · cases hcb
    · cases hcb
  · cases hcb

/-- The calls one pair of the pass adds: none, or one reaction of `temp` with another node. -/
theorem pair_calls {lib : Raylib} {hooks : Hooks} {temp other : Ptr} {s s' : State}
    (h : CheckCollisions.pair lib hooks temp other s = some s') :
    s'.calls = s.calls ∨
      (temp ≠ other ∧ ∃ f, s'.calls = s.calls ++ [Call.onCollision f temp other]) := by
  unfold CheckCollisions.pair at h
  split at h
  · rename_i hne
    split at h
    · split at h
      · split at h
        · rename_i f _
          unfold State.invoke at h
          split at h
          · cases h
            exact Or.inr ⟨hne, f, rfl⟩
          · cases h
        · cases h; exact Or.inl rfl
      · cases h; exact Or.inl rfl
    · cases h
  · cases h; exact Or.inl rfl

/-- Whatever the hooks do and whatever the memory holds: a pass that returns has invoked no
reaction on a node with itself. -/
theorem CheckCollisions_calls_no_self (lib : Raylib) (hooks : Hooks) (fuel : Nat) (head : Ptr)
    (s s' : State) (h : CheckCollisions lib hooks fuel head s = some s') :
    ∃ new, s'.calls = s.calls ++ new ∧ ∀ c ∈ new, c.isSelfCollision = false := by
  unfold CheckCollisions at h
  split at h
  · cases h; exact ⟨[], by simp, by simp⟩
  · refine doWhile_preserves _ head
      (fun s1 => ∃ new, s1.calls = s.calls ++ new ∧ ∀ c ∈ new, c.isSelfCollision = false)
      ?_ fuel head s s' ⟨[], by simp, by simp⟩ h
    intro temp s1 s2 t hJ hbody
    split at hbody
    · cases hbody
    · rename_i s3 hrow
      have hJ3 := doWhile_preserves _ head
        (fun s1 => ∃ new, s1.calls = s.calls ++ new ∧ ∀ c ∈ new, c.isSelfCollision = false)
        (by
          intro other sa sb t' hJa hb
          split at hb
          · cases hb
          · rename_i sc hpair
            have hsb : sb = sc := by
              split at hb
              · cases hb
              · cases hb; rfl
            subst hsb
            obtain ⟨new, hnew, hall⟩ := hJa
            rcases pair_calls hpair with e | ⟨hne, f, e⟩
            · exact ⟨new, by rw [e, hnew], hall⟩
            · refine ⟨new ++ [Call.onCollision f temp other], by rw [e, hnew]; simp, ?_⟩
              intro c hc
              rcases List.mem_append.1 hc with hc | hc
              · exact hall c hc
              · have : c = Call.onCollision f temp other := by simpa using hc
                subst this
                simpa [Call.isSelfCollision] using hne)
        fuel head s1 s3 hJ hrow
      have : s2 = s3 := by
        split at hbody
        · cases hbody
        · cases hbody; rfl
      subst this
      exact hJ3

/-! ## The memory after a collision pass -/

theorem runCalls_toList_some (hooks : Hooks) (c : Call) (m : Mem) :
    runCalls hooks (some c).toList m = runCall hooks c m := by
  simp only [Option.toList, runCalls]
  cases runCall hooks c m <;> rfl

/-- One pair of the collision pass: the memory afterwards is the one the call of the pair, if
there is one, produces. -/
theorem pair_run (lib : Raylib) (hooks : Hooks) {s : State} {a b : Nat} {t o : Node}
    (ha : s.mem.deref (some a) = some t) (hb : s.mem.deref (some b) = some o)
    (hok : ∀ f, t.onCollision = some f → hooks.CollisionOk f) :
    ∃ s', CheckCollisions.pair lib hooks (some a) (some b) s = some s' ∧
      Keeps Node.collisionPart s.mem s'.mem ∧
      s'.calls = s.calls ++ (collisionCall lib s.mem a b).toList ∧
      runCalls hooks (collisionCall lib s.mem a b).toList s.mem = some s'.mem := by
  by_cases hab : a = b
  · exact ⟨s, by simp [CheckCollisions.pair, hab], Keeps.refl _ _, by simp [collisionCall, hab],
      by simp [collisionCall, hab, runCalls]⟩
  · by_cases hbox : lib.CheckCollisionBoxes t.boundingBox o.boundingBox = true
    · cases hf : t.onCollision with
      | none =>
        exact ⟨s, by simp [CheckCollisions.pair, hab, ha, hb, hbox, hf], Keeps.refl _ _,
          by simp [collisionCall, hab, ha, hb, hbox, hf],
          by simp [collisionCall, hab, ha, hb, hbox, hf, runCalls]⟩
      | some f =>
        obtain ⟨m', hm', hkeep⟩ := hok f hf (some a) (some b) s.mem (by simp [ha]) (by simp [hb])
        have hcall : collisionCall lib s.mem a b = some (Call.onCollision f (some a) (some b)) := by
          simp [collisionCall, hab, ha, hb, hbox, hf]
        refine ⟨{ mem := m', calls := s.calls ++ [Call.onCollision f (some a) (some b)] },
          by simp [CheckCollisions.pair, hab, ha, hb, hbox, hf, State.invoke, hm'], hkeep,
          by simp [hcall], ?_⟩
        rw [hcall, runCalls_toList_some]
        exact hm'
    · exact ⟨s, by simp [CheckCollisions.pair, hab, ha, hb, hbox], Keeps.refl _ _,
        by simp [collisionCall, hab, ha, hb, hbox],
        by simp [collisionCall, hab, ha, hb, hbox, runCalls]⟩

theorem filterMap_snoc_toList {α β : Type} (g : α → Option β) (l : List α) (a : α) :
    (l ++ [a]).filterMap g = l.filterMap g ++ (g a).toList := by
  rw [List.filterMap_append]
  cases h : g a <;> simp [List.filterMap_cons, h]

/-- The inner loop of `CheckCollisions` for the node `a`: the memory afterwards is the one
obtained by making the calls of the row of `a` one after the other. -/
theorem CheckCollisions_row_run (lib : Raylib) (hooks : Hooks) (fuel : Nat) {head : Ptr}
    {xs : List Nat} {m0 : Mem} {s : State} {a : Nat} (hring : Ring m0 head xs)
    (hxs : xs ≠ [])
    (hok : ∀ x ∈ xs, ∀ n f, m0.deref (some x) = some n → n.onCollision = some f →
      hooks.CollisionOk f)
    (hkeep : Keeps Node.collisionPart m0 s.mem) (ha : a ∈ xs) (hfuel : xs.length ≤ fuel) :
    ∃ s', doWhile (fun other s =>
          match CheckCollisions.pair lib hooks (some a) other s with
          | none => none
          | some s1 =>
            match s1.mem.deref other with
            | none => none
            | some o => some (s1, o.next)) head fuel head s = some s' ∧
      Keeps Node.collisionPart m0 s'.mem ∧
      s'.calls = s.calls ++ xs.filterMap (fun b => collisionCall lib m0 a b) ∧
      runCalls hooks (xs.filterMap (fun b => collisionCall lib m0 a b)) s.mem = some s'.mem := by
  cases xs with
  | nil => exact absurd rfl hxs
  | cons x rest =>
    obtain ⟨hh, hne⟩ := hring.tail_ne_head
    have key := doWhile_list
      (fun other s =>
        match CheckCollisions.pair lib hooks (some a) other s with
        | none => none
        | some s1 =>
          match s1.mem.deref other with
          | none => none
          | some o => some (s1, o.next)) head
      (fun done todo (s1 : State) =>
        Seg s1.mem (nextOf head todo) todo head ∧ (∀ y ∈ todo, y ∈ x :: rest) ∧
          Keeps Node.collisionPart m0 s1.mem ∧
          s1.calls = s.calls ++ done.filterMap (fun b => collisionCall lib m0 a b) ∧
          runCalls hooks (done.filterMap (fun b => collisionCall lib m0 a b)) s.mem =
            some s1.mem)
      (by
        intro done y todo s1 hP
        obtain ⟨hseg, hsub, hk1, hcalls, hrun⟩ := hP
        obtain ⟨o, ho, _, _⟩ := Seg.next_eq hseg
        obtain ⟨t0, ht0⟩ := hring.mem_live a ha
        obtain ⟨t, ht, htpart⟩ := hk1.get ht0
        have hok1 : ∀ f, t.onCollision = some f → hooks.CollisionOk f := by
          intro f hf
          refine hok a ha t0 f ht0 ?_
          have : t.onCollision = t0.onCollision := congrArg (fun p => p.2.2) htpart
          rw [← this]; exact hf
        obtain ⟨s2, hpair, hk2, hcalls2, hrun2⟩ := pair_run lib hooks ht ho hok1
        have hseg2 : Seg s2.mem (some y) (y :: todo) head :=
          Seg.keeps hk2.next_of_collisionPart (by simpa [nextOf] using hseg)
        obtain ⟨o2, ho2, hnext2, hseg2'⟩ := Seg.next_eq hseg2
        rw [collisionCall_keeps lib hk1] at hcalls2 hrun2
        refine ⟨s2, by simp [hpair, ho2, hnext2], hseg2',
          fun z hz => hsub z (List.mem_cons_of_mem _ hz), hk1.trans hk2, ?_, ?_⟩
        · rw [hcalls2, hcalls, filterMap_snoc_toList, List.append_assoc]
        · rw [filterMap_snoc_toList, runCalls_append, hrun]
          exact hrun2)
      rest [] x s fuel hne (by simpa using hfuel)
      ⟨Seg.keeps hkeep.next_of_collisionPart (by simpa [nextOf, ← hh] using hring.2.2),
        fun _ hy => hy, hkeep, by simp, rfl⟩
    obtain ⟨s', hrun, _, _, hk, hcalls, hmem⟩ := key
    rw [hh] at hrun ⊢
    exact ⟨s', hrun, hk, by simpa using hcalls, by simpa using hmem⟩

/-- One `CheckCollisions` pass on a ring with well-behaved reactions: next to what
`CheckCollisions_ring` says, the memory afterwards is the one obtained by making the calls of
`collisionCalls` one after the other. -/
theorem CheckCollisions_ring_run (lib : Raylib) (hooks : Hooks) (fuel : Nat) {head : Ptr}
    {xs : List Nat} {s : State} (hring : Ring s.mem head xs)
    (hok : ∀ x ∈ xs, ∀ n f, s.mem.deref (some x) = some n → n.onCollision = some f →
      hooks.CollisionOk f)
    (hfuel : xs.length ≤ fuel) :
    ∃ s', CheckCollisions lib hooks fuel head s = some s' ∧
      Keeps Node.collisionPart s.mem s'.mem ∧
      s'.calls = s.calls ++ collisionCalls lib s.mem xs ∧
      runCalls hooks (collisionCalls lib s.mem xs) s.mem = some s'.mem := by
  cases xs with
  | nil =>
    have : head = none := by simpa using hring.2.1
    exact ⟨s, by simp [CheckCollisions, this], Keeps.refl _ _, by simp [collisionCalls],
      by simp [collisionCalls, runCalls]⟩
  | cons x rest =>
    obtain ⟨hh, hne⟩ := hring.tail_ne_head
    have hhn : ¬ head = none := by simp [hh]
    simp only [CheckCollisions, hhn, if_false]
    have key := doWhile_list
      (fun temp s =>
        match doWhile (fun other s =>
            match CheckCollisions.pair lib hooks temp other s with
            | none => none
            | some s1 =>
              match s1.mem.deref other with
              | none => none
              | some o => some (s1, o.next)) head fuel head s with
        | none => none
        | some s' =>
          match s'.mem.deref temp with
          | none => none
          | some t => some (s', t.next)) head
      (fun done todo (s1 : State) =>
        Seg s1.mem (nextOf head todo) todo head ∧ (∀ y ∈ todo, y ∈ x :: rest) ∧
          Keeps Node.collisionPart s.mem s1.mem ∧
          s1.calls = s.calls ++
            done.flatMap (fun a => (x :: rest).filterMap (fun b => collisionCall lib s.mem a b)) ∧
          runCalls hooks
            (done.flatMap (fun a => (x :: rest).filterMap (fun b => collisionCall lib s.mem a b)))
            s.mem = some s1.mem)
      (by
        intro done y todo s1 hP
        obtain ⟨hseg, hsub, hk1, hcalls, hmem⟩ := hP
        have hy : y ∈ x :: rest := hsub y (List.mem_cons_self _ _)
        obtain ⟨s2, hrow, hk2, hcalls2, hmem2⟩ :=
          CheckCollisions_row_run lib hooks fuel hring (by simp) hok hk1 hy hfuel
        have hk12 : Keeps Node.collisionPart s1.mem s2.mem := hk1.symm.trans hk2
        have hseg2 : Seg s2.mem (some y) (y :: todo) head :=
          Seg.keeps hk12.next_of_collisionPart (by simpa [nextOf] using hseg)
        obtain ⟨t2, ht2, hnext2, hseg2'⟩ := Seg.next_eq hseg2
        refine ⟨s2, by simp [hrow, ht2, hnext2], hseg2',
          fun z hz => hsub z (List.mem_cons_of_mem _ hz), hk2, ?_, ?_⟩
        · rw [hcalls2, hcalls]
          simp [List.flatMap_append]
        · rw [List.flatMap_append, runCalls_append, hmem]
          simpa using hmem2)
      rest [] x s fuel hne (by simpa using hfuel)
      ⟨by simpa [nextOf, ← hh] using hring.2.2, fun _ hy => hy, Keeps.refl _ _, by simp, rfl⟩
    obtain ⟨s', hrun, _, _, hk, hcalls, hmem⟩ := key
    rw [hh] at hrun ⊢
    exact ⟨s', hrun, hk, by simpa [collisionCalls] using hcalls,
      by simpa [collisionCalls] using hmem⟩

/-! ## `FreeList` -/

theorem Mem.deref_free (m : Mem) (a : Nat) (o : List Output) (q : Ptr) :
    Mem.deref { heap := m.heap.set a none, out := o } q =
      if q = some a then none else m.deref q := by
  cases q with
  | none => simp [Mem.deref]
  | some b =>
    by_cases hba : b = a
    · subst hba
      by_cases hlt : b < m.heap.length
      · simp [Mem.deref, List.getElem?_set, hlt]
      · simp [Mem.deref, List.getElem?_set, hlt]
    · have hab : ¬ a = b := fun e => hba e.symm
      simp [Mem.deref, List.getElem?_set, hba, hab]

theorem freeOutputs_snoc {m : Mem} {y : Nat} {n : Node} (hn : m.deref (some y) = some n)
    (done : List Nat) :
    freeOutputs m (done ++ [y]) =
      freeOutputs m done ++ [Output.UnloadModel n.model, Output.free (some y)] := by
  simp [freeOutputs, List.flatMap_append, hn]

/-- What `FreeList` does on a ring: it returns, having called, for each entity in ring order,
`UnloadModel` on its model and then `free` on it; the cells of the ring are freed and the
others are as before. -/
theorem FreeList_ring (fuel : Nat) {head : Ptr} {xs : List Nat} {m : Mem}
    (hring : Ring m head xs) (hfuel : xs.length ≤ fuel) :
    ∃ m', FreeList fuel head m = some m' ∧ m'.out = m.out ++ freeOutputs m xs ∧
      m'.heap.length = m.heap.length ∧
      ∀ q : Ptr, m'.deref q = if q ∈ xs.map some then none else m.deref q := by
  cases xs with
  | nil =>
    have : head = none := by simpa using hring.2.1
    exact ⟨m, by simp [FreeList, this], by simp [freeOutputs], rfl, by simp⟩
  | cons x rest =>
    obtain ⟨hh, hne⟩ := hring.tail_ne_head
    have hhn : ¬ head = none := by simp [hh]
    simp only [FreeList, hhn, if_false]
    have key := doWhile_list
      (fun temp m =>
        match temp, m.deref temp with
        | some a, some n =>
          let nextNode := n.next
          let m1 := m.emit (Output.UnloadModel n.model)
          let m2 : Mem := { heap := m1.heap.set a none, out := m1.out ++ [Output.free temp] }
          some (m2, nextNode)
        | _, _ => none) head
      (fun done todo (m1 : Mem) =>
        done ++ todo = x :: rest ∧ Seg m1 (nextOf head todo) todo head ∧
          m1.out = m.out ++ freeOutputs m done ∧ m1.heap.length = m.heap.length ∧
          ∀ q : Ptr, m1.deref q = if q ∈ done.map some then none else m.deref q)
      (by
        intro done y todo m1 hP
        obtain ⟨hsplit, hseg, hout, hlen, hd⟩ := hP
        have hnd : (done ++ y :: todo).Nodup := hsplit ▸ hring.1
        have hy : y ∉ done := fun hmem =>
          (List.nodup_append.1 hnd).2.2 hmem (List.mem_cons_self _ _)
        have hytodo : y ∉ todo := (List.nodup_cons.1 (List.nodup_append.1 hnd).2.1).1
        obtain ⟨n1, hn1, hnext, hseg'⟩ := Seg.next_eq hseg
        have hn : m.deref (some y) = some n1 := by
          have := hd (some y)
          rw [if_neg (by simpa using hy)] at this
          rw [← this]; exact hn1
        refine ⟨Mem.mk ((m1.emit (Output.UnloadModel n1.model)).heap.set y none)
            ((m1.emit (Output.UnloadModel n1.model)).out ++ [Output.free (some y)]),
          ?_, by simpa using hsplit, ?_, ?_, ?_, ?_⟩
        · simp only [hn1, hnext]
        · refine Seg.congr (fun z hz => ?_) hseg'
          have hzy : z ≠ y := fun e => hytodo (e ▸ hz)
          rw [Mem.deref_free]
          simp [hzy, Mem.deref_emit]
        · rw [freeOutputs_snoc hn]
          simp [Mem.emit, hout]
        · simp [Mem.emit, hlen]
        · intro q
          rw [Mem.deref_free, Mem.deref_emit, hd]
          by_cases hq : q = some y
          · subst hq
            simp
          · have : q ∈ List.map some (done ++ [y]) ↔ q ∈ List.map some done := by
              simp [hq]
            simp only [hq, if_false, this])
      rest [] x m fuel hne (by simpa using hfuel)
      ⟨rfl, by simpa [nextOf, ← hh] using hring.2.2, by simp [freeOutputs], rfl, by simp⟩
    obtain ⟨m', hrun, _, _, hout, hlen, hd⟩ := key
    rw [hh] at hrun ⊢
    exact ⟨m', hrun, by simpa using hout, hlen, by simpa using hd⟩

/-! ## `RenderModels` with `ExampleTick` -/

theorem tickedNode_next (n : Node) : (tickedNode n).next = n.next := by
  unfold tickedNode advance
  split
  · rfl
  · split <;> rfl

theorem drawOutputs_snoc {m : Mem} {y : Nat} {n : Node} (hn : m.deref (some y) = some n)
    (done : List Nat) :
    drawOutputs m (done ++ [y]) = drawOutputs m done ++ [Output.DrawModel n.model n.position] := by
  simp [drawOutputs, List.filterMap_append, hn]

/-- What `RenderModels` does on a ring whose entities have `ExampleTick` as `tick`: it
returns, every entity has been drawn at its position and then ticked once, in ring order, and
nothing else has changed. -/
theorem RenderModels_example (lib : Raylib) (fuel : Nat) {head : Ptr} {xs : List Nat}
    {s : State} (hring : Ring s.mem head xs)
    (htick : ∀ x ∈ xs, ∀ n, s.mem.deref (some x) = some n → n.tick = some fnExampleTick)
    (hfuel : xs.length ≤ fuel) :
    ∃ s', RenderModels (exampleHooks lib) fuel head s = some s' ∧
      s'.calls = s.calls ++ tickCalls xs ∧
      s'.mem.out = s.mem.out ++ drawOutputs s.mem xs ∧
      s'.mem.heap.length = s.mem.heap.length ∧
      ∀ q : Ptr, s'.mem.deref q =
        if q ∈ xs.map some then (s.mem.deref q).map tickedNode else s.mem.deref q := by
  cases xs with
  | nil =>
    have : head = none := by simpa using hring.2.1
    exact ⟨s, by simp [RenderModels, this], by simp [tickCalls], by simp [drawOutputs], rfl,
      by simp⟩
  | cons x rest =>
    obtain ⟨hh, hne⟩ := hring.tail_ne_head
    have hhn : ¬ head = none := by simp [hh]
    simp only [RenderModels, hhn, if_false]
    have key := doWhile_list
      (fun temp s =>
        match s.mem.deref temp with
        | none => none
        | some n =>
          let s1 : State := { s with mem := s.mem.emit (Output.DrawModel n.model n.position) }
          match n.tick with
          | none => none
          | some f =>
            match s1.invoke (Call.tick f temp) ((exampleHooks lib).tick f temp) with
            | none => none
            | some s2 =>
              match s2.mem.deref temp with
              | none => none
              | some n2 => some (s2, n2.next)) head
      (fun done todo (s1 : State) =>
        done ++ todo = x :: rest ∧ Seg s1.mem (nextOf head todo) todo head ∧
          s1.calls = s.calls ++ tickCalls done ∧
          s1.mem.out = s.mem.out ++ drawOutputs s.mem done ∧
          s1.mem.heap.length = s.mem.heap.length ∧
          ∀ q : Ptr, s1.mem.deref q =
            if q ∈ done.map some then (s.mem.deref q).map tickedNode else s.mem.deref q)
      (by
        intro done y todo s1 hP
        obtain ⟨hsplit, hseg, hcalls, hout, hlen, hd⟩ := hP
        have hnd : (done ++ y :: todo).Nodup := hsplit ▸ hring.1
        have hy : y ∉ done := fun hmem =>
          (List.nodup_append.1 hnd).2.2 hmem (List.mem_cons_self _ _)
        have hyxs : y ∈ x :: rest := by rw [← hsplit]; simp
        obtain ⟨n1, hn1, hnext, hseg'⟩ := Seg.next_eq hseg
        have hn : s.mem.deref (some y) = some n1 := by
          have := hd (some y)
          rw [if_neg (by simpa using hy)] at this
          rw [← this]; exact hn1
        have hf : n1.tick = some fnExampleTick := htick y hyxs n1 hn
        have hn1' : (s1.mem.emit (Output.DrawModel n1.model n1.position)).deref (some y) =
            some n1 := by rw [Mem.deref_emit]; exact hn1
        obtain ⟨m', hm', hout', hlen', hd'⟩ := ExampleTick_spec hn1'
        have hkeep : Keeps Node.next s1.mem m' := by
          intro q
          rw [hd', Mem.deref_emit]
          by_cases hq : q = some y
          · subst hq; simp [hn1, tickedNode_next]
          · simp [hq]
        refine ⟨{ mem := m', calls := s1.calls ++ [Call.tick fnExampleTick (some y)] }, ?_,
          by simpa using hsplit, Seg.keeps hkeep hseg', ?_, ?_, ?_, ?_⟩
        · have hdy := hd' (some y)
          rw [if_pos rfl] at hdy
          have htk : (exampleHooks lib).tick fnExampleTick (some y)
              (s1.mem.emit (Output.DrawModel n1.model n1.position)) = some m' := by
            simp only [exampleHooks, if_true]; exact hm'
          simp only [hn1, hf, State.invoke, htk, hdy, tickedNode_next, hnext]
        · simp [hcalls, tickCalls]
        · show m'.out = _
          rw [hout', drawOutputs_snoc hn]
          simp [Mem.emit, hout]
        · show m'.heap.length = _
          rw [hlen']
          simp [Mem.emit, hlen]
        · intro q
          show m'.deref q = _
          rw [hd', Mem.deref_emit, hd]
          by_cases hq : q = some y
          · subst hq
            simp [hn]
          · have : q ∈ List.map some (done ++ [y]) ↔ q ∈ List.map some done := by
              simp [hq]
            simp only [hq, if_false, this])
      rest [] x s fuel hne (by simpa using hfuel)
      ⟨rfl, by simpa [nextOf, ← hh] using hring.2.2, by simp [tickCalls], by simp [drawOutputs],
        rfl, by simp⟩
    obtain ⟨s', hrun, _, _, hcalls, hout, hlen, hd⟩ := key
    rw [hh] at hrun ⊢
    exact ⟨s', hrun, by simpa using hcalls, by simpa using hout, hlen, by simpa using hd⟩

/-! ## What the steps of the example hooks keep -/

theorem list_tail_set_zero_eq {α : Type} (l : List α) (c : α) : (l.set 0 c).tail = l.tail := by
  cases l <;> rfl

theorem Tags.tail_set_zero (t : Tags) (c : Char) : (t.set 0 c).bytes.tail = t.bytes.tail :=
  list_tail_set_zero_eq t.bytes c

theorem setTag0_exceptTag0 (c : Char) (n : Node) : (setTag0 c n).exceptTag0 = n.exceptTag0 := by
  simp only [Node.exceptTag0, setTag0, Tags.tail_set_zero]

theorem collidedNode_exceptTag0 (lib : Raylib) (n o : Node) :
    (collidedNode lib n o).exceptTag0 = n.exceptTag0 := by
  unfold collidedNode
  split
  · rfl
  · split
    · exact setTag0_exceptTag0 _ _
    · split
      · exact setTag0_exceptTag0 _ _
      · rfl

theorem beganNode_exceptTag0 (n : Node) : (beganNode n).exceptTag0 = n.exceptTag0 :=
  setTag0_exceptTag0 _ _

theorem tickedNode_tag (n : Node) :
    (tickedNode n).tags.get 0 =
      if n.position.x < -3 then 'F' else if n.position.x > 3 then 'B' else n.tags.get 0 := by
  unfold tickedNode advance
  split
  · exact Tags.get_set_zero _ _
  · split
    · exact Tags.get_set_zero _ _
    · rfl

theorem tickedNode_tag_ne (n : Node) {i : Nat} (hi : i ≠ 0) :
    (tickedNode n).tags.get i = n.tags.get i := by
  unfold tickedNode advance
  split
  · exact Tags.get_set_ne _ _ hi
  · split
    · exact Tags.get_set_ne _ _ hi
    · rfl

theorem tickedNode_x (n : Node) :
    (tickedNode n).position.x =
      fadd32 n.position.x (if (tickedNode n).tags.get 0 = 'F' then c025 else -c025) := by
  unfold tickedNode advance
  split
  · rfl
  · split <;> rfl

theorem tickedNode_yz (n : Node) :
    (tickedNode n).position.y = n.position.y ∧ (tickedNode n).position.z = n.position.z := by
  unfold tickedNode advance
  split
  · exact ⟨rfl, rfl⟩
  · split <;> exact ⟨rfl, rfl⟩

theorem tickedNode_topology (n : Node) : (tickedNode n).topology = n.topology := by
  unfold tickedNode advance
  split
  · rfl
  · split <;> rfl

theorem tickedNode_boundingBox (n : Node) : (tickedNode n).boundingBox = n.boundingBox := by
  unfold tickedNode advance
  split
  · rfl
  · split <;> rfl

theorem tickedNode_model (n : Node) : (tickedNode n).model = n.model := by
  unfold tickedNode advance
  split
  · rfl
  · split <;> rfl

theorem topology_of_exceptTag0 {n n' : Node} (h : n'.exceptTag0 = n.exceptTag0) :
    n'.topology = n.topology := by
  simp only [Node.exceptTag0, Prod.mk.injEq] at h
  obtain ⟨h1, _, _, h4, h5, h6, _⟩ := h
  simp only [Node.topology, h1, h4, h5, h6]

/-- Every step of an example hook keeps link, model and hooks of the entity. -/
theorem CallStep.topology {lib : Raylib} {c : Call} {n n' : Node} (h : CallStep lib c n n') :
    n'.topology = n.topology := by
  cases c with
  | beginPlay f node => rw [h]; exact topology_of_exceptTag0 (beganNode_exceptTag0 n)
  | tick f node => rw [h]; exact tickedNode_topology n
  | onCollision f node other =>
    obtain ⟨o, rfl⟩ := h
    exact topology_of_exceptTag0 (collidedNode_exceptTag0 lib n o)

/-- The step of a collision reaction changes nothing but the byte `tags[0]`. -/
theorem CallStep.exceptTag0 {lib : Raylib} {c : Call} {n n' : Node} (hc : c.isCollision = true)
    (h : CallStep lib c n n') : n'.exceptTag0 = n.exceptTag0 := by
  cases c with
  | beginPlay f node => cases hc
  | tick f node => cases hc
  | onCollision f node other =>
    obtain ⟨o, rfl⟩ := h
    exact collidedNode_exceptTag0 lib n o

theorem tagOk_setTag0 {n : Node} (h : n.TagOk) {c : Char} (hc : c = 'F' ∨ c = 'B') :
    (setTag0 c n).TagOk := by
  refine ⟨?_, fun i hi => ?_⟩
  · have : (ECS.setTag0 c n).tags.get 0 = c := Tags.get_set_zero _ _
    rw [this]; exact hc
  · have : (ECS.setTag0 c n).tags.get i = n.tags.get i := Tags.get_set_ne _ _ hi
    rw [this]; exact h.2 i hi

theorem tagOk_ticked {n : Node} (h : n.TagOk) : (tickedNode n).TagOk := by
  refine ⟨?_, fun i hi => ?_⟩
  · rw [tickedNode_tag]
    split
    · exact Or.inl rfl
    · split
      · exact Or.inr rfl
      · exact h.1
  · rw [tickedNode_tag_ne n hi]; exact h.2 i hi

theorem tagOk_collided (lib : Raylib) {n : Node} (h : n.TagOk) (o : Node) :
    (collidedNode lib n o).TagOk := by
  unfold collidedNode
  split
  · exact h
  · split
    · exact tagOk_setTag0 h (Or.inr rfl)
    · split
      · exact tagOk_setTag0 h (Or.inl rfl)
      · exact h

theorem tagOk_began {n : Node} (h : ∀ i, i ≠ 0 → n.tags.get i = Char.ofNat 0) :
    (beganNode n).TagOk := by
  refine ⟨?_, fun i hi => ?_⟩
  · have : (beganNode n).tags.get 0 = (if n.position.x < 0 then 'F' else 'B') :=
      Tags.get_set_zero _ _
    rw [this]
    split
    · exact Or.inl rfl
    · exact Or.inr rfl
  · have : (beganNode n).tags.get i = n.tags.get i := Tags.get_set_ne _ _ hi
    rw [this]; exact h i hi

/-- Every step of an example hook keeps the tag in its state space. -/
theorem tagOk_step {lib : Raylib} {n n' : Node} (hstep : ExampleStep lib n n') (h : n.TagOk) :
    n'.TagOk := by
  rcases hstep with rfl | rfl | ⟨o, rfl⟩
  · exact tagOk_began h.2
  · exact tagOk_ticked h
  · exact tagOk_collided lib h o

theorem position_of_exceptTag0 {n n' : Node} (h : n'.exceptTag0 = n.exceptTag0) :
    n'.position = n.position ∧ n'.boundingBox = n.boundingBox ∧ n'.model = n.model := by
  simp only [Node.exceptTag0, Prod.mk.injEq] at h
  exact ⟨h.2.1, h.2.2.1, h.1⟩

/-- One tick keeps `position.x` in the band `[-bandMax, bandMax]`, whatever the tag. -/
theorem inBand_ticked {n : Node} (h : inBand n.position.x) : inBand (tickedNode n).position.x := by
  rw [tickedNode_x, tickedNode_tag]
  unfold inBand at h ⊢
  obtain ⟨h1, h2⟩ := h
  obtain ⟨hb1, hb2⟩ := bandMax_bounds
  obtain ⟨u1, u2, u3, u4⟩ := fadd32_up_bounds n.position.x
  obtain ⟨d1, d2, d3, d4, _, _⟩ := fadd32_down_bounds n.position.x
  by_cases hlo : n.position.x < -3
  · rw [if_pos hlo, if_pos rfl]
    have ha := u1 h1
    have hc := u3 (le_of_lt hlo)
    constructor <;> linarith
  · rw [if_neg hlo]
    have hlo' : -3 ≤ n.position.x := not_lt.1 hlo
    by_cases hhi : n.position.x > 3
    · rw [if_pos hhi, if_neg (by decide)]
      have ha := d1 h2
      have hc := d3 (le_of_lt hhi)
      constructor <;> linarith
    · rw [if_neg hhi]
      have hhi' : n.position.x ≤ 3 := not_lt.1 hhi
      split
      · have ha := u2 hlo'
        have hc := u4 hhi'
        constructor <;> linarith
      · have ha := d4 hlo'
        have hc := d2 hhi'
        constructor <;> linarith

theorem collisionCalls_shape (lib : Raylib) (m : Mem) (xs : List Nat) :
    ∀ c ∈ collisionCalls lib m xs, c.isCollision = true ∧ ∃ a ∈ xs, c.node = some a := by
  intro c hc
  unfold collisionCalls at hc
  obtain ⟨a, ha, hca⟩ := List.mem_flatMap.1 hc
  obtain ⟨b, _, hcb⟩ := List.mem_filterMap.1 hca
  unfold collisionCall at hcb
  split at hcb
  · split at hcb
    · split at hcb
      · split at hcb
        · cases hcb
          exact ⟨rfl, a, ha, rfl⟩
        · cases hcb
      · cases hcb
    · cases hcb
  · cases hcb

theorem freeOutputs_cons {m : Mem} {x : Nat} {n : Node} (hn : m.deref (some x) = some n)
    (xs : List Nat) :
    freeOutputs m (x :: xs) =
      Output.UnloadModel n.model :: Output.free (some x) :: freeOutputs m xs := by
  simp [freeOutputs, List.flatMap_cons, hn]

/-- The outputs of `FreeList` on allocated entities: one `UnloadModel` and one `free` per
entity, the `UnloadModel` first. -/
theorem freeOutputs_live (m : Mem) :
    ∀ xs : List Nat, (∀ x ∈ xs, ∃ n, m.deref (some x) = some n) →
      ((freeOutputs m xs).filter Output.isUnloadModel).length = xs.length ∧
      ((freeOutputs m xs).filter Output.isFree).length = xs.length ∧
      ∃ ns : List Node, xs.map (fun x => m.deref (some x)) = ns.map some ∧
        freeOutputs m xs =
          (xs.zip ns).flatMap (fun p => [Output.UnloadModel p.2.model, Output.free (some p.1)]) := by
  intro xs
  induction xs with
  | nil => intro _; exact ⟨rfl, rfl, [], rfl, rfl⟩
  | cons x xs ih =>
    intro hlive
    obtain ⟨n, hn⟩ := hlive x (List.mem_cons_self _ _)
    obtain ⟨h1, h2, ns, hns, hout⟩ := ih (fun y hy => hlive y (List.mem_cons_of_mem _ hy))
    rw [freeOutputs_cons hn]
    refine ⟨by simp [Output.isUnloadModel, h1], by simp [Output.isFree, Output.isUnloadModel, h2],
      n :: ns, by simp [hn, hns], ?_⟩
    rw [hout]
    simp [List.flatMap_cons]

theorem freeOutputs_length (m : Mem) :
    ∀ xs : List Nat, (∀ x ∈ xs, ∃ n, m.deref (some x) = some n) →
      (freeOutputs m xs).length = 2 * xs.length := by
  intro xs
  induction xs with
  | nil => intro _; rfl
  | cons x xs ih =>
    intro hlive
    obtain ⟨n, hn⟩ := hlive x (List.mem_cons_self _ _)
    have := ih (fun y hy => hlive y (List.mem_cons_of_mem _ hy))
    rw [freeOutputs_cons hn]
    simp only [List.length_cons, this]
    omega

theorem freeOutputs_unload_count (m : Mem) (model : Model) :
    ∀ xs : List Nat, (∀ x ∈ xs, ∃ n, m.deref (some x) = some n ∧ n.model = model) →
      ((freeOutputs m xs).filter (Output.isUnload model)).length = xs.length := by
  intro xs
  induction xs with
  | nil => intro _; rfl
  | cons x xs ih =>
    intro hlive
    obtain ⟨n, hn, hmodel⟩ := hlive x (List.mem_cons_self _ _)
    have := ih (fun y hy => hlive y (List.mem_cons_of_mem _ hy))
    rw [freeOutputs_cons hn]
    simp [Output.isUnload, hmodel, this]

theorem filter_isUnload_of_no_release (model : Model) (out : List Output)
    (h : ∀ o ∈ out, o.isRelease = false) : out.filter (Output.isUnload model) = [] := by
  rw [List.filter_eq_nil_iff]
  intro o ho hu
  have := h o ho
  cases o <;> simp [Output.isUnload, Output.isRelease] at hu this

/-! ## One frame of the loop, with the example hooks -/

theorem Keeps.of_map {α : Type} {part : Node → α} {m m' : Mem} {l : List Ptr} {g : Node → Node}
    (hg : ∀ n, part (g n) = part n)
    (hd : ∀ q : Ptr, m'.deref q = if q ∈ l then (m.deref q).map g else m.deref q) :
    Keeps part m m' := by
  intro q
  rw [hd]
  by_cases hq : q ∈ l
  · rw [if_pos hq]
    cases m.deref q with
    | none => rfl
    | some n => simp [hg]
  · rw [if_neg hq]

theorem Keeps.next_of_topology {m m' : Mem} (h : Keeps Node.topology m m') :
    Keeps Node.next m m' := h.comp (fun t => t.1)

theorem UsesExampleHooks.of_keeps_topology {m m' : Mem} {xs : List Nat} (hk : Keeps Node.topology m m')
    (h : UsesExampleHooks m xs) : UsesExampleHooks m' xs := by
  intro x hx n' hn'
  obtain ⟨n, hn, hpart⟩ := hk.symm.get hn'
  have := h x hx n hn
  simp only [Node.topology, Prod.mk.injEq] at hpart
  rw [← hpart.2.2.1, ← hpart.2.2.2]
  exact this

theorem UsesExampleHooks.collisionOk (lib : Raylib) {m : Mem} {xs : List Nat}
    (h : UsesExampleHooks m xs) :
    ∀ x ∈ xs, ∀ n f, m.deref (some x) = some n → n.onCollision = some f →
      (exampleHooks lib).CollisionOk f := by
  intro x hx n f hn hf
  rw [(h x hx n hn).2] at hf
  rw [← Option.some.inj hf]
  exact exampleHooks_collisionOk lib

theorem refreshed_topology (lib : Raylib) (n : Node) :
    (Node.refreshed lib n).topology = n.topology := rfl

/-- One frame on a ring that uses the example hooks: it returns; link, model and hooks of
every cell are the same afterwards; the calls made are collision reactions followed by one
tick per entity in ring order; nothing is allocated or released and the cells outside the
ring are untouched. -/
theorem frame_example (lib : Raylib) (fuel : Nat) {head : Ptr} {xs : List Nat} {s : State}
    (hring : Ring s.mem head xs) (huse : UsesExampleHooks s.mem xs) (hfuel : xs.length ≤ fuel) :
    ∃ s' collisions, frame lib (exampleHooks lib) fuel head s = some s' ∧
      Keeps Node.topology s.mem s'.mem ∧
      s'.calls = s.calls ++ collisions ++ tickCalls xs ∧
      (∀ c ∈ collisions, c.isCollision = true) ∧
      s'.mem.heap.length = s.mem.heap.length ∧
      (∃ extra, s'.mem.out = s.mem.out ++ extra ∧ ∀ o ∈ extra, o.isRelease = false) ∧
      ∀ q : Ptr, q ∉ xs.map some → s'.mem.deref q = s.mem.deref q := by
  -- bounding boxes
  obtain ⟨m1, hubb, hout1, hlen1, hd1⟩ := UpdateBoundingBoxes_ring lib fuel hring hfuel
  have hk1 : Keeps Node.topology s.mem m1 := Keeps.of_map (refreshed_topology lib) hd1
  have hring1 : Ring m1 head xs := Ring.of_keeps hk1.next_of_topology hring
  have huse1 : UsesExampleHooks m1 xs := huse.of_keeps_topology hk1
  -- collisions
  obtain ⟨s2, hcc, _, hcalls2, hmem2⟩ :=
    CheckCollisions_ring_run lib (exampleHooks lib) fuel
      (s := { s with mem := m1 }) hring1 (huse1.collisionOk lib) hfuel
  have hk2 : Keeps Node.topology m1 s2.mem :=
    runCalls_example_keeps Node.topology _ _ _ (fun _ _ _ _ hstep => hstep.topology) hmem2
  have hring2 : Ring s2.mem head xs := Ring.of_keeps hk2.next_of_topology hring1
  have huse2 : UsesExampleHooks s2.mem xs := huse1.of_keeps_topology hk2
  obtain ⟨hlen2, extra2, hout2, hrel2⟩ := runCalls_example_out _ _ _ hmem2
  -- rendering
  obtain ⟨s3, hrm, hcalls3, hout3, hlen3, hd3⟩ :=
    RenderModels_example lib fuel hring2 (fun x hx n hn => (huse2 x hx n hn).1) hfuel
  have hk3 : Keeps Node.topology s2.mem s3.mem := Keeps.of_map tickedNode_topology hd3
  refine ⟨s3, collisionCalls lib m1 xs, ?_, (hk1.trans hk2).trans hk3, ?_,
    fun c hc => (collisionCalls_shape lib m1 xs c hc).1, ?_, ?_, ?_⟩
  · simp only [frame, hubb, hcc, hrm]
  · rw [hcalls3, hcalls2]
  · rw [hlen3, hlen2, hlen1]
  · refine ⟨extra2 ++ drawOutputs s2.mem xs, ?_, ?_⟩
    · rw [hout3, hout2, hout1, List.append_assoc]
    · intro o ho
      rcases List.mem_append.1 ho with ho | ho
      · exact hrel2 o ho
      · unfold drawOutputs at ho
        obtain ⟨x, _, hx⟩ := List.mem_filterMap.1 ho
        cases hdx : s2.mem.deref (some x) with
        | none => rw [hdx] at hx; cases hx
        | some n =>
          rw [hdx] at hx
          cases hx
          rfl
  · intro q hq
    rw [hd3, if_neg hq]
    have hframe := runCalls_example_frame _ _ _ hmem2 q (by
      intro c hc e
      obtain ⟨_, a, ha, hca⟩ := collisionCalls_shape lib m1 xs c hc
      rw [hca] at e
      exact hq (e ▸ List.mem_map_of_mem _ ha))
    rw [hframe, hd1, if_neg hq]

/-! ## The run of `main` -/

/-- The three `InsertEnd` calls of `main` lead to `mainState`. -/
theorem main_insertAll (lib : Raylib) (model1 : Model) (k : Nat) :
    insertAll lib (exampleHooks lib) (k + 3) (mainSpawns model1) none emptyState =
      some (some 0, mainState lib model1, [some 0, some 1, some 2]) := by
  rfl

theorem mainState_ring (lib : Raylib) (model1 : Model) :
    Ring (mainState lib model1).mem (some 0) [0, 1, 2] := by
  refine ⟨by decide, rfl, ?_⟩
  simp [Seg, mainState, Mem.deref, mainNode]

theorem mainState_deref (lib : Raylib) (model1 : Model) :
    ∀ x ∈ [0, 1, 2], ∀ n, (mainState lib model1).mem.deref (some x) = some n →
      n.tick = some fnExampleTick ∧ n.onCollision = some fnExampleCollision ∧
        n.model = model1 := by
  intro x hx n hn
  simp only [List.mem_cons, List.mem_singleton, List.not_mem_nil, or_false] at hx
  rcases hx with rfl | rfl | rfl
  · have h : (mainState lib model1).mem.deref (some 0) = some (mainNode lib model1 0 (some 1)) :=
      rfl
    rw [h] at hn
    rw [← Option.some.inj hn]
    exact ⟨rfl, rfl, rfl⟩
  · have h : (mainState lib model1).mem.deref (some 1) = some (mainNode lib model1 2 (some 2)) :=
      rfl
    rw [h] at hn
    rw [← Option.some.inj hn]
    exact ⟨rfl, rfl, rfl⟩
  · have h : (mainState lib model1).mem.deref (some 2) =
        some (mainNode lib model1 (-2) (some 0)) := rfl
    rw [h] at hn
    rw [← Option.some.inj hn]
    exact ⟨rfl, rfl, rfl⟩

/-- Any number of frames on a ring that uses the example hooks: the loop returns, link, model
and hooks of every cell are kept, and nothing is allocated or released. -/
theorem frameLoop_example (lib : Raylib) (fuel : Nat) {head : Ptr} {xs : List Nat} :
    ∀ (frames : Nat) (s : State), Ring s.mem head xs → UsesExampleHooks s.mem xs →
      xs.length ≤ fuel →
      ∃ s', frameLoop lib (exampleHooks lib) fuel head frames s = some s' ∧
        Keeps Node.topology s.mem s'.mem ∧
        s'.mem.heap.length = s.mem.heap.length ∧
        ∃ extra, s'.mem.out = s.mem.out ++ extra ∧ ∀ o ∈ extra, o.isRelease = false := by
  intro frames
  induction frames with
  | zero =>
    intro s _ _ _
    exact ⟨s, rfl, Keeps.refl _ _, rfl, [], by simp, by simp⟩
  | succ k ih =>
    intro s hring huse hfuel
    obtain ⟨s1, _, hframe, hk1, _, _, hlen1, ⟨e1, hout1, hrel1⟩, _⟩ :=
      frame_example lib fuel hring huse hfuel
    obtain ⟨s2, hloop, hk2, hlen2, e2, hout2, hrel2⟩ :=
      ih s1 (Ring.of_keeps hk1.next_of_topology hring) (huse.of_keeps_topology hk1) hfuel
    refine ⟨s2, by simp only [frameLoop, hframe, hloop], hk1.trans hk2, by rw [hlen2, hlen1],
      e1 ++ e2, by rw [hout2, hout1, List.append_assoc], ?_⟩
    intro o ho
    rcases List.mem_append.1 ho with ho | ho
    · exact hrel1 o ho
    · exact hrel2 o ho

/-- C13 (the code departs from the claim): the whole run of `main`, for any library, any handle
and any number of frames, returns; the output then holds four `UnloadModel` calls on the one
handle `model1` that the three entities hold (one made by `main` and one by `FreeList` for each
entity), not one, and three calls of `free`; every cell is freed, so no entity remains. -/
theorem main_releases_model_four_times (lib : Raylib) (model1 : Model) (fuel frames : Nat) (hfuel : 3 ≤ fuel) :
    ∃ head s, main lib model1 fuel frames = some (head, s) ∧
      (s.mem.out.filter (Output.isUnload model1)).length = 4 ∧
      (s.mem.out.filter Output.isFree).length = 3 ∧
      ∀ q : Ptr, s.mem.deref q = none := by
  obtain ⟨k, rfl⟩ : ∃ k, fuel = k + 3 := ⟨fuel - 3, by omega⟩
  have hring := mainState_ring lib model1
  have huse : UsesExampleHooks (mainState lib model1).mem [0, 1, 2] := fun x hx n hn =>
    ⟨(mainState_deref lib model1 x hx n hn).1, (mainState_deref lib model1 x hx n hn).2.1⟩
  obtain ⟨s1, hloop, hk, hlen, extra, hout, hrel⟩ :=
    frameLoop_example lib (k + 3) frames (mainState lib model1) hring huse (by simp)
  have hring1 : Ring (s1.mem.emit (Output.UnloadModel model1)) (some 0) [0, 1, 2] :=
    Ring.of_keeps (Keeps.emit _ _ _) (Ring.of_keeps hk.next_of_topology hring)
  obtain ⟨m2, hfree, hout2, _, hd2⟩ := FreeList_ring (k + 3) hring1 (by simp)
  refine ⟨some 0, { s1 with mem := m2 }, ?_, ?_, ?_, ?_⟩
  · simp only [main, main_insertAll, hloop, hfree]
  · have hmodels : ∀ x ∈ [0, 1, 2], ∃ n,
        (s1.mem.emit (Output.UnloadModel model1)).deref (some x) = some n ∧ n.model = model1 := by
      intro x hx
      obtain ⟨n0, hn0⟩ := hring.mem_live x hx
      obtain ⟨n, hn, hpart⟩ := hk.get hn0
      refine ⟨n, by rw [Mem.deref_emit]; exact hn, ?_⟩
      have : n.model = n0.model := congrArg (fun t => t.2.1) hpart
      rw [this]
      exact (mainState_deref lib model1 x hx n0 hn0).2.2
    have hcount := freeOutputs_unload_count _ model1 [0, 1, 2] hmodels
    show (m2.out.filter (Output.isUnload model1)).length = 4
    rw [hout2, List.filter_append, List.length_append, hcount]
    simp only [Mem.emit, hout, List.filter_append,
      filter_isUnload_of_no_release model1 extra hrel]
    simp [mainState, Output.isUnload]
  · have hlive : ∀ x ∈ [0, 1, 2], ∃ n,
        (s1.mem.emit (Output.UnloadModel model1)).deref (some x) = some n := hring1.mem_live
    obtain ⟨_, hfreecount, _⟩ := freeOutputs_live _ [0, 1, 2] hlive
    show (m2.out.filter Output.isFree).length = 3
    rw [hout2, List.filter_append, List.length_append, hfreecount]
    have hnofree : ∀ l : List Output, (∀ o ∈ l, o.isRelease = false) →
        l.filter Output.isFree = [] := by
      intro l hl
      rw [List.filter_eq_nil_iff]
      intro o ho hf
      have := hl o ho
      cases o <;> simp [Output.isFree, Output.isRelease] at hf this
    simp only [Mem.emit, hout, List.filter_append, hnofree extra hrel]
    simp [mainState, Output.isFree]
  · intro q
    show m2.deref q = none
    rw [hd2]
    by_cases hq : q ∈ List.map some [0, 1, 2]
    · rw [if_pos hq]
    · rw [if_neg hq, Mem.deref_emit]
      cases q with
      | none => rfl
      | some a =>
        have ha : ¬ a < s1.mem.heap.length := by
          rw [hlen]
          intro hlt
          have h3 : a < 3 := hlt
          apply hq
          have : a = 0 ∨ a = 1 ∨ a = 2 := by omega
          rcases this with rfl | rfl | rfl <;> simp
        cases hda : s1.mem.deref (some a) with
        | none => rfl
        | some n => exact absurd (Mem.deref_some_lt hda) ha

theorem main_releases_model_four_times_witness :
    ∃ head s, main demoLib 7 3 2 = some (head, s) ∧
      (s.mem.out.filter (Output.isUnload 7)).length = 4 ∧
      (s.mem.out.filter Output.isFree).length = 3 ∧
      ∀ q : Ptr, s.mem.deref q = none :=
  main_releases_model_four_times demoLib 7 3 2 (by decide)

/-! ## Spawning and repeated ticks -/

/-- The result of `CreateNode` with `ExampleBeginPlay`: the new cell holds the filled node on
which the spawn hook has set `tags[0]`. -/
theorem CreateNode_example (lib : Raylib) (model : Model) (position : Vector3)
    (tick onCollision : FnPtr) (s : State) :
    ∃ s', CreateNode lib (exampleHooks lib) model position (some fnExampleBeginPlay) tick
        onCollision s = some (some s.mem.heap.length, s') ∧
      s'.mem.deref (some s.mem.heap.length) =
        some (beganNode (freshNode lib model position tick onCollision)) := by
  obtain ⟨m', hm', _, _, hd⟩ := ExampleBeginPlay_spec
    (freshMem_new lib model position tick onCollision s.mem)
  refine ⟨{ mem := m', calls := s.calls ++ [Call.beginPlay fnExampleBeginPlay
      (some s.mem.heap.length)] }, ?_, ?_⟩
  · rw [CreateNode_eq]
    simp only [exampleHooks, if_true, hm', Option.map_some']
  · rw [hd, if_pos rfl]; rfl

/-- The effect of `k` ticks in a row on an allocated entity: `tickedNode` applied `k` times. -/
theorem tickN_spec : ∀ (k : Nat) (m : Mem) (node : Ptr) (n : Node), m.deref node = some n →
    ∃ m', tickN k node m = some m' ∧ m'.deref node = some (tickedNode^[k] n) ∧
      (∀ q : Ptr, q ≠ node → m'.deref q = m.deref q) ∧ m'.out = m.out := by
  intro k
  induction k with
  | zero => intro m node n hn; exact ⟨m, rfl, hn, fun _ _ => rfl, rfl⟩
  | succ k ih =>
    intro m node n hn
    obtain ⟨m1, hm1, hout1, _, hd1⟩ := ExampleTick_spec hn
    obtain ⟨m', hm', hn', hother, hout⟩ := ih m1 node (tickedNode n) (by rw [hd1, if_pos rfl])
    refine ⟨m', by simp only [tickN, hm1, hm'], ?_, ?_, by rw [hout, hout1]⟩
    · rw [hn', Function.iterate_succ_apply]
    · intro q hq
      rw [hother q hq, hd1, if_neg hq]

theorem onCourse_ticked {n : Node} (h : n.onCourse) : (tickedNode n).onCourse := by
  obtain ⟨hband, htag, hlo, hhi⟩ := h
  have hband' := inBand_ticked hband
  obtain ⟨u1, u2, _, _⟩ := fadd32_up_bounds n.position.x
  obtain ⟨d1, d2, _, _, _, _⟩ := fadd32_down_bounds n.position.x
  refine ⟨hband', ?_, ?_, ?_⟩
  · rw [tickedNode_tag]
    split
    · exact Or.inl rfl
    · split
      · exact Or.inr rfl
      · exact htag
  · intro hx
    rw [tickedNode_x, tickedNode_tag] at hx
    rw [tickedNode_tag]
    by_cases h1 : n.position.x < -3
    · rw [if_pos h1, if_pos rfl] at hx
      exfalso
      have := u1 hband.1
      linarith
    · rw [if_neg h1] at hx ⊢
      by_cases h2 : n.position.x > 3
      · rw [if_pos h2] at hx ⊢
      · rw [if_neg h2] at hx ⊢
        rcases htag with hF | hB
        · rw [hF, if_pos rfl] at hx
          exfalso
          have := u2 (not_lt.1 h1)
          linarith
        · exact hB
  · intro hx
    rw [tickedNode_x, tickedNode_tag] at hx
    rw [tickedNode_tag]
    by_cases h1 : n.position.x < -3
    · rw [if_pos h1]
    · rw [if_neg h1] at hx ⊢
      by_cases h2 : n.position.x > 3
      · rw [if_pos h2, if_neg (by decide)] at hx
        exfalso
        have := d1 hband.2
        linarith
      · rw [if_neg h2] at hx ⊢
        rcases htag with hF | hB
        · exact hF
        · rw [hB, if_neg (by decide)] at hx
          exfalso
          have := d2 (not_lt.1 h2)
          linarith

theorem onCourse_iterate {n : Node} (h : n.onCourse) : ∀ k : Nat, (tickedNode^[k] n).onCourse := by
  intro k
  induction k with
  | zero => exact h
  | succ k ih =>
    rw [Function.iterate_succ_apply']
    exact onCourse_ticked ih

theorem onCourse_began {n : Node} (h1 : -3 ≤ n.position.x) (h2 : n.position.x ≤ 3) :
    (beganNode n).onCourse := by
  have hpos : (beganNode n).position = n.position :=
    (position_of_exceptTag0 (beganNode_exceptTag0 n)).1
  have htag : (beganNode n).tags.get 0 = (if n.position.x < 0 then 'F' else 'B') :=
    Tags.get_set_zero _ _
  refine ⟨?_, ?_, ?_, ?_⟩
  · rw [hpos]
    unfold inBand
    have hb := bandMax_bounds.1
    constructor <;> linarith
  · rw [htag]
    split
    · exact Or.inl rfl
    · exact Or.inr rfl
  · intro hx
    rw [hpos] at hx
    exact absurd h1 (not_le.2 hx)
  · intro hx
    rw [hpos] at hx
    exact absurd h2 (not_le.2 hx)

/-- On course, a tick changes the tag exactly when it starts beyond a threshold, and it then
brings `position.x` back into `[-3, 3]`. -/
theorem onCourse_flip {n : Node} (h : n.onCourse) :
    ((tickedNode n).tags.get 0 ≠ n.tags.get 0 ↔ (n.position.x < -3 ∨ 3 < n.position.x)) ∧
    ((n.position.x < -3 ∨ 3 < n.position.x) →
      -3 ≤ (tickedNode n).position.x ∧ (tickedNode n).position.x ≤ 3) := by
  obtain ⟨hband, htag, hlo, hhi⟩ := h
  unfold inBand at hband
  obtain ⟨u1, _, u3, _⟩ := fadd32_up_bounds n.position.x
  obtain ⟨d1, _, d3, _, _, _⟩ := fadd32_down_bounds n.position.x
  constructor
  · rw [tickedNode_tag]
    constructor
    · intro hne
      by_cases h1 : n.position.x < -3
      · exact Or.inl h1
      · by_cases h2 : n.position.x > 3
        · exact Or.inr h2
        · rw [if_neg h1, if_neg h2] at hne
          exact absurd rfl hne
    · rintro (h1 | h2)
      · rw [if_pos h1, hlo h1]
        decide
      · have h1 : ¬ n.position.x < -3 := by linarith
        rw [if_neg h1, if_pos h2, hhi h2]
        decide
  · intro hout
    rw [tickedNode_x, tickedNode_tag]
    rcases hout with h1 | h2
    · rw [if_pos h1, if_pos rfl]
      have ha := u1 hband.1
      have hc := u3 (le_of_lt h1)
      constructor <;> linarith
    · have h1 : ¬ n.position.x < -3 := by linarith
      rw [if_neg h1, if_pos h2, if_neg (by decide)]
      have ha := d1 hband.2
      have hc := d3 (le_of_lt h2)
      constructor <;> linarith

/-- Two entities with the same `position.x` and the same tag have the same after a tick. -/
theorem ticked_same {n1 n2 : Node} (hx : n1.position.x = n2.position.x)
    (ht : n1.tags.get 0 = n2.tags.get 0) :
    (tickedNode n1).position.x = (tickedNode n2).position.x ∧
      (tickedNode n1).tags.get 0 = (tickedNode n2).tags.get 0 := by
  have htag : (tickedNode n1).tags.get 0 = (tickedNode n2).tags.get 0 := by
    rw [tickedNode_tag, tickedNode_tag, hx, ht]
  refine ⟨?_, htag⟩
  rw [tickedNode_x, tickedNode_x n2, htag, hx]

theorem iterate_same {n1 n2 : Node} (hx : n1.position.x = n2.position.x)
    (ht : n1.tags.get 0 = n2.tags.get 0) : ∀ k : Nat,
    (tickedNode^[k] n1).position.x = (tickedNode^[k] n2).position.x ∧
      (tickedNode^[k] n1).tags.get 0 = (tickedNode^[k] n2).tags.get 0 := by
  intro k
  induction k with
  | zero => exact ⟨hx, ht⟩
  | succ k ih =>
    rw [Function.iterate_succ_apply', Function.iterate_succ_apply']
    exact ticked_same ih.1 ih.2

/-! ## C1 - C3 -/

/-- C1: after `n ≥ 1` calls to `InsertEnd` on the empty ring, the traversal from `head` returns,
visits exactly the `n` entities the calls created, each exactly once, and the `next` of the last
node visited is `head`. -/
theorem traversal_visits_inserted_once (lib : Raylib) (hooks : Hooks) (fuel : Nat)
    (spawns : List Spawn) (s : State) (hn : 1 ≤ spawns.length)
    (hok : ∀ a ∈ spawns, ∃ f, a.beginPlay = some f ∧ hooks.BeginPlayOk f)
    (hfuel : spawns.length ≤ fuel) :
    ∃ head s' created visited,
      insertAll lib hooks fuel spawns none s = some (head, s', created) ∧
      traversal s'.mem fuel head = some visited ∧
      created.length = spawns.length ∧
      (∀ e, e ∈ visited ↔ e ∈ created) ∧
      (∀ e ∈ created, visited.countP (fun v => decide (v = e)) = 1) ∧
      visited.length = spawns.length ∧
      visited.head? = some head ∧
      ∃ last n, visited.getLast? = some last ∧ s'.mem.deref last = some n ∧ n.next = head := by
  obtain ⟨head, s', news, hall, hlen, hring⟩ :=
    insertAll_ring lib hooks fuel spawns none [] s (Ring.empty _) hok (by simpa using hfuel)
  rw [List.nil_append] at hring
  have htrav : traversal s'.mem fuel head = some (news.map some) :=
    traversal_ring hring (by omega)
  have hnd : (news.map some).Nodup := hring.1.map (Option.some_injective _)
  refine ⟨head, s', news.map some, news.map some, hall, htrav, by simpa using hlen,
    fun _ => Iff.rfl, fun e he => List.count_eq_one_of_mem hnd he, by simpa using hlen, ?_, ?_⟩
  · rw [hring.2.1]
    cases news with
    | nil => simp at hlen; omega
    | cons a l => simp
  · obtain ⟨front, last, rfl⟩ : ∃ front last, news = front ++ [last] := by
      have hne : news ≠ [] := by intro e; rw [e] at hlen; simp at hlen; omega
      exact ⟨news.dropLast, news.getLast hne, (List.dropLast_append_getLast hne).symm⟩
    obtain ⟨n, hn, hnext⟩ := hring.last_next
    exact ⟨some last, n, by simp, hn, hnext⟩

/-- C2: `InsertEnd` on a well-formed ring (possibly empty) returns, and the traversal from the
new `head` is the old traversal followed by the entity just created; so after the calls
`spawns` on the empty ring the traversal lists the created entities in the order of the calls
and `head` is the first of them. -/
theorem InsertEnd_preserves_order (lib : Raylib) (hooks : Hooks) (fuel : Nat) (head : Ptr)
    (xs : List Nat) (s : State) (model : Model) (position : Vector3) (f : Nat)
    (tick onCollision : FnPtr) (spawns : List Spawn) (s0 : State)
    (hring : Ring s.mem head xs) (hok : hooks.BeginPlayOk f) (hfuel : xs.length < fuel)
    (hoks : ∀ a ∈ spawns, ∃ g, a.beginPlay = some g ∧ hooks.BeginPlayOk g)
    (hfuels : spawns.length ≤ fuel) :
    (traversal s.mem fuel head = some (xs.map some) ∧
      ∃ head' s' e,
        (CreateNode lib hooks model position (some f) tick onCollision s).map Prod.fst = some e ∧
        InsertEnd lib hooks fuel head model position (some f) tick onCollision s =
          some (head', s') ∧
        traversal s'.mem fuel head' = some (xs.map some ++ [e])) ∧
    (∃ head' s' created,
      insertAll lib hooks fuel spawns none s0 = some (head', s', created) ∧
      created.length = spawns.length ∧
      traversal s'.mem fuel head' = some created ∧
      (spawns ≠ [] → created.head? = some head')) := by
  refine ⟨⟨traversal_ring hring (by omega), ?_⟩, ?_⟩
  · obtain ⟨head', s', hins, hring', _⟩ :=
      InsertEnd_ring lib hooks fuel model position tick onCollision hring hok (by omega)
    refine ⟨head', s', some s.mem.heap.length, ?_, hins, ?_⟩
    · obtain ⟨m', hbp, _⟩ := hok (some s.mem.heap.length)
        (freshMem lib model position tick onCollision s.mem) (by simp [freshMem_new])
      rw [CreateNode_eq, hbp]; rfl
    · rw [traversal_ring hring' (by simp; omega)]; simp
  · obtain ⟨head', s', news, hall, hlen, hring'⟩ :=
      insertAll_ring lib hooks fuel spawns none [] s0 (Ring.empty _) hoks (by simpa using hfuels)
    rw [List.nil_append] at hring'
    refine ⟨head', s', news.map some, hall, by simpa using hlen,
      traversal_ring hring' (by omega), ?_⟩
    intro hne
    rw [hring'.2.1]
    cases news with
    | nil => exact absurd (List.length_eq_zero.1 hlen.symm) hne
    | cons a l => simp

/-- C3: on a ring satisfying the invariant `InsertEnd` returns (so its tail scan terminates) and
the result satisfies the invariant again, with the new entity last and its `next` equal to
`head`; on the empty ring the new entity becomes `head` and is its own `next`. -/
theorem InsertEnd_ring_invariant (lib : Raylib) (hooks : Hooks) (fuel : Nat) (head : Ptr)
    (xs : List Nat) (s : State) (model : Model) (position : Vector3) (f : Nat)
    (tick onCollision : FnPtr)
    (hring : Ring s.mem head xs) (hok : hooks.BeginPlayOk f) (hfuel : xs.length ≤ fuel) :
    ∃ s' n,
      InsertEnd lib hooks fuel head model position (some f) tick onCollision s =
        some (if head = none then some s.mem.heap.length else head, s') ∧
      Ring s'.mem (if head = none then some s.mem.heap.length else head)
        (xs ++ [s.mem.heap.length]) ∧
      s'.mem.deref (some s.mem.heap.length) = some n ∧
      n.next = (if head = none then some s.mem.heap.length else head) := by
  obtain ⟨head', s', hins, hring', _⟩ :=
    InsertEnd_ring lib hooks fuel model position tick onCollision hring hok hfuel
  have hh : head' = if head = none then some s.mem.heap.length else head := by
    rw [hring'.2.1, hring.2.1]
    cases xs <;> simp
  rw [hh] at hins hring'
  obtain ⟨n, hn, hnext⟩ := hring'.last_next
  exact ⟨s', n, hins, hring', hn, hnext⟩

theorem mainSpawns_ok (lib : Raylib) (model : Model) :
    ∀ a ∈ mainSpawns model, ∃ f, a.beginPlay = some f ∧ (exampleHooks lib).BeginPlayOk f := by
  intro a ha
  refine ⟨fnExampleBeginPlay, ?_, exampleHooks_beginPlayOk lib⟩
  simp [mainSpawns, mainSpawn] at ha
  rcases ha with rfl | rfl | rfl <;> rfl

theorem traversal_visits_inserted_once_witness :
    ∃ head s' created visited,
      insertAll demoLib (exampleHooks demoLib) 3 (mainSpawns 7) none emptyState =
        some (head, s', created) ∧
      traversal s'.mem 3 head = some visited ∧
      created.length = (mainSpawns 7).length ∧
      (∀ e, e ∈ visited ↔ e ∈ created) ∧
      (∀ e ∈ created, visited.countP (fun v => decide (v = e)) = 1) ∧
      visited.length = (mainSpawns 7).length ∧
      visited.head? = some head ∧
      ∃ last n, visited.getLast? = some last ∧ s'.mem.deref last = some n ∧ n.next = head :=
  traversal_visits_inserted_once demoLib (exampleHooks demoLib) 3 (mainSpawns 7) emptyState
    (by decide) (mainSpawns_ok demoLib 7) (by decide)

theorem InsertEnd_preserves_order_witness :
    Ring demoState2.mem (some 0) [0, 1] ∧
    traversal demoState2.mem 3 (some 0) = some [some 0, some 1] ∧
    ∃ head' s' e,
      (CreateNode demoLib (exampleHooks demoLib) 7 ⟨-2, 0, 0⟩ (some fnExampleBeginPlay)
        (some fnExampleTick) (some fnExampleCollision) demoState2).map Prod.fst = some e ∧
      InsertEnd demoLib (exampleHooks demoLib) 3 (some 0) 7 ⟨-2, 0, 0⟩ (some fnExampleBeginPlay)
        (some fnExampleTick) (some fnExampleCollision) demoState2 = some (head', s') ∧
      traversal s'.mem 3 head' = some ([some 0, some 1] ++ [e]) :=
  ⟨by decide,
    (InsertEnd_preserves_order demoLib (exampleHooks demoLib) 3 (some 0) [0, 1] demoState2 7
      ⟨-2, 0, 0⟩ fnExampleBeginPlay (some fnExampleTick) (some fnExampleCollision) (mainSpawns 7)
      emptyState (by decide) (exampleHooks_beginPlayOk demoLib) (by decide)
      (mainSpawns_ok demoLib 7) (by decide)).1⟩

theorem InsertEnd_ring_invariant_witness :
    Ring demoState2.mem (some 0) [0, 1] ∧
    ∃ s' n,
      InsertEnd demoLib (exampleHooks demoLib) 2 (some 0) 7 ⟨-2, 0, 0⟩ (some fnExampleBeginPlay)
        (some fnExampleTick) (some fnExampleCollision) demoState2 = some (some 0, s') ∧
      Ring s'.mem (some 0) [0, 1, 2] ∧
      s'.mem.deref (some 2) = some n ∧ n.next = some 0 :=
  ⟨by decide,
    InsertEnd_ring_invariant demoLib (exampleHooks demoLib) 2 (some 0) [0, 1] demoState2 7
      ⟨-2, 0, 0⟩ fnExampleBeginPlay (some fnExampleTick) (some fnExampleCollision)
      (by decide) (exampleHooks_beginPlayOk demoLib) (by decide)⟩

/-! ## C5, C6: the collision pass -/

/-- C5: on a well-formed ring whose reactions return and leave links, bounding boxes and
reaction pointers alone, for two distinct entities `A` and `B` of the ring, wherever they sit,
whose boxes intersect and which both have a reaction, one `CheckCollisions` pass returns and,
among the calls it makes, exactly one is a reaction invoked with `(A, B)`, the one of `A`, and
exactly one is a reaction invoked with `(B, A)`, the one of `B`. -/
theorem CheckCollisions_symmetric (lib : Raylib) (hooks : Hooks) (fuel : Nat) (head : Ptr)
    (xs : List Nat) (s : State) (A B : Nat) (nA nB : Node) (fA fB : Nat)
    (hring : Ring s.mem head xs)
    (hok : ∀ x ∈ xs, ∀ n f, s.mem.deref (some x) = some n → n.onCollision = some f →
      hooks.CollisionOk f)
    (hfuel : xs.length ≤ fuel) (hA : A ∈ xs) (hB : B ∈ xs) (hAB : A ≠ B)
    (hnA : s.mem.deref (some A) = some nA) (hnB : s.mem.deref (some B) = some nB)
    (hboxAB : lib.CheckCollisionBoxes nA.boundingBox nB.boundingBox = true)
    (hboxBA : lib.CheckCollisionBoxes nB.boundingBox nA.boundingBox = true)
    (hfA : nA.onCollision = some fA) (hfB : nB.onCollision = some fB) :
    ∃ s' new, CheckCollisions lib hooks fuel head s = some s' ∧ s'.calls = s.calls ++ new ∧
      new.filter (Call.isReaction (some A) (some B)) = [Call.onCollision fA (some A) (some B)] ∧
      new.filter (Call.isReaction (some B) (some A)) = [Call.onCollision fB (some B) (some A)] := by
  obtain ⟨s', hrun, _, hcalls⟩ := CheckCollisions_ring lib hooks fuel hring hok hfuel
  refine ⟨s', collisionCalls lib s.mem xs, hrun, hcalls, ?_, ?_⟩
  · rw [collisionCalls_filter lib s.mem hring.1 hA hB,
      collisionCall_of_collide hAB hnA hnB hboxAB hfA]
    simp [Call.isReaction]
  · rw [collisionCalls_filter lib s.mem hring.1 hB hA,
      collisionCall_of_collide (Ne.symm hAB) hnB hnA hboxBA hfB]
    simp [Call.isReaction]

/-- C6: a `CheckCollisions` pass that returns has invoked no reaction with the same node as both
arguments, whatever the hooks and the memory; on a well-formed ring with well-behaved reactions
the pass does return, and two distinct entities whose boxes intersect do get their call even
when model, position and bounding box of the two are equal: the skip compares addresses. -/
theorem CheckCollisions_no_self_collision (lib : Raylib) (hooks : Hooks) (fuel : Nat)
    (head : Ptr) (xs : List Nat) (s : State)
    (hring : Ring s.mem head xs)
    (hok : ∀ x ∈ xs, ∀ n f, s.mem.deref (some x) = some n → n.onCollision = some f →
      hooks.CollisionOk f)
    (hfuel : xs.length ≤ fuel) :
    (∀ (hooks' : Hooks) (fuel' : Nat) (head' : Ptr) (t t' : State),
      CheckCollisions lib hooks' fuel' head' t = some t' →
      ∃ new, t'.calls = t.calls ++ new ∧ ∀ c ∈ new, c.isSelfCollision = false) ∧
    ∃ s' new, CheckCollisions lib hooks fuel head s = some s' ∧ s'.calls = s.calls ++ new ∧
      (∀ c ∈ new, c.isSelfCollision = false) ∧
      ∀ (A B : Nat) (nA nB : Node) (f : Nat), A ∈ xs → B ∈ xs → A ≠ B →
        s.mem.deref (some A) = some nA → s.mem.deref (some B) = some nB →
        nA.model = nB.model → nA.position = nB.position → nA.boundingBox = nB.boundingBox →
        lib.CheckCollisionBoxes nA.boundingBox nB.boundingBox = true →
        nA.onCollision = some f → Call.onCollision f (some A) (some B) ∈ new := by
  refine ⟨fun hooks' fuel' head' t t' h =>
    CheckCollisions_calls_no_self lib hooks' fuel' head' t t' h, ?_⟩
  obtain ⟨s', hrun, _, hcalls⟩ := CheckCollisions_ring lib hooks fuel hring hok hfuel
  refine ⟨s', collisionCalls lib s.mem xs, hrun, hcalls, collisionCalls_no_self lib s.mem xs, ?_⟩
  intro A B nA nB f hA hB hAB hnA hnB _ _ _ hbox hf
  unfold collisionCalls
  rw [List.mem_flatMap]
  refine ⟨A, hA, ?_⟩
  rw [List.mem_filterMap]
  exact ⟨B, hB, collisionCall_of_collide hAB hnA hnB hbox hf⟩

theorem demoRing2_ok (x0 x1 : ℚ) : ∀ x ∈ [0, 1], ∀ (n : Node) (f : Nat),
    (demoRing2 x0 x1).mem.deref (some x) = some n → n.onCollision = some f →
    (exampleHooks demoLib).CollisionOk f := by
  intro x hx n f hn hf
  have hf' : f = fnExampleCollision := by
    simp only [List.mem_cons, List.mem_singleton, List.not_mem_nil, or_false] at hx
    rcases hx with rfl | rfl
    · have h0 : (demoRing2 x0 x1).mem.deref (some 0) = some (demoNode x0 (some 1) 'B') := rfl
      rw [h0] at hn
      rw [← Option.some.inj hn] at hf
      exact (Option.some.inj hf).symm
    · have h1 : (demoRing2 x0 x1).mem.deref (some 1) = some (demoNode x1 (some 0) 'B') := rfl
      rw [h1] at hn
      rw [← Option.some.inj hn] at hf
      exact (Option.some.inj hf).symm
  rw [hf']
  exact exampleHooks_collisionOk demoLib

theorem demoState2_boxes :
    demoLib.CheckCollisionBoxes (demoNode 0 (some 1) 'B').boundingBox
        (demoNode (1 / 4) (some 0) 'B').boundingBox = true ∧
      demoLib.CheckCollisionBoxes (demoNode (1 / 4) (some 0) 'B').boundingBox
        (demoNode 0 (some 1) 'B').boundingBox = true := by
  constructor <;> simp [demoLib, demoNode] <;> norm_num

theorem CheckCollisions_symmetric_witness :
    Ring demoState2.mem (some 0) [0, 1] ∧
    ∃ s' new, CheckCollisions demoLib (exampleHooks demoLib) 2 (some 0) demoState2 = some s' ∧
      s'.calls = demoState2.calls ++ new ∧
      new.filter (Call.isReaction (some 0) (some 1)) =
        [Call.onCollision fnExampleCollision (some 0) (some 1)] ∧
      new.filter (Call.isReaction (some 1) (some 0)) =
        [Call.onCollision fnExampleCollision (some 1) (some 0)] :=
  ⟨by decide,
    CheckCollisions_symmetric demoLib (exampleHooks demoLib) 2 (some 0) [0, 1] demoState2 0 1
      (demoNode 0 (some 1) 'B') (demoNode (1 / 4) (some 0) 'B') fnExampleCollision
      fnExampleCollision (by decide) (demoRing2_ok 0 (1 / 4)) (by decide) (by decide) (by decide)
      (by decide) rfl rfl demoState2_boxes.1 demoState2_boxes.2 rfl rfl⟩

theorem CheckCollisions_no_self_collision_witness :
    Ring (demoRing2 0 0).mem (some 0) [0, 1] ∧
    (demoNode 0 (some 1) 'B').position = (demoNode 0 (some 0) 'B').position ∧
    (demoNode 0 (some 1) 'B').boundingBox = (demoNode 0 (some 0) 'B').boundingBox ∧
    ∃ s' new, CheckCollisions demoLib (exampleHooks demoLib) 2 (some 0) (demoRing2 0 0) = some s' ∧
      s'.calls = (demoRing2 0 0).calls ++ new ∧ (∀ c ∈ new, c.isSelfCollision = false) ∧
      Call.onCollision fnExampleCollision (some 0) (some 1) ∈ new :=
  ⟨by decide, rfl, rfl,
    let ⟨s', new, h1, h2, h3, h4⟩ :=
      (CheckCollisions_no_self_collision demoLib (exampleHooks demoLib) 2 (some 0) [0, 1]
        (demoRing2 0 0) (by decide) (demoRing2_ok 0 0) (by decide)).2
    ⟨s', new, h1, h2, h3,
      h4 0 1 (demoNode 0 (some 1) 'B') (demoNode 0 (some 0) 'B') fnExampleCollision (by decide)
        (by decide) (by decide) rfl rfl rfl rfl rfl
        (by simp [demoLib, demoNode]) rfl⟩⟩

/-! ## C7 - C10: creation and the example hooks -/

/-- C7: `CreateNode` gives the new entity a fresh cell; when `beginPlay` is called the entity
has the given model, position, `tick` and `onCollision`, the local bounding box of the model,
a null `next` and 128 zero tag bytes, and the other cells and the output are as before. The
result is the result of that one call: `beginPlay` is called once, on the new entity only, and
the node has no field that keeps it. With `ExampleBeginPlay`, the hook of the program, the
entity returned still has these fields. -/
theorem CreateNode_spec (lib : Raylib) (hooks : Hooks) (model : Model) (position : Vector3)
    (f : Nat) (tick onCollision : FnPtr) (s : State) :
    (∃ n0, (freshMem lib model position tick onCollision s.mem).deref (some s.mem.heap.length) =
        some n0 ∧
      n0.model = model ∧ n0.position = position ∧ n0.tick = tick ∧
      n0.onCollision = onCollision ∧ n0.boundingBox = lib.GetModelBoundingBox model ∧
      n0.next = none ∧ n0.tags.bytes.length = 128 ∧ ∀ i, n0.tags.get i = Char.ofNat 0) ∧
    s.mem.deref (some s.mem.heap.length) = none ∧
    (∀ a, a < s.mem.heap.length →
      (freshMem lib model position tick onCollision s.mem).deref (some a) =
        s.mem.deref (some a)) ∧
    (freshMem lib model position tick onCollision s.mem).out = s.mem.out ∧
    CreateNode lib hooks model position (some f) tick onCollision s =
      (hooks.beginPlay f (some s.mem.heap.length)
          (freshMem lib model position tick onCollision s.mem)).map
        (fun m => (some s.mem.heap.length,
          { mem := m, calls := s.calls ++ [Call.beginPlay f (some s.mem.heap.length)] })) ∧
    ∃ s' n, CreateNode lib (exampleHooks lib) model position (some fnExampleBeginPlay) tick
        onCollision s = some (some s.mem.heap.length, s') ∧
      s'.calls = s.calls ++ [Call.beginPlay fnExampleBeginPlay (some s.mem.heap.length)] ∧
      s'.mem.deref (some s.mem.heap.length) = some n ∧
      n.model = model ∧ n.position = position ∧ n.tick = tick ∧
      n.onCollision = onCollision ∧ n.boundingBox = lib.GetModelBoundingBox model ∧
      n.next = none ∧
      ∀ a, a < s.mem.heap.length → s'.mem.deref (some a) = s.mem.deref (some a) := by
  refine ⟨⟨freshNode lib model position tick onCollision, freshMem_new _ _ _ _ _ _, rfl, rfl,
    rfl, rfl, rfl, rfl, Tags.zero.size, fun i => Tags.get_zero i⟩, ?_, ?_, rfl,
    CreateNode_eq lib hooks model position f tick onCollision s, ?_⟩
  · simp [Mem.deref]
  · intro a ha
    exact freshMem_old ha
  · obtain ⟨m', hm', _, _, hd⟩ := ExampleBeginPlay_spec
      (freshMem_new lib model position tick onCollision s.mem)
    refine ⟨{ mem := m', calls := s.calls ++ [Call.beginPlay fnExampleBeginPlay
        (some s.mem.heap.length)] },
      setTag0 (if position.x < 0 then 'F' else 'B')
        (freshNode lib model position tick onCollision), ?_, rfl, ?_, rfl, rfl, rfl, rfl, rfl,
      rfl, ?_⟩
    · rw [CreateNode_eq]
      simp only [exampleHooks, if_true, hm', Option.map_some']
    · rw [hd, if_pos rfl]; rfl
    · intro a ha
      have hne : (some a : Ptr) ≠ some s.mem.heap.length := by
        intro e
        exact Nat.lt_irrefl _ ((Option.some.inj e) ▸ ha)
      show m'.deref (some a) = s.mem.deref (some a)
      rw [hd, if_neg hne]
      exact freshMem_old ha

theorem mainSpawns_tags (lib : Raylib) (model : Model) :
    (insertAll lib (exampleHooks lib) 3 (mainSpawns model) none emptyState).bind
      (fun r => tagsInOrder r.2.1.mem 3 r.1) = some [some 'B', some 'B', some 'F'] := by
  rfl

/-- C8: an entity created with `ExampleBeginPlay` has `tags[0] = 'F'` if its initial
`position.x` is strictly negative and `'B'` otherwise, its other tag bytes are zero and its
position is the initial one; the three entities `main` inserts at `x = 0, 2, -2` have, in
traversal order, the tags `B`, `B`, `F`. -/
theorem ExampleBeginPlay_spawn_tags (lib : Raylib) (model : Model) (position : Vector3)
    (tick onCollision : FnPtr) (s : State) :
    (∃ s' n, CreateNode lib (exampleHooks lib) model position (some fnExampleBeginPlay) tick
        onCollision s = some (some s.mem.heap.length, s') ∧
      s'.mem.deref (some s.mem.heap.length) = some n ∧
      n.tags.get 0 = (if position.x < 0 then 'F' else 'B') ∧
      (∀ i, i ≠ 0 → n.tags.get i = Char.ofNat 0) ∧
      n.position = position) ∧
    ((if (0 : ℚ) < 0 then 'F' else 'B') = 'B') ∧
    ∃ head s' created,
      insertAll lib (exampleHooks lib) 3 (mainSpawns model) none emptyState =
        some (head, s', created) ∧
      traversal s'.mem 3 head = some created ∧ created.length = 3 ∧
      tagsInOrder s'.mem 3 head = some [some 'B', some 'B', some 'F'] := by
  refine ⟨?_, by decide, ?_⟩
  · obtain ⟨m', hm', _, _, hd⟩ := ExampleBeginPlay_spec
      (freshMem_new lib model position tick onCollision s.mem)
    refine ⟨{ mem := m', calls := s.calls ++ [Call.beginPlay fnExampleBeginPlay
        (some s.mem.heap.length)] },
      setTag0 (if position.x < 0 then 'F' else 'B')
        (freshNode lib model position tick onCollision), ?_, ?_, ?_, ?_, rfl⟩
    · rw [CreateNode_eq]
      simp only [exampleHooks, if_true, hm', Option.map_some']
    · rw [hd, if_pos rfl]; rfl
    · exact Tags.get_set_zero _ _
    · intro i hi
      exact (Tags.get_set_ne _ _ hi).trans (Tags.get_zero i)
  · have htags := mainSpawns_tags lib model
    obtain ⟨head, s', news, hall, hlen, hring⟩ :=
      insertAll_ring lib (exampleHooks lib) 3 (mainSpawns model) none [] emptyState
        (Ring.empty _) (mainSpawns_ok lib model) (by simp [mainSpawns])
    rw [List.nil_append] at hring
    rw [hall] at htags
    have hlen3 : news.length = 3 := by rw [hlen]; rfl
    exact ⟨head, s', news.map some, hall, traversal_ring hring (by rw [hlen3]),
      by rw [List.length_map, hlen3], htags⟩

/-- C9: one `ExampleTick` on an allocated entity returns; it first sets `tags[0]` to `'F'` if
`position.x < -3`, to `'B'` if `position.x > 3`, and leaves it otherwise, then adds `0.025f` to
`position.x` if the resulting `tags[0]` is `'F'` and `-0.025f` otherwise, the addition being the
one of `float`: the new `position.x` is the binary32 sum `fadd32` of the old one and the
binary32 constant `c025` or its negation; the other tag bytes, `position.y`, `position.z`,
bounding box, model, hooks and `next` of the entity, the other cells and the output are
unchanged. -/
theorem ExampleTick_step (m : Mem) (node : Ptr) (n : Node) (h : m.deref node = some n) :
    ∃ m' n', ExampleTick node m = some m' ∧ m'.deref node = some n' ∧
      n'.tags.get 0 = (if n.position.x < -3 then 'F' else if n.position.x > 3 then 'B'
        else n.tags.get 0) ∧
      n'.position.x = fadd32 n.position.x (if n'.tags.get 0 = 'F' then c025 else -c025) ∧
      (∀ i, i ≠ 0 → n'.tags.get i = n.tags.get i) ∧
      n'.position.y = n.position.y ∧ n'.position.z = n.position.z ∧
      n'.boundingBox = n.boundingBox ∧ n'.model = n.model ∧ n'.tick = n.tick ∧
      n'.onCollision = n.onCollision ∧ n'.next = n.next ∧
      (∀ q : Ptr, q ≠ node → m'.deref q = m.deref q) ∧ m'.out = m.out := by
  obtain ⟨m', hm', hout, _, hd⟩ := ExampleTick_spec h
  refine ⟨m', tickedNode n, hm', by rw [hd, if_pos rfl], ?_, ?_, ?_, ?_, ?_, ?_, ?_, ?_, ?_, ?_,
    fun q hq => by rw [hd, if_neg hq], hout⟩
  all_goals
    unfold tickedNode advance
    split
    · first
      | exact Tags.get_set_zero _ _
      | exact fun i hi => Tags.get_set_ne _ _ hi
      | rfl
    · split
      · first
        | exact Tags.get_set_zero _ _
        | exact fun i hi => Tags.get_set_ne _ _ hi
        | rfl
      · first
        | exact fun i _ => rfl
        | rfl

theorem ExampleTick_step_witness :
    ∃ m' n', ExampleTick (some 1) demoState2.mem = some m' ∧ m'.deref (some 1) = some n' ∧
      n'.tags.get 0 = 'B' ∧ n'.position.x = 7549747 / 33554432 :=
  let ⟨m', n', h1, h2, h3, h4, _⟩ :=
    ExampleTick_step demoState2.mem (some 1) (demoNode (1 / 4) (some 0) 'B') rfl
  have htag : (demoNode (1 / 4) (some 0) 'B').tags.get 0 = 'B' := by decide
  have hlo : ¬ (demoNode (1 / 4) (some 0) 'B').position.x < -3 := by
    simp [demoNode]; norm_num
  have hhi : ¬ (demoNode (1 / 4) (some 0) 'B').position.x > 3 := by
    simp [demoNode]; norm_num
  have h3' : n'.tags.get 0 = 'B' := by rw [h3, if_neg hlo, if_neg hhi, htag]
  ⟨m', n', h1, h2, h3', by rw [h4, h3', if_neg (by decide)]; exact fadd32_quarter⟩

/-- C10: `ExampleCollision(node, other)` on allocated entities returns. If the positions are at
least `0.5` apart the heap is untouched and two wireframes are drawn. Otherwise nothing is
drawn, no other cell changes and in `node` only `tags[0]` can change: it becomes `'B'` when it
was `'F'` and `other` has `'B'`, it becomes `'F'` when both had `'B'`, and in every other
combination `node` is as before. -/
theorem ExampleCollision_rule (lib : Raylib) (m : Mem) (node other : Ptr) (n o : Node)
    (hn : m.deref node = some n) (ho : m.deref other = some o) :
    ∃ m', ExampleCollision lib node other m = some m' ∧
      (lib.Vector3Distance n.position o.position ≥ 1 / 2 →
        m'.heap = m.heap ∧
        m'.out = m.out ++ [Output.DrawModelWires n.model n.position,
          Output.DrawSphereWires (lib.Vector3Lerp n.position o.position c01)]) ∧
      (lib.Vector3Distance n.position o.position < 1 / 2 →
        m'.out = m.out ∧ (∀ q : Ptr, q ≠ node → m'.deref q = m.deref q) ∧
        ∃ n', m'.deref node = some n' ∧
          (n.tags.get 0 = 'F' → o.tags.get 0 = 'B' → n'.tags.get 0 = 'B') ∧
          (n.tags.get 0 = 'B' → o.tags.get 0 = 'B' → n'.tags.get 0 = 'F') ∧
          (¬ (n.tags.get 0 = 'F' ∧ o.tags.get 0 = 'B') →
            ¬ (n.tags.get 0 = 'B' ∧ o.tags.get 0 = 'B') → n' = n) ∧
          (∀ i, i ≠ 0 → n'.tags.get i = n.tags.get i) ∧
          n'.position = n.position ∧ n'.boundingBox = n.boundingBox ∧ n'.model = n.model ∧
          n'.tick = n.tick ∧ n'.onCollision = n.onCollision ∧ n'.next = n.next) := by
  obtain ⟨m', hm', _, hfar, hnear, hd⟩ := ExampleCollision_spec lib hn ho
  refine ⟨m', hm', hfar, ?_⟩
  intro hlt
  have hnf : ¬ lib.Vector3Distance n.position o.position ≥ 1 / 2 := not_le.2 hlt
  refine ⟨hnear hnf, fun q hq => by rw [hd, if_neg hq], collidedNode lib n o,
    by rw [hd, if_pos rfl], ?_, ?_, ?_, ?_, ?_, ?_, ?_, ?_, ?_, ?_⟩
  · intro hF hB
    unfold collidedNode
    rw [if_neg hnf, if_pos ⟨hF, hB⟩]
    exact Tags.get_set_zero _ _
  · intro hB1 hB2
    have hfb : ¬ (n.tags.get 0 = 'F' ∧ o.tags.get 0 = 'B') := by
      intro h
      rw [hB1] at h
      exact absurd h.1 (by decide)
    unfold collidedNode
    rw [if_neg hnf, if_neg hfb, if_pos ⟨hB1, hB2⟩]
    exact Tags.get_set_zero _ _
  · intro hfb hbb
    unfold collidedNode
    rw [if_neg hnf, if_neg hfb, if_neg hbb]
  all_goals
    unfold collidedNode
    split
    · first
      | exact fun i _ => rfl
      | rfl
    · split
      · first
        | exact fun i hi => Tags.get_set_ne _ _ hi
        | rfl
      · split
        · first
          | exact fun i hi => Tags.get_set_ne _ _ hi
          | rfl
        · first
          | exact fun i _ => rfl
          | rfl

theorem demoState2_near :
    demoLib.Vector3Distance (demoNode 0 (some 1) 'B').position
      (demoNode (1 / 4) (some 0) 'B').position < 1 / 2 := by
  simp only [demoLib, demoNode]
  norm_num [abs_of_nonneg]

theorem ExampleCollision_rule_witness :
    ∃ m' n', ExampleCollision demoLib (some 0) (some 1) demoState2.mem = some m' ∧
      m'.out = demoState2.mem.out ∧ m'.deref (some 0) = some n' ∧ n'.tags.get 0 = 'F' ∧
      m'.deref (some 1) = demoState2.mem.deref (some 1) :=
  let ⟨m', h1, _, h3⟩ :=
    ExampleCollision_rule demoLib demoState2.mem (some 0) (some 1) (demoNode 0 (some 1) 'B')
      (demoNode (1 / 4) (some 0) 'B') rfl rfl
  let ⟨hout, hother, n', hn', _, hbb, _⟩ := h3 demoState2_near
  ⟨m', n', h1, hout, hn', hbb (by decide) (by decide), hother (some 1) (by decide)⟩

/-! ## C11, C12, C14 -/

/-- C11: `ExampleCollision(node, other)` on allocated entities returns and changes no cell but
`node`, so every field of a distinct `other` is as before, and in `node` it leaves the position
and everything else except `tags[0]` alone. So a `CheckCollisions` pass over a ring whose
entities all have `ExampleCollision` as reaction returns with position, bounding box and every
field but `tags[0]` of every entity unchanged; its effect is that of its calls made in turn,
each call changes no cell but the one of its first argument, and an entity that is the first
argument of no call is untouched. -/
theorem ExampleCollision_self_directed (lib : Raylib) (fuel : Nat) (head : Ptr) (xs : List Nat)
    (s : State) (m : Mem) (node other : Ptr) (n o : Node)
    (hn : m.deref node = some n) (ho : m.deref other = some o)
    (hring : Ring s.mem head xs)
    (huse : ∀ x ∈ xs, ∀ k, s.mem.deref (some x) = some k →
      k.onCollision = some fnExampleCollision)
    (hfuel : xs.length ≤ fuel) :
    (∃ m' n', ExampleCollision lib node other m = some m' ∧ m'.deref node = some n' ∧
      n'.position = n.position ∧ n'.exceptTag0 = n.exceptTag0 ∧
      (∀ q : Ptr, q ≠ node → m'.deref q = m.deref q) ∧
      (other ≠ node → m'.deref other = some o)) ∧
    ∃ s' new, CheckCollisions lib (exampleHooks lib) fuel head s = some s' ∧
      s'.calls = s.calls ++ new ∧
      (∀ (q : Ptr) (k : Node), s.mem.deref q = some k →
        ∃ k', s'.mem.deref q = some k' ∧ k'.position = k.position ∧
          k'.boundingBox = k.boundingBox ∧ k'.exceptTag0 = k.exceptTag0) ∧
      runCalls (exampleHooks lib) new s.mem = some s'.mem ∧
      (∀ q : Ptr, (∀ c ∈ new, c.node ≠ q) → s'.mem.deref q = s.mem.deref q) ∧
      ∀ (pre post : List Call) (c : Call) (m1 m2 : Mem), new = pre ++ c :: post →
        runCalls (exampleHooks lib) pre s.mem = some m1 →
        runCall (exampleHooks lib) c m1 = some m2 →
        ∀ q : Ptr, q ≠ c.node → m2.deref q = m1.deref q := by
  constructor
  · obtain ⟨m', hm', _, _, _, hd⟩ := ExampleCollision_spec lib hn ho
    refine ⟨m', collidedNode lib n o, hm', by rw [hd, if_pos rfl],
      (position_of_exceptTag0 (collidedNode_exceptTag0 lib n o)).1,
      collidedNode_exceptTag0 lib n o, fun q hq => by rw [hd, if_neg hq], ?_⟩
    intro hne
    rw [hd, if_neg hne]
    exact ho
  · have hok : ∀ x ∈ xs, ∀ k f, s.mem.deref (some x) = some k → k.onCollision = some f →
        (exampleHooks lib).CollisionOk f := by
      intro x hx k f hk hf
      rw [huse x hx k hk] at hf
      rw [← Option.some.inj hf]
      exact exampleHooks_collisionOk lib
    obtain ⟨s', hrun, _, hcalls, hmem⟩ :=
      CheckCollisions_ring_run lib (exampleHooks lib) fuel hring hok hfuel
    refine ⟨s', collisionCalls lib s.mem xs, hrun, hcalls, ?_, hmem,
      fun q hq => runCalls_example_frame _ _ _ hmem q hq, ?_⟩
    · intro q k hk
      obtain ⟨k', hk', hI⟩ := runCalls_example_invariant_of
        (fun j => j.exceptTag0 = k.exceptTag0) (collisionCalls lib s.mem xs) s.mem s'.mem
        (fun c hc j j' hstep hj =>
          (hstep.exceptTag0 (collisionCalls_shape lib s.mem xs c hc).1).trans hj)
        hmem q k hk rfl
      exact ⟨k', hk', (position_of_exceptTag0 hI).1, (position_of_exceptTag0 hI).2.1, hI⟩
    · intro pre post c m1 m2 _ _ hc q hq
      obtain ⟨_, _, _, _, hd, _⟩ := runCall_example hc
      rw [hd, if_neg hq]

theorem ExampleCollision_self_directed_witness :
    Ring demoState2.mem (some 0) [0, 1] ∧
    ∃ s' new, CheckCollisions demoLib (exampleHooks demoLib) 2 (some 0) demoState2 = some s' ∧
      s'.calls = demoState2.calls ++ new ∧
      (∀ (q : Ptr) (k : Node), demoState2.mem.deref q = some k →
        ∃ k', s'.mem.deref q = some k' ∧ k'.position = k.position ∧
          k'.boundingBox = k.boundingBox ∧ k'.exceptTag0 = k.exceptTag0) ∧
      runCalls (exampleHooks demoLib) new demoState2.mem = some s'.mem :=
  ⟨by decide,
    let ⟨s', new, h1, h2, h3, h4, _⟩ :=
      (ExampleCollision_self_directed demoLib 2 (some 0) [0, 1] demoState2 demoState2.mem
        (some 0) (some 1) (demoNode 0 (some 1) 'B') (demoNode (1 / 4) (some 0) 'B') rfl rfl
        (by decide)
        (by
          intro x hx k hk
          simp only [List.mem_cons, List.mem_singleton, List.not_mem_nil, or_false] at hx
          rcases hx with rfl | rfl
          · have h0 : demoState2.mem.deref (some 0) = some (demoNode 0 (some 1) 'B') := rfl
            rw [h0] at hk
            rw [← Option.some.inj hk]; rfl
          · have h1 : demoState2.mem.deref (some 1) = some (demoNode (1 / 4) (some 0) 'B') := rfl
            rw [h1] at hk
            rw [← Option.some.inj hk]; rfl)
        (by decide)).2
    ⟨s', new, h1, h2, h3, h4⟩⟩

/-- C12: on a well-formed ring of `n` entities `FreeList` returns; what it adds to the output
is, for each entity in traversal order from `head`, `UnloadModel` on the model of the entity
followed by `free` on the entity: `n` calls of each kind. Afterwards the cells of the ring are
freed and the other cells are as before. -/
theorem FreeList_releases_each_once (fuel : Nat) (head : Ptr) (xs : List Nat) (m : Mem)
    (hring : Ring m head xs) (hfuel : xs.length ≤ fuel) :
    ∃ m' new ns, FreeList fuel head m = some m' ∧ m'.out = m.out ++ new ∧
      xs.map (fun x => m.deref (some x)) = ns.map some ∧
      new = (xs.zip ns).flatMap
        (fun p => [Output.UnloadModel p.2.model, Output.free (some p.1)]) ∧
      (new.filter Output.isUnloadModel).length = xs.length ∧
      (new.filter Output.isFree).length = xs.length ∧
      new.length = 2 * xs.length ∧
      (∀ x ∈ xs, m'.deref (some x) = none) ∧
      (∀ q : Ptr, q ∉ xs.map some → m'.deref q = m.deref q) ∧
      traversal m fuel head = some (xs.map some) := by
  obtain ⟨m', hrun, hout, _, hd⟩ := FreeList_ring fuel hring hfuel
  obtain ⟨h1, h2, ns, hns, hshape⟩ := freeOutputs_live m xs hring.mem_live
  refine ⟨m', freeOutputs m xs, ns, hrun, hout, hns, hshape, h1, h2,
    freeOutputs_length m xs hring.mem_live, ?_, ?_, traversal_ring hring hfuel⟩
  · intro x hx
    rw [hd, if_pos (List.mem_map_of_mem _ hx)]
  · intro q hq
    rw [hd, if_neg hq]

theorem FreeList_releases_each_once_witness :
    Ring demoState2.mem (some 0) [0, 1] ∧
    ∃ m', FreeList 2 (some 0) demoState2.mem = some m' ∧
      m'.out = demoState2.mem.out ++ [Output.UnloadModel 7, Output.free (some 0),
        Output.UnloadModel 7, Output.free (some 1)] ∧
      m'.deref (some 0) = none ∧ m'.deref (some 1) = none :=
  ⟨by decide,
    let ⟨m', new, ns, h1, h2, h3, h4, _, _, _, h8, _⟩ :=
      FreeList_releases_each_once 2 (some 0) [0, 1] demoState2.mem (by decide) (by decide)
    have hns : ns = [demoNode 0 (some 1) 'B', demoNode (1 / 4) (some 0) 'B'] := by
      have e : List.map (fun x => demoState2.mem.deref (some x)) [0, 1] =
          List.map some [demoNode 0 (some 1) 'B', demoNode (1 / 4) (some 0) 'B'] := rfl
      rw [e] at h3
      exact (List.map_injective_iff.2 (Option.some_injective _) h3).symm
    ⟨m', h1, by rw [h2, h4, hns]; rfl, h8 0 (by decide), h8 1 (by decide)⟩⟩

/-- C14: with `head = NULL` the four walks return at once, whatever the fuel, the hooks and
the memory: `FreeList` and `UpdateBoundingBoxes` return the memory they got, `RenderModels`
and `CheckCollisions` the state they got, so nothing is released, freed or drawn, no hook is
invoked and no cell is read. -/
theorem empty_ring_is_noop (lib : Raylib) (hooks : Hooks) (fuel : Nat) (m : Mem) (s : State) :
    FreeList fuel none m = some m ∧
    RenderModels hooks fuel none s = some s ∧
    UpdateBoundingBoxes lib fuel none m = some m ∧
    CheckCollisions lib hooks fuel none s = some s :=
  ⟨rfl, rfl, rfl, rfl⟩

/-! ## C18: the frame leaves the topology alone -/

theorem filter_isTick_collisions (cs : List Call) (h : ∀ c ∈ cs, c.isCollision = true) :
    cs.filter Call.isTick = [] := by
  rw [List.filter_eq_nil_iff]
  intro c hc ht
  have := h c hc
  cases c <;> simp [Call.isTick, Call.isCollision] at ht this

theorem filter_isTick_tickCalls (xs : List Nat) : (tickCalls xs).filter Call.isTick = tickCalls xs := by
  rw [List.filter_eq_self]
  intro c hc
  unfold tickCalls at hc
  obtain ⟨x, _, rfl⟩ := List.mem_map.1 hc
  rfl

/-- C18: one frame (`UpdateBoundingBoxes`, `CheckCollisions`, `RenderModels`) on a well-formed
ring whose entities use the example hooks returns; the ring is the same ring from the same
`head`, traversed in the same order; `next`, model, `tick` and `onCollision` of every cell are
unchanged, no cell is allocated or freed, and the cells outside the ring are untouched, so only
position, tags and bounding box of the entities can differ; among the calls made, the ticks
are one per entity, in traversal order. -/
theorem frame_keeps_topology (lib : Raylib) (fuel : Nat) (head : Ptr) (xs : List Nat)
    (s : State) (hring : Ring s.mem head xs) (huse : UsesExampleHooks s.mem xs)
    (hfuel : xs.length ≤ fuel) :
    ∃ s' new, frame lib (exampleHooks lib) fuel head s = some s' ∧
      Ring s'.mem head xs ∧
      traversal s.mem fuel head = some (xs.map some) ∧
      traversal s'.mem fuel head = some (xs.map some) ∧
      (∀ (q : Ptr) (n : Node), s.mem.deref q = some n →
        ∃ n', s'.mem.deref q = some n' ∧ n'.next = n.next ∧ n'.model = n.model ∧
          n'.tick = n.tick ∧ n'.onCollision = n.onCollision) ∧
      (∀ q : Ptr, s.mem.deref q = none → s'.mem.deref q = none) ∧
      s'.mem.heap.length = s.mem.heap.length ∧
      (∀ q : Ptr, q ∉ xs.map some → s'.mem.deref q = s.mem.deref q) ∧
      s'.calls = s.calls ++ new ∧
      new.filter Call.isTick = xs.map (fun x => Call.tick fnExampleTick (some x)) := by
  obtain ⟨s', collisions, hframe, hk, hcalls, hcoll, hlen, _, hout⟩ :=
    frame_example lib fuel hring huse hfuel
  have hring' : Ring s'.mem head xs := Ring.of_keeps hk.next_of_topology hring
  refine ⟨s', collisions ++ tickCalls xs, hframe, hring', traversal_ring hring hfuel,
    traversal_ring hring' hfuel, ?_, ?_, hlen, hout, by rw [hcalls, List.append_assoc], ?_⟩
  · intro q n hn
    obtain ⟨n', hn', hpart⟩ := hk.get hn
    simp only [Node.topology, Prod.mk.injEq] at hpart
    exact ⟨n', hn', hpart.1, hpart.2.1, hpart.2.2.1, hpart.2.2.2⟩
  · intro q hq
    have := hk.isSome q
    rw [hq] at this
    cases hq' : s'.mem.deref q with
    | none => rfl
    | some n' => rw [hq'] at this; cases this
  · rw [List.filter_append, filter_isTick_collisions collisions hcoll,
      filter_isTick_tickCalls, List.nil_append]
    rfl

theorem demoState2_uses : UsesExampleHooks demoState2.mem [0, 1] := by
  intro x hx n hn
  simp only [List.mem_cons, List.mem_singleton, List.not_mem_nil, or_false] at hx
  rcases hx with rfl | rfl
  · have h0 : demoState2.mem.deref (some 0) = some (demoNode 0 (some 1) 'B') := rfl
    rw [h0] at hn
    rw [← Option.some.inj hn]
    exact ⟨rfl, rfl⟩
  · have h1 : demoState2.mem.deref (some 1) = some (demoNode (1 / 4) (some 0) 'B') := rfl
    rw [h1] at hn
    rw [← Option.some.inj hn]
    exact ⟨rfl, rfl⟩

theorem frame_keeps_topology_witness :
    Ring demoState2.mem (some 0) [0, 1] ∧
    ∃ s' new, frame demoLib (exampleHooks demoLib) 2 (some 0) demoState2 = some s' ∧
      Ring s'.mem (some 0) [0, 1] ∧
      traversal s'.mem 2 (some 0) = some [some 0, some 1] ∧
      s'.calls = demoState2.calls ++ new ∧
      new.filter Call.isTick = [Call.tick fnExampleTick (some 0), Call.tick fnExampleTick (some 1)] :=
  ⟨by decide,
    let ⟨s', new, h1, h2, _, h4, _, _, _, _, h9, h10⟩ :=
      frame_keeps_topology demoLib 2 (some 0) [0, 1] demoState2 (by decide) demoState2_uses
        (by decide)
    ⟨s', new, h1, h2, h4, h9, h10⟩⟩

/-! ## C19: one pass over a ring of two entities -/

theorem Ring.two {m : Mem} {H S : Nat} (h : Ring m (some H) [H, S]) :
    H ≠ S ∧ (∃ nH, m.deref (some H) = some nH ∧ nH.next = some S) ∧
      ∃ nS, m.deref (some S) = some nS ∧ nS.next = some H := by
  obtain ⟨hnd, _, hseg⟩ := h
  have hne : H ≠ S := by
    intro e
    rw [e] at hnd
    simp at hnd
  rw [Seg.cons_iff] at hseg
  obtain ⟨_, nH, hnH, hseg⟩ := hseg
  rw [Seg.singleton_iff] at hseg
  obtain ⟨hnext, nS, hnS, hnextS⟩ := hseg
  exact ⟨hne, ⟨nH, hnH, hnext⟩, ⟨nS, hnS, hnextS⟩⟩

/-- A ring of two entities is a ring from either of them. -/
theorem Ring.swap_two {m : Mem} {H S : Nat} (h : Ring m (some H) [H, S]) :
    Ring m (some S) [S, H] := by
  obtain ⟨hne, ⟨nH, hnH, hnextH⟩, ⟨nS, hnS, hnextS⟩⟩ := h.two
  refine ⟨by simp [Ne.symm hne], rfl, ?_⟩
  rw [Seg.cons_iff]
  refine ⟨rfl, nS, hnS, ?_⟩
  rw [Seg.singleton_iff]
  exact ⟨hnextS, nH, hnH, hnextH⟩

/-- The pass over a ring of two entities with `ExampleCollision` and intersecting boxes: the
reaction of the head runs first, against the second entity as it was, then the reaction of the
second entity, against the head as the first call left it. -/
theorem two_ring_pass (lib : Raylib) (fuel : Nat) {H S : Nat} {s : State} {nH nS : Node}
    (hring : Ring s.mem (some H) [H, S])
    (hnH : s.mem.deref (some H) = some nH) (hnS : s.mem.deref (some S) = some nS)
    (hfH : nH.onCollision = some fnExampleCollision)
    (hfS : nS.onCollision = some fnExampleCollision)
    (hboxHS : lib.CheckCollisionBoxes nH.boundingBox nS.boundingBox = true)
    (hboxSH : lib.CheckCollisionBoxes nS.boundingBox nH.boundingBox = true)
    (hfuel : 2 ≤ fuel) :
    ∃ s', CheckCollisions lib (exampleHooks lib) fuel (some H) s = some s' ∧
      s'.mem.deref (some H) = some (collidedNode lib nH nS) ∧
      s'.mem.deref (some S) = some (collidedNode lib nS (collidedNode lib nH nS)) ∧
      s'.calls = s.calls ++ [Call.onCollision fnExampleCollision (some H) (some S),
        Call.onCollision fnExampleCollision (some S) (some H)] := by
  have hne : H ≠ S := hring.two.1
  have hok : ∀ x ∈ [H, S], ∀ n f, s.mem.deref (some x) = some n → n.onCollision = some f →
      (exampleHooks lib).CollisionOk f := by
    intro x hx n f hn hf
    have hf' : f = fnExampleCollision := by
      simp only [List.mem_cons, List.mem_singleton, List.not_mem_nil, or_false] at hx
      rcases hx with rfl | rfl
      · rw [hnH] at hn
        rw [← Option.some.inj hn, hfH] at hf
        exact (Option.some.inj hf).symm
      · rw [hnS] at hn
        rw [← Option.some.inj hn, hfS] at hf
        exact (Option.some.inj hf).symm
    rw [hf']
    exact exampleHooks_collisionOk lib
  obtain ⟨s', hrun, _, hcalls, hmem⟩ :=
    CheckCollisions_ring_run lib (exampleHooks lib) fuel hring hok (by simpa using hfuel)
  have hlist : collisionCalls lib s.mem [H, S] =
      [Call.onCollision fnExampleCollision (some H) (some S),
        Call.onCollision fnExampleCollision (some S) (some H)] := by
    have h1 : collisionCall lib s.mem H H = none := by simp [collisionCall]
    have h2 : collisionCall lib s.mem S S = none := by simp [collisionCall]
    have h3 := collisionCall_of_collide hne hnH hnS hboxHS hfH
    have h4 := collisionCall_of_collide (Ne.symm hne) hnS hnH hboxSH hfS
    simp [collisionCalls, List.flatMap_cons, List.filterMap_cons, h1, h2, h3, h4]
  rw [hlist] at hcalls hmem
  obtain ⟨m1, hm1, _, _, _, hd1⟩ := ExampleCollision_spec lib hnH hnS
  have hS1 : m1.deref (some S) = some nS := by
    rw [hd1, if_neg (by simpa using Ne.symm hne)]; exact hnS
  have hH1 : m1.deref (some H) = some (collidedNode lib nH nS) := by
    rw [hd1, if_pos rfl]
  obtain ⟨m2, hm2, _, _, _, hd2⟩ := ExampleCollision_spec lib hS1 hH1
  have hmem' : runCalls (exampleHooks lib)
      [Call.onCollision fnExampleCollision (some H) (some S),
        Call.onCollision fnExampleCollision (some S) (some H)] s.mem = some m2 := by
    simp only [runCalls, runCall, exampleHooks, if_true, hm1, hm2]
  rw [hmem'] at hmem
  have e : m2 = s'.mem := Option.some.inj hmem
  refine ⟨s', hrun, ?_, ?_, hcalls⟩
  · rw [← e, hd2, if_neg (by simpa using hne)]; exact hH1
  · rw [← e, hd2, if_pos rfl]

/-- The byte `tags[0]` after `ExampleCollision` within the threshold. -/
theorem collidedNode_tag (lib : Raylib) {n o : Node}
    (hnear : lib.Vector3Distance n.position o.position < 1 / 2) :
    (collidedNode lib n o).tags.get 0 =
      if n.tags.get 0 = 'F' ∧ o.tags.get 0 = 'B' then 'B'
      else if n.tags.get 0 = 'B' ∧ o.tags.get 0 = 'B' then 'F'
      else n.tags.get 0 := by
  unfold collidedNode
  rw [if_neg (not_le.2 hnear)]
  split
  · exact Tags.get_set_zero _ _
  · split
    · exact Tags.get_set_zero _ _
    · rfl

/-- The tags of a ring of two after one pass, from the tags before. -/
theorem two_ring_tags (lib : Raylib) {nH nS : Node}
    (hnearHS : lib.Vector3Distance nH.position nS.position < 1 / 2)
    (hnearSH : lib.Vector3Distance nS.position nH.position < 1 / 2) :
    (nH.tags.get 0 = 'B' → nS.tags.get 0 = 'B' →
      (collidedNode lib nH nS).tags.get 0 = 'F' ∧
        (collidedNode lib nS (collidedNode lib nH nS)).tags.get 0 = 'B') ∧
    (nH.tags.get 0 = 'F' → nS.tags.get 0 = 'B' →
      (collidedNode lib nH nS).tags.get 0 = 'B' ∧
        (collidedNode lib nS (collidedNode lib nH nS)).tags.get 0 = 'F') ∧
    (nH.tags.get 0 = 'B' → nS.tags.get 0 = 'F' →
      (collidedNode lib nH nS).tags.get 0 = 'B' ∧
        (collidedNode lib nS (collidedNode lib nH nS)).tags.get 0 = 'B') ∧
    (nH.tags.get 0 = 'F' → nS.tags.get 0 = 'F' →
      (collidedNode lib nH nS).tags.get 0 = 'F' ∧
        (collidedNode lib nS (collidedNode lib nH nS)).tags.get 0 = 'F') := by
  have hpos : (collidedNode lib nH nS).position = nH.position :=
    (position_of_exceptTag0 (collidedNode_exceptTag0 lib nH nS)).1
  have hnearSH' : lib.Vector3Distance nS.position (collidedNode lib nH nS).position < 1 / 2 := by
    rw [hpos]; exact hnearSH
  have hH := collidedNode_tag lib hnearHS
  have hS := collidedNode_tag lib hnearSH'
  refine ⟨?_, ?_, ?_, ?_⟩ <;> intro h1 h2 <;> rw [hS, hH, h1, h2] <;> decide

/-- C19: one `CheckCollisions` pass on a ring of two entities (head `H`, second `S`) that have
`ExampleCollision` as reaction, intersecting boxes and positions closer than `0.5` returns, and
the tags `(H, S)` go from `(B, B)` to `(F, B)`, from `(F, B)` to `(B, F)`, from `(B, F)` to
`(B, B)` and from `(F, F)` to `(F, F)`. The result depends on the order: with tags `(F, B)` the
entity `S` ends with `F` when the pass starts at `H` and with `B` when it starts at `S`. -/
theorem CheckCollisions_two_entity_outcome (lib : Raylib) (fuel : Nat) (H S : Nat) (s : State)
    (nH nS : Node) (hring : Ring s.mem (some H) [H, S])
    (hnH : s.mem.deref (some H) = some nH) (hnS : s.mem.deref (some S) = some nS)
    (hfH : nH.onCollision = some fnExampleCollision)
    (hfS : nS.onCollision = some fnExampleCollision)
    (hboxHS : lib.CheckCollisionBoxes nH.boundingBox nS.boundingBox = true)
    (hboxSH : lib.CheckCollisionBoxes nS.boundingBox nH.boundingBox = true)
    (hnearHS : lib.Vector3Distance nH.position nS.position < 1 / 2)
    (hnearSH : lib.Vector3Distance nS.position nH.position < 1 / 2)
    (hfuel : 2 ≤ fuel) :
    (∃ s' H' S', CheckCollisions lib (exampleHooks lib) fuel (some H) s = some s' ∧
      s'.mem.deref (some H) = some H' ∧ s'.mem.deref (some S) = some S' ∧
      (nH.tags.get 0 = 'B' → nS.tags.get 0 = 'B' →
        H'.tags.get 0 = 'F' ∧ S'.tags.get 0 = 'B') ∧
      (nH.tags.get 0 = 'F' → nS.tags.get 0 = 'B' →
        H'.tags.get 0 = 'B' ∧ S'.tags.get 0 = 'F') ∧
      (nH.tags.get 0 = 'B' → nS.tags.get 0 = 'F' →
        H'.tags.get 0 = 'B' ∧ S'.tags.get 0 = 'B') ∧
      (nH.tags.get 0 = 'F' → nS.tags.get 0 = 'F' →
        H'.tags.get 0 = 'F' ∧ S'.tags.get 0 = 'F')) ∧
    (nH.tags.get 0 = 'F' → nS.tags.get 0 = 'B' →
      ∃ s1 s2 S1 S2, CheckCollisions lib (exampleHooks lib) fuel (some H) s = some s1 ∧
        CheckCollisions lib (exampleHooks lib) fuel (some S) s = some s2 ∧
        s1.mem.deref (some S) = some S1 ∧ s2.mem.deref (some S) = some S2 ∧
        S1.tags.get 0 = 'F' ∧ S2.tags.get 0 = 'B') := by
  obtain ⟨s1, hrun1, hH1, hS1, _⟩ :=
    two_ring_pass lib fuel hring hnH hnS hfH hfS hboxHS hboxSH hfuel
  have htags := two_ring_tags lib hnearHS hnearSH
  refine ⟨⟨s1, _, _, hrun1, hH1, hS1, htags⟩, ?_⟩
  intro hF hB
  obtain ⟨s2, hrun2, hS2, _, _⟩ :=
    two_ring_pass lib fuel hring.swap_two hnS hnH hfS hfH hboxSH hboxHS hfuel
  refine ⟨s1, s2, _, _, hrun1, hrun2, hS1, hS2, (htags.2.1 hF hB).2, ?_⟩
  exact ((two_ring_tags lib hnearSH hnearHS).2.2.1 hB hF).1

theorem demoState2_near_rev :
    demoLib.Vector3Distance (demoNode (1 / 4) (some 0) 'B').position
      (demoNode 0 (some 1) 'B').position < 1 / 2 := by
  simp only [demoLib, demoNode]
  norm_num [abs_of_nonneg]

theorem CheckCollisions_two_entity_outcome_witness :
    Ring demoState2.mem (some 0) [0, 1] ∧
    ∃ s' H' S', CheckCollisions demoLib (exampleHooks demoLib) 2 (some 0) demoState2 = some s' ∧
      s'.mem.deref (some 0) = some H' ∧ s'.mem.deref (some 1) = some S' ∧
      H'.tags.get 0 = 'F' ∧ S'.tags.get 0 = 'B' :=
  ⟨by decide,
    let ⟨s', H', S', h1, h2, h3, hBB, _⟩ :=
      (CheckCollisions_two_entity_outcome demoLib 2 0 1 demoState2 (demoNode 0 (some 1) 'B')
        (demoNode (1 / 4) (some 0) 'B') (by decide) rfl rfl rfl rfl demoState2_boxes.1
        demoState2_boxes.2 demoState2_near demoState2_near_rev (by decide)).1
    ⟨s', H', S', h1, h2, h3, hBB (by decide) (by decide)⟩⟩

/-! ## C16, C17, C20: the tick and the tag -/

/-- C16, as stated, fails: the entity spawned at `x = 1/64` gets the tag `'B'`, moves down, and
after 121 ticks with nothing in between it is at `x = -3155561 / 2^20`, about `-3.0094`,
outside `[-3, 3]`. -/
theorem oscillation_leaves_interval :
    ∃ s' m' n', CreateNode demoLib (exampleHooks demoLib) 7 ⟨1 / 64, 0, 0⟩
        (some fnExampleBeginPlay) (some fnExampleTick) (some fnExampleCollision) emptyState =
          some (some 0, s') ∧
      tickN 121 (some 0) s'.mem = some m' ∧ m'.deref (some 0) = some n' ∧
      n'.position.x = -(3155561 / 1048576) ∧ ¬ (-3 ≤ n'.position.x ∧ n'.position.x ≤ 3) := by
  obtain ⟨s', hcreate, hn0⟩ := CreateNode_example demoLib 7 ⟨1 / 64, 0, 0⟩ (some fnExampleTick)
    (some fnExampleCollision) emptyState
  obtain ⟨m', hm', hn', _, _⟩ := tickN_spec 121 s'.mem _ _ hn0
  have hx' : (tickedNode^[121] (beganNode (freshNode demoLib 7 ⟨1 / 64, 0, 0⟩
      (some fnExampleTick) (some fnExampleCollision)))).position.x = -(3155561 / 1048576) := by
    decide!
  refine ⟨s', m', _, hcreate, hm', hn', hx', ?_⟩
  rw [hx']
  norm_num

/-- C16, amended: an entity spawned with `ExampleBeginPlay` at `x` in `[-3, 3]` and then only
ticked has, after every number of ticks, `position.x` in `[-bandMax, bandMax]`, where `bandMax`
is the binary32 sum `3.0f + 0.025f`, and the tag `'F'` or `'B'`; the next tick changes the tag
exactly when it starts with `x < -3` or `x > 3`, and then brings `x` back into `[-3, 3]`; and
an entity spawned at the same position has the same `x` and tag after the same number of
ticks. -/
theorem tick_oscillation (lib : Raylib) (model model2 : Model) (position : Vector3)
    (tick onCollision tick2 onCollision2 : FnPtr) (s s2 : State) (k : Nat)
    (hlo : -3 ≤ position.x) (hhi : position.x ≤ 3) :
    ∃ s' m' n', CreateNode lib (exampleHooks lib) model position (some fnExampleBeginPlay) tick
        onCollision s = some (some s.mem.heap.length, s') ∧
      tickN k (some s.mem.heap.length) s'.mem = some m' ∧
      m'.deref (some s.mem.heap.length) = some n' ∧
      inBand n'.position.x ∧ (n'.tags.get 0 = 'F' ∨ n'.tags.get 0 = 'B') ∧
      (∃ m'' n'', ExampleTick (some s.mem.heap.length) m' = some m'' ∧
        m''.deref (some s.mem.heap.length) = some n'' ∧
        (n''.tags.get 0 ≠ n'.tags.get 0 ↔ (n'.position.x < -3 ∨ 3 < n'.position.x)) ∧
        ((n'.position.x < -3 ∨ 3 < n'.position.x) →
          -3 ≤ n''.position.x ∧ n''.position.x ≤ 3)) ∧
      ∃ t' m2 n2, CreateNode lib (exampleHooks lib) model2 position (some fnExampleBeginPlay)
          tick2 onCollision2 s2 = some (some s2.mem.heap.length, t') ∧
        tickN k (some s2.mem.heap.length) t'.mem = some m2 ∧
        m2.deref (some s2.mem.heap.length) = some n2 ∧
        n2.position.x = n'.position.x ∧ n2.tags.get 0 = n'.tags.get 0 := by
  obtain ⟨s', hcreate, hn0⟩ := CreateNode_example lib model position tick onCollision s
  obtain ⟨m', hm', hn', _, _⟩ := tickN_spec k s'.mem _ _ hn0
  have hcourse0 : (beganNode (freshNode lib model position tick onCollision)).onCourse :=
    onCourse_began hlo hhi
  have hcourse := onCourse_iterate hcourse0 k
  obtain ⟨m'', hm'', _, _, hd''⟩ := ExampleTick_spec hn'
  obtain ⟨t', hcreate2, hn02⟩ := CreateNode_example lib model2 position tick2 onCollision2 s2
  obtain ⟨m2, hm2, hn2, _, _⟩ := tickN_spec k t'.mem _ _ hn02
  have hx0 : (beganNode (freshNode lib model2 position tick2 onCollision2)).position.x =
      (beganNode (freshNode lib model position tick onCollision)).position.x := rfl
  have ht0 : (beganNode (freshNode lib model2 position tick2 onCollision2)).tags.get 0 =
      (beganNode (freshNode lib model position tick onCollision)).tags.get 0 := by
    rw [beganNode, beganNode, setTag0, setTag0]
    exact (Tags.get_set_zero _ _).trans (Tags.get_set_zero _ _).symm
  have hsame := iterate_same hx0 ht0 k
  exact ⟨s', m', _, hcreate, hm', hn', hcourse.1, hcourse.2.1,
    ⟨m'', _, hm'', by rw [hd'', if_pos rfl], (onCourse_flip hcourse).1, (onCourse_flip hcourse).2⟩,
    t', m2, _, hcreate2, hm2, hn2, hsame.1, hsame.2⟩

theorem tick_oscillation_witness :
    ∃ s' m' n', CreateNode demoLib (exampleHooks demoLib) 7 ⟨1 / 64, 0, 0⟩
        (some fnExampleBeginPlay) (some fnExampleTick) (some fnExampleCollision) emptyState =
          some (some 0, s') ∧
      tickN 121 (some 0) s'.mem = some m' ∧ m'.deref (some 0) = some n' ∧
      inBand n'.position.x ∧ (n'.tags.get 0 = 'F' ∨ n'.tags.get 0 = 'B') :=
  let ⟨s', m', n', h1, h2, h3, h4, h5, _⟩ :=
    tick_oscillation demoLib 7 7 ⟨1 / 64, 0, 0⟩ (some fnExampleTick) (some fnExampleCollision)
      (some fnExampleTick) (some fnExampleCollision) emptyState emptyState 121
      (by norm_num) (by norm_num)
  ⟨s', m', n', h1, h2, h3, h4, h5⟩

theorem demoNode_tagOk (x : ℚ) (next : Ptr) : (demoNode x next 'B').TagOk :=
  ⟨Or.inr (Tags.get_set_zero _ _), fun i hi => (Tags.get_set_ne _ _ hi).trans (Tags.get_zero i)⟩

/-- C17: an entity created with `ExampleBeginPlay` has `tags[0]` equal to `'F'` or `'B'` and
the other tag bytes zero; and an entity in that state is still in it after any sequence of
calls of the example hooks on allocated entities, whether the calls are made on it, against it
or on other entities. Such a sequence always returns. -/
theorem tag_state_space (lib : Raylib) (model : Model) (position : Vector3)
    (tick onCollision : FnPtr) (s : State) (cs : List Call) (m : Mem) (q : Ptr) (n : Node)
    (hn : m.deref q = some n) (htag : n.TagOk) (hcs : ∀ c ∈ cs, c.isExample ∧ c.live m) :
    (∃ s' n0, CreateNode lib (exampleHooks lib) model position (some fnExampleBeginPlay) tick
        onCollision s = some (some s.mem.heap.length, s') ∧
      s'.mem.deref (some s.mem.heap.length) = some n0 ∧
      (n0.tags.get 0 = 'F' ∨ n0.tags.get 0 = 'B') ∧
      ∀ i, i ≠ 0 → n0.tags.get i = Char.ofNat 0) ∧
    ∃ m' n', runCalls (exampleHooks lib) cs m = some m' ∧ m'.deref q = some n' ∧
      (n'.tags.get 0 = 'F' ∨ n'.tags.get 0 = 'B') ∧
      ∀ i, i ≠ 0 → n'.tags.get i = Char.ofNat 0 := by
  constructor
  · obtain ⟨s', hcreate, hn0⟩ := CreateNode_example lib model position tick onCollision s
    have h0 : (beganNode (freshNode lib model position tick onCollision)).TagOk :=
      tagOk_began (fun i _ => Tags.get_zero i)
    exact ⟨s', _, hcreate, hn0, h0.1, h0.2⟩
  · obtain ⟨m', hm'⟩ := runCalls_example_total lib cs m hcs
    obtain ⟨n', hn', hok⟩ := runCalls_example_invariant Node.TagOk
      (fun _ _ hstep h => tagOk_step hstep h) cs m m' hm' q n hn htag
    exact ⟨m', n', hm', hn', hok.1, hok.2⟩

theorem tag_state_space_witness :
    ∃ m' n', runCalls (exampleHooks demoLib)
        [Call.tick fnExampleTick (some 1), Call.onCollision fnExampleCollision (some 0) (some 1),
          Call.onCollision fnExampleCollision (some 1) (some 0), Call.tick fnExampleTick (some 0)]
        demoState2.mem = some m' ∧
      m'.deref (some 0) = some n' ∧ (n'.tags.get 0 = 'F' ∨ n'.tags.get 0 = 'B') ∧
      ∀ i, i ≠ 0 → n'.tags.get i = Char.ofNat 0 :=
  (tag_state_space demoLib 7 ⟨0, 0, 0⟩ (some fnExampleTick) (some fnExampleCollision) emptyState
    [Call.tick fnExampleTick (some 1), Call.onCollision fnExampleCollision (some 0) (some 1),
      Call.onCollision fnExampleCollision (some 1) (some 0), Call.tick fnExampleTick (some 0)]
    demoState2.mem (some 0) (demoNode 0 (some 1) 'B') rfl (demoNode_tagOk 0 (some 1))
    (by
      intro c hc
      simp only [List.mem_cons, List.mem_singleton, List.not_mem_nil, or_false] at hc
      rcases hc with rfl | rfl | rfl | rfl
      · exact ⟨rfl, rfl⟩
      · exact ⟨rfl, rfl, rfl⟩
      · exact ⟨rfl, rfl, rfl⟩
      · exact ⟨rfl, rfl⟩)).2

theorem boxCurrent_refreshed (lib : Raylib) (n : Node) : (Node.refreshed lib n).boxCurrent lib :=
  ⟨rfl, rfl⟩

theorem boxCurrent_of_exceptTag0 {lib : Raylib} {n n' : Node} (h : n'.exceptTag0 = n.exceptTag0)
    (hn : n.boxCurrent lib) : n'.boxCurrent lib := by
  obtain ⟨hpos, hbox, hmodel⟩ := position_of_exceptTag0 h
  unfold Node.boxCurrent at hn ⊢
  rw [hpos, hbox, hmodel]
  exact hn

/-- A tick leaves the box of the position it started from: after the tick a box that was
current is current only if the tick did not move the entity. -/
theorem boxCurrent_ticked {lib : Raylib} {n : Node} (hn : n.boxCurrent lib) :
    (tickedNode n).boxCurrent lib ↔ (tickedNode n).position.x = n.position.x := by
  obtain ⟨hy, hz⟩ := tickedNode_yz n
  constructor
  · intro h
    have h1 := hn.1
    have h2 := h.1
    rw [tickedNode_boundingBox, tickedNode_model, h1] at h2
    have hx := congrArg Vector3.x h2
    simp only [Vector3Add] at hx
    linarith
  · intro hx
    have hpos : (tickedNode n).position = n.position := by
      cases hp : (tickedNode n).position
      cases hq : n.position
      rw [hp] at hx hy hz
      rw [hq] at hx hy hz
      simp only at hx hy hz
      rw [hx, hy, hz]
    unfold Node.boxCurrent
    rw [tickedNode_boundingBox, tickedNode_model, hpos]
    exact hn

/-- The entity `InsertEnd` links into the ring is the one `CreateNode` made, with only `next`
assigned: with `ExampleBeginPlay` it is at the position given and its box is the local box of
its model. -/
theorem InsertEnd_new_node {lib : Raylib} {fuel : Nat} {head head' : Ptr} {s s' : State}
    {model : Model} {position : Vector3} {tick onCollision : FnPtr}
    (h : InsertEnd lib (exampleHooks lib) fuel head model position (some fnExampleBeginPlay) tick
      onCollision s = some (head', s')) :
    ∃ n, s'.mem.deref (some s.mem.heap.length) = some n ∧ n.position = position ∧
      n.boundingBox = lib.GetModelBoundingBox model ∧ n.model = model := by
  obtain ⟨s1, hcreate, hn0⟩ := CreateNode_example lib model position tick onCollision s
  have hfin : ∀ m2 : Mem, Keeps (fun n : Node => (n.position, n.boundingBox, n.model)) s1.mem m2 →
      ∃ n, m2.deref (some s.mem.heap.length) = some n ∧ n.position = position ∧
        n.boundingBox = lib.GetModelBoundingBox model ∧ n.model = model := by
    intro m2 hk
    obtain ⟨n, hn, hpart⟩ := hk.get hn0
    simp only [Prod.mk.injEq] at hpart
    exact ⟨n, hn, hpart.1, hpart.2.1, hpart.2.2⟩
  unfold InsertEnd at h
  rw [hcreate] at h
  simp only at h
  split at h
  · split at h
    · rename_i m2 hmod
      cases h
      have hk : Keeps (fun n : Node => (n.position, n.boundingBox, n.model)) s1.mem m2 :=
        Keeps.modify hmod (fun _ => rfl)
      exact hfin m2 hk
    · cases h
  · split at h
    · cases h
    · split at h
      · cases h
      · rename_i m1 hmod1
        split at h
        · rename_i m2 hmod2
          cases h
          have hk1 : Keeps (fun n : Node => (n.position, n.boundingBox, n.model)) s1.mem m1 :=
            Keeps.modify hmod1 (fun _ => rfl)
          have hk2 : Keeps (fun n : Node => (n.position, n.boundingBox, n.model)) m1 m2 :=
            Keeps.modify hmod2 (fun _ => rfl)
          exact hfin m2 (hk1.trans hk2)
        · cases h

/-- C15, as stated, fails at two points: right after `CreateNode` the entity created at
`(2, 0, 0)` has the untranslated local box of its model, and after `RenderModels` has ticked
the entities of a ring whose boxes were current, the box of the head is the one of the position
before the tick. -/
theorem box_not_always_current :
    (∃ s' n, CreateNode demoLib (exampleHooks demoLib) 7 ⟨2, 0, 0⟩ (some fnExampleBeginPlay)
        (some fnExampleTick) (some fnExampleCollision) emptyState = some (some 0, s') ∧
      s'.mem.deref (some 0) = some n ∧ ¬ n.boxCurrent demoLib) ∧
    ((demoNode 0 (some 1) 'B').boxCurrent demoLib ∧
      (demoNode (1 / 4) (some 0) 'B').boxCurrent demoLib ∧
      demoState2.mem.deref (some 0) = some (demoNode 0 (some 1) 'B') ∧
      demoState2.mem.deref (some 1) = some (demoNode (1 / 4) (some 0) 'B') ∧
      ∃ s' n, RenderModels (exampleHooks demoLib) 2 (some 0) demoState2 = some s' ∧
        s'.mem.deref (some 0) = some n ∧ ¬ n.boxCurrent demoLib) := by
  have hc0 : (demoNode 0 (some 1) 'B').boxCurrent demoLib := by
    simp only [Node.boxCurrent, demoNode, demoLib, Vector3Add]
    constructor <;> norm_num
  have hc1 : (demoNode (1 / 4) (some 0) 'B').boxCurrent demoLib := by
    simp only [Node.boxCurrent, demoNode, demoLib, Vector3Add]
    constructor <;> norm_num
  constructor
  · obtain ⟨s', hcreate, hn0⟩ := CreateNode_example demoLib 7 ⟨2, 0, 0⟩ (some fnExampleTick)
      (some fnExampleCollision) emptyState
    refine ⟨s', _, hcreate, hn0, ?_⟩
    intro h
    have hx := congrArg Vector3.x h.1
    simp only [beganNode, setTag0, freshNode, demoLib, Vector3Add] at hx
    norm_num at hx
  · refine ⟨hc0, hc1, rfl, rfl, ?_⟩
    have hring : Ring demoState2.mem (some 0) [0, 1] := by decide
    obtain ⟨s', hrun, _, _, _, hd⟩ := RenderModels_example demoLib 2 hring
      (fun x hx n hn => (demoState2_uses x hx n hn).1) (by decide)
    have h0 : demoState2.mem.deref (some 0) = some (demoNode 0 (some 1) 'B') := rfl
    have hx : (tickedNode (demoNode 0 (some 1) 'B')).position.x = -c025 := by
      rw [tickedNode_x, tickedNode_tag]
      exact fadd32_zero_down
    refine ⟨s', tickedNode (demoNode 0 (some 1) 'B'), hrun, ?_, fun hcur => ?_⟩
    · rw [hd, if_pos (by decide), h0]
      rfl
    · have := (boxCurrent_ticked hc0).1 hcur
      rw [hx] at this
      have h00 : (demoNode 0 (some 1) 'B').position.x = 0 := rfl
      rw [h00] at this
      unfold c025 at this
      norm_num at this

/-- C15, amended: on a well-formed ring that uses the example hooks, the bounding box of every
entity is the local box of its model moved by its current position after `UpdateBoundingBoxes`
and still after the `CheckCollisions` that follows; after the `RenderModels` that follows, the
box of every entity is still the local box moved by the position the entity had before its
tick, while `position.x` is the binary32 sum of that position and the step, so the box is
current when the tick did not move the entity; and right after `CreateNode` or `InsertEnd`
with `ExampleBeginPlay` the box of the new entity is the untranslated local box of its
model. -/
theorem box_current_when_read (lib : Raylib) (fuel : Nat) (head : Ptr) (xs : List Nat)
    (s : State) (model : Model) (position : Vector3) (tick onCollision : FnPtr) (t : State)
    (hring : Ring s.mem head xs) (huse : UsesExampleHooks s.mem xs) (hfuel : xs.length ≤ fuel) :
    (∃ m1 s2 s3, UpdateBoundingBoxes lib fuel head s.mem = some m1 ∧
      CheckCollisions lib (exampleHooks lib) fuel head { s with mem := m1 } = some s2 ∧
      RenderModels (exampleHooks lib) fuel head s2 = some s3 ∧
      (∀ x ∈ xs, ∃ n, m1.deref (some x) = some n ∧ n.boxCurrent lib) ∧
      (∀ x ∈ xs, ∃ n, s2.mem.deref (some x) = some n ∧ n.boxCurrent lib) ∧
      ∀ x ∈ xs, ∃ n2 n3, s2.mem.deref (some x) = some n2 ∧ s3.mem.deref (some x) = some n3 ∧
        n3.boundingBox = n2.boundingBox ∧
        n3.boundingBox.min = Vector3Add (lib.GetModelBoundingBox n3.model).min n2.position ∧
        n3.boundingBox.max = Vector3Add (lib.GetModelBoundingBox n3.model).max n2.position ∧
        n3.position.x =
          fadd32 n2.position.x (if n3.tags.get 0 = 'F' then c025 else -c025) ∧
        (n3.position.x = n2.position.x → n3.boxCurrent lib)) ∧
    (∃ t' n, CreateNode lib (exampleHooks lib) model position (some fnExampleBeginPlay) tick
        onCollision t = some (some t.mem.heap.length, t') ∧
      t'.mem.deref (some t.mem.heap.length) = some n ∧
      n.boundingBox = lib.GetModelBoundingBox model ∧ n.position = position) ∧
    ∃ head' s' n, InsertEnd lib (exampleHooks lib) fuel head model position
        (some fnExampleBeginPlay) tick onCollision s = some (head', s') ∧
      s'.mem.deref (some s.mem.heap.length) = some n ∧
      n.boundingBox = lib.GetModelBoundingBox model ∧ n.position = position := by
  refine ⟨?_, ?_, ?_⟩
  · obtain ⟨m1, hubb, _, _, hd1⟩ := UpdateBoundingBoxes_ring lib fuel hring hfuel
    have hk1 : Keeps Node.topology s.mem m1 := Keeps.of_map (refreshed_topology lib) hd1
    have hring1 : Ring m1 head xs := Ring.of_keeps hk1.next_of_topology hring
    have huse1 : UsesExampleHooks m1 xs := huse.of_keeps_topology hk1
    obtain ⟨s2, hcc, _, _, hmem2⟩ :=
      CheckCollisions_ring_run lib (exampleHooks lib) fuel
        (s := { s with mem := m1 }) hring1 (huse1.collisionOk lib) hfuel
    have hk2 : Keeps Node.topology m1 s2.mem :=
      runCalls_example_keeps Node.topology _ _ _ (fun _ _ _ _ hstep => hstep.topology) hmem2
    have hring2 : Ring s2.mem head xs := Ring.of_keeps hk2.next_of_topology hring1
    have huse2 : UsesExampleHooks s2.mem xs := huse1.of_keeps_topology hk2
    obtain ⟨s3, hrm, _, _, _, hd3⟩ :=
      RenderModels_example lib fuel hring2 (fun x hx n hn => (huse2 x hx n hn).1) hfuel
    have hcur1 : ∀ x ∈ xs, ∃ n, m1.deref (some x) = some n ∧ n.boxCurrent lib := by
      intro x hx
      obtain ⟨n, hn⟩ := hring.mem_live x hx
      exact ⟨Node.refreshed lib n, by rw [hd1, if_pos (List.mem_map_of_mem _ hx), hn]; rfl,
        boxCurrent_refreshed lib n⟩
    have hcur2 : ∀ x ∈ xs, ∃ n, s2.mem.deref (some x) = some n ∧ n.boxCurrent lib := by
      intro x hx
      obtain ⟨n1, hn1, hc1⟩ := hcur1 x hx
      obtain ⟨n2, hn2, hI⟩ := runCalls_example_invariant_of
        (fun j => j.exceptTag0 = n1.exceptTag0) (collisionCalls lib m1 xs) m1 s2.mem
        (fun c hc j j' hstep hj =>
          (hstep.exceptTag0 (collisionCalls_shape lib m1 xs c hc).1).trans hj)
        hmem2 (some x) n1 hn1 rfl
      exact ⟨n2, hn2, boxCurrent_of_exceptTag0 hI hc1⟩
    refine ⟨m1, s2, s3, hubb, hcc, hrm, hcur1, hcur2, ?_⟩
    intro x hx
    obtain ⟨n2, hn2, hc2⟩ := hcur2 x hx
    refine ⟨n2, tickedNode n2, hn2, ?_, tickedNode_boundingBox n2, ?_, ?_, tickedNode_x n2,
      (boxCurrent_ticked hc2).2⟩
    · rw [hd3, if_pos (List.mem_map_of_mem _ hx), hn2]
      rfl
    · rw [tickedNode_boundingBox, tickedNode_model]
      exact hc2.1
    · rw [tickedNode_boundingBox, tickedNode_model]
      exact hc2.2
  · obtain ⟨t', hcreate, hn0⟩ := CreateNode_example lib model position tick onCollision t
    exact ⟨t', _, hcreate, hn0, rfl, rfl⟩
  · obtain ⟨head', s', hins, _, _⟩ := InsertEnd_ring lib (exampleHooks lib) fuel model position
      tick onCollision hring (exampleHooks_beginPlayOk lib) hfuel
    obtain ⟨n, hn, hpos, hbox, _⟩ := InsertEnd_new_node hins
    exact ⟨head', s', n, hins, hn, hbox, hpos⟩

theorem box_current_when_read_witness :
    Ring demoState2.mem (some 0) [0, 1] ∧
    ∃ m1 s2 s3, UpdateBoundingBoxes demoLib 2 (some 0) demoState2.mem = some m1 ∧
      CheckCollisions demoLib (exampleHooks demoLib) 2 (some 0)
        { demoState2 with mem := m1 } = some s2 ∧
      RenderModels (exampleHooks demoLib) 2 (some 0) s2 = some s3 ∧
      (∀ x ∈ [0, 1], ∃ n, m1.deref (some x) = some n ∧ n.boxCurrent demoLib) ∧
      (∀ x ∈ [0, 1], ∃ n, s2.mem.deref (some x) = some n ∧ n.boxCurrent demoLib) :=
  ⟨by decide,
    let ⟨m1, s2, s3, h1, h2, h3, h4, h5, _⟩ :=
      (box_current_when_read demoLib 2 (some 0) [0, 1] demoState2 7 ⟨2, 0, 0⟩
        (some fnExampleTick) (some fnExampleCollision) emptyState (by decide) demoState2_uses
        (by decide)).1
    ⟨m1, s2, s3, h1, h2, h3, h4, h5⟩⟩

end ECS
